import Mathlib

set_option maxRecDepth 8000
set_option maxHeartbeats 1000000

/-!
# Verification of the libm fragment (fabsf, trunc, fmaf, powi, exp2f, acoshf)

We embed the repository's six math functions in Lean.  IEEE-754 values are
modelled field-wise (sign, biased exponent, fraction); the arithmetic the
source performs on `f32`/`f64` is modelled by exact rational arithmetic
followed by round-to-nearest-even, which is the semantics of Rust's primitive
float operations.  The bit-twiddling functions (`fabsf`, `trunc`) are
modelled directly on raw bit patterns, as in the source.

Rational computations inside the model use `Q`, an unnormalised
numerator/denominator pair whose operations are plain integer arithmetic
(so that concrete instances evaluate inside the kernel); `Q.val` maps it to
Mathlib's `ℚ` for all specification-level reasoning.

External collaborators (`sqrtf`, `logf`, `log1pf`, `powf`) are not part of
the repository sources; they are modelled from the spec's contracts where
needed (see the `Modelled from the spec:` doc comments).
-/

/-! ## IEEE-754 data model -/

/-- An IEEE-754 binary value with `ew` exponent bits and `mw` fraction bits,
stored field-wise exactly as in the interchange format. -/
structure Fp (ew mw : Nat) where
  sign : Bool
  ex : Nat
  frac : Nat
deriving DecidableEq

/-- Exponent bias: `2^(ew-1) - 1` (127 for binary32, 1023 for binary64). -/
def bias (ew : Nat) : Nat := 2 ^ (ew - 1) - 1

/-- The all-ones exponent field, reserved for infinities and NaNs. -/
def emaxF (ew : Nat) : Nat := 2 ^ ew - 1

variable {ew mw : Nat}

/-- Well-formedness of the stored fields. -/
def Fp.Valid (x : Fp ew mw) : Prop := x.ex < 2 ^ ew ∧ x.frac < 2 ^ mw

instance (x : Fp ew mw) : Decidable x.Valid := by unfold Fp.Valid; infer_instance

def Fp.isNan (x : Fp ew mw) : Bool := (x.ex == emaxF ew) && (x.frac != 0)

def Fp.isInf (x : Fp ew mw) : Bool := (x.ex == emaxF ew) && (x.frac == 0)

def Fp.isZero (x : Fp ew mw) : Bool := (x.ex == 0) && (x.frac == 0)

def Fp.isFinite (x : Fp ew mw) : Bool := x.ex != emaxF ew

def Fp.isSubnormal (x : Fp ew mw) : Bool := (x.ex == 0) && (x.frac != 0)

/-- The rational value of a finite `Fp` (garbage on non-finite inputs,
which are always special-cased before `toRat` is consulted). -/
def Fp.toRat (x : Fp ew mw) : ℚ :=
  let sig : ℚ := if x.ex = 0 then (x.frac : ℚ) else 2 ^ mw + (x.frac : ℚ)
  let e : ℤ := (if x.ex = 0 then 1 else (x.ex : ℤ)) - bias ew - mw
  (if x.sign then -1 else 1) * sig * (2 : ℚ) ^ e

/-- Canonical quiet NaN returned by arithmetic when the source's NaN payload
is unspecified (Rust leaves arithmetic NaN payloads unspecified). -/
def Fp.qNaN (ew mw : Nat) : Fp ew mw := ⟨false, emaxF ew, 2 ^ (mw - 1)⟩

def Fp.infinity (ew mw : Nat) (s : Bool) : Fp ew mw := ⟨s, emaxF ew, 0⟩

def Fp.szero (ew mw : Nat) (s : Bool) : Fp ew mw := ⟨s, 0, 0⟩

def Fp.pzero (ew mw : Nat) : Fp ew mw := ⟨false, 0, 0⟩

/-- Negation: flips the sign bit, exactly as Rust's `-` on floats. -/
def Fp.neg (x : Fp ew mw) : Fp ew mw := ⟨!x.sign, x.ex, x.frac⟩

/-- Raw bit pattern of a value (sign bit on top), as `f32::to_bits` /
`f64::to_bits` produce it. -/
def Fp.toBits (x : Fp ew mw) : Nat :=
  (if x.sign then 2 ^ (ew + mw) else 0) + x.ex * 2 ^ mw + x.frac

/-- Reinterpret a raw bit pattern, as `f32::from_bits` / `f64::from_bits`. -/
def Fp.ofBits (ew mw : Nat) (b : Nat) : Fp ew mw :=
  ⟨b / 2 ^ (ew + mw) % 2 = 1, b / 2 ^ mw % 2 ^ ew, b % 2 ^ mw⟩

abbrev F32 := Fp 8 23
abbrev F64 := Fp 11 52

/-! ## Bit-level sources: `fabsf` and `trunc`

`fabsf` (src/math/fabsf.rs) clears the sign bit of the raw bit pattern:
`f32::from_bits(x.to_bits() & 0x7fffffff)`.  We model it on the 32-bit
pattern itself. -/

def fabsf (b : Nat) : Nat := b &&& 0x7fffffff

/-- Rust `-x` on an `f32` bit pattern: flip the sign bit. -/
def negBits32 (b : Nat) : Nat := b ^^^ 0x80000000

/-- `trunc` (src/math/trunc.rs), modelled on the raw 64-bit pattern.

```rust
let mut i: u64 = x.to_bits();
let mut e: i64 = (i >> 52 & 0x7ff) as i64 - 0x3ff + 12;
if e >= 52 + 12 { return x; }
if e < 12 { e = 1; }
m = -1i64 as u64 >> e;
if (i & m) == 0 { return x; }
force_eval!(x + x1p120);
i &= !m;
f64::from_bits(i)
```

`force_eval!(x + x1p120)` only raises the hardware inexact flag; floating
point environment flags have no value-level effect and are not modelled. -/
def trunc (i : Nat) : Nat :=
  let e : Int := ((i >>> 52) &&& 0x7ff : Nat) - 0x3ff + 12
  if 52 + 12 ≤ e then i
  else
    let e' : Int := if e < 12 then 1 else e
    let m : Nat := 0xffffffffffffffff >>> e'.toNat
    if i &&& m = 0 then i
    else i &&& (0xffffffffffffffff ^^^ m)

/-- Which of `trunc`'s three exits handles an input. -/
inductive TruncExit where
  | bigExp
  | maskedZero
  | cleared
deriving DecidableEq

/-- Mirror of `trunc`'s control flow, recording the exit taken. -/
def truncExit (i : Nat) : TruncExit :=
  let e : Int := ((i >>> 52) &&& 0x7ff : Nat) - 0x3ff + 12
  if 52 + 12 ≤ e then .bigExp
  else
    let e' : Int := if e < 12 then 1 else e
    let m : Nat := 0xffffffffffffffff >>> e'.toNat
    if i &&& m = 0 then .maskedZero
    else .cleared

/-! ## Kernel-computable rationals -/

/-- Unnormalised rational number: `num / den` with `den` kept positive by
construction.  No gcd normalisation is performed, so every operation is
plain integer arithmetic. -/
structure Q where
  num : Int
  den : Nat
deriving DecidableEq

/-- The value of a `Q` as a Mathlib rational; all specification-level
reasoning happens through this map. -/
def Q.val (q : Q) : ℚ := (q.num : ℚ) / (q.den : ℚ)

def Q.ofInt (n : Int) : Q := ⟨n, 1⟩

def Q.add (a b : Q) : Q := ⟨a.num * b.den + b.num * a.den, a.den * b.den⟩

def Q.mul (a b : Q) : Q := ⟨a.num * b.num, a.den * b.den⟩

def Q.neg (a : Q) : Q := ⟨-a.num, a.den⟩

/-- Reciprocal (never invoked on zero by the float operations, which
special-case zero divisors first). -/
def Q.inv (a : Q) : Q :=
  if a.num < 0 then ⟨-(a.den : Int), a.num.natAbs⟩ else ⟨(a.den : Int), a.num.natAbs⟩

def Q.div (a b : Q) : Q := a.mul b.inv

def Q.blt (a b : Q) : Bool := a.num * b.den < b.num * a.den

def Q.ble (a b : Q) : Bool := a.num * b.den ≤ b.num * a.den

def Q.floor (a : Q) : Int := a.num.fdiv a.den

/-- `2^e` as a `Q`. -/
def Q.pow2 (e : Int) : Q := if 0 ≤ e then ⟨2 ^ e.toNat, 1⟩ else ⟨1, 2 ^ (-e).toNat⟩

/-- The exact rational value of a finite `Fp`, in computable form;
`(toQ x).val = toRat x`. -/
def Fp.toQ (x : Fp ew mw) : Q :=
  let sig : Int := (if x.ex = 0 then x.frac else 2 ^ mw + x.frac : Nat)
  let sig : Int := if x.sign then -sig else sig
  let e : Int := (if x.ex = 0 then 1 else (x.ex : Int)) - bias ew - mw
  if 0 ≤ e then ⟨sig * 2 ^ e.toNat, 1⟩ else ⟨sig, 2 ^ (-e).toNat⟩

/-! ## Round to nearest even

Rust's primitive float arithmetic is IEEE-754 round-to-nearest-even; we model
it by exact rational arithmetic followed by `roundF`. -/

/-- Fuel-driven binary logarithm; `nlog2F f n` descends through `n/2` at
most `f` times. -/
def nlog2F : Nat → Nat → Nat
  | 0, _ => 0
  | f+1, n => if n ≤ 1 then 0 else nlog2F f (n / 2) + 1

/-- `nlog2 n` is the `k` with `2^k ≤ n < 2^(k+1)` for `n ≥ 1` (the fuel
`n` always suffices since `n < 2^n`). -/
def nlog2 (n : Nat) : Nat := nlog2F n n

/-- `qlog2 a` is the integer `e` with `2^e ≤ a < 2^(e+1)`, for `a > 0`. -/
def qlog2 (a : Q) : Int :=
  if a.den ≤ a.num.toNat then (nlog2 (a.num.toNat / a.den) : Int)
  else
    let e := nlog2 (a.den / a.num.toNat)
    if (a.den : Int) ≤ a.num * 2 ^ e then -(e : Int) else -(e : Int) - 1

/-- Round a nonnegative `Q` to the nearest natural, ties to even. -/
def rne (q : Q) : Nat :=
  if (q.den : Int) < 2 * (q.num - q.num.fdiv q.den * q.den) then (q.num.fdiv q.den + 1).toNat
  else if 2 * (q.num - q.num.fdiv q.den * q.den) < (q.den : Int) then (q.num.fdiv q.den).toNat
  else if q.num.fdiv q.den % 2 = 0 then (q.num.fdiv q.den).toNat
  else (q.num.fdiv q.den + 1).toNat

/-- Pack a rounded result: sign `s`, provisional exponent `E`, rounded
significand `z` (with renormalisation when `z = 2^(mw+1)`, underflow to a
subnormal when `z < 2^mw`, and overflow to infinity). -/
def roundCore (ew mw : Nat) (s : Bool) (E : Int) (z : Nat) : Fp ew mw :=
  if z = 0 then Fp.szero ew mw s
  else if z < 2 ^ mw then ⟨s, 0, z⟩
  else if (bias ew : Int) < (if z = 2 ^ (mw + 1) then E + 1 else E) then Fp.infinity ew mw s
  else ⟨s, ((if z = 2 ^ (mw + 1) then E + 1 else E) + bias ew).toNat,
        (if z = 2 ^ (mw + 1) then 2 ^ mw else z) - 2 ^ mw⟩

/-- Round a rational to the nearest `Fp ew mw` value (ties to even,
overflow to infinity, exact zero to `+0`). -/
def roundF (ew mw : Nat) (q : Q) : Fp ew mw :=
  if q.num = 0 then Fp.pzero ew mw
  else roundCore ew mw (decide (q.num < 0))
    (max (qlog2 ⟨(q.num.natAbs : Int), q.den⟩) (1 - bias ew))
    (rne ((⟨(q.num.natAbs : Int), q.den⟩ : Q).mul
      (Q.pow2 ((mw : Int) - max (qlog2 ⟨(q.num.natAbs : Int), q.den⟩) (1 - bias ew)))))

/-! ## Arithmetic operations -/

def Fp.add (x y : Fp ew mw) : Fp ew mw :=
  if x.isNan || y.isNan then Fp.qNaN ew mw
  else if x.isInf then (if y.isInf && (x.sign != y.sign) then Fp.qNaN ew mw else x)
  else if y.isInf then y
  else
    let q := x.toQ.add y.toQ
    if q.num = 0 then (if x.sign == y.sign then Fp.szero ew mw x.sign else Fp.pzero ew mw)
    else roundF ew mw q

def Fp.sub (x y : Fp ew mw) : Fp ew mw := x.add y.neg

def Fp.mul (x y : Fp ew mw) : Fp ew mw :=
  if x.isNan || y.isNan then Fp.qNaN ew mw
  else if x.isInf || y.isInf then
    (if x.isZero || y.isZero then Fp.qNaN ew mw else Fp.infinity ew mw (x.sign != y.sign))
  else if x.isZero || y.isZero then Fp.szero ew mw (x.sign != y.sign)
  else roundF ew mw (x.toQ.mul y.toQ)

def Fp.div (x y : Fp ew mw) : Fp ew mw :=
  if x.isNan || y.isNan then Fp.qNaN ew mw
  else if x.isInf then (if y.isInf then Fp.qNaN ew mw else Fp.infinity ew mw (x.sign != y.sign))
  else if y.isInf then Fp.szero ew mw (x.sign != y.sign)
  else if y.isZero then (if x.isZero then Fp.qNaN ew mw else Fp.infinity ew mw (x.sign != y.sign))
  else if x.isZero then Fp.szero ew mw (x.sign != y.sign)
  else roundF ew mw (x.toQ.div y.toQ)

/-- IEEE `<` on floats: false on NaN, `-0 == +0`. -/
def Fp.lt (x y : Fp ew mw) : Bool :=
  if x.isNan || y.isNan then false
  else if x.isInf then (if x.sign then !(y.isInf && y.sign) else false)
  else if y.isInf then !y.sign
  else x.toQ.blt y.toQ

/-- IEEE `<=` on floats: false on NaN, `-0 == +0`. -/
def Fp.le (x y : Fp ew mw) : Bool :=
  if x.isNan || y.isNan then false
  else if x.isInf then (if x.sign then true else y.isInf && !y.sign)
  else if y.isInf then !y.sign
  else x.toQ.ble y.toQ

/-! ## Correctly rounded square root -/

/-- Bit-by-bit integer square root: `isqrtStep n k r` refines `r` through
`k` remaining bits, preserving `r^2 ≤ n`. -/
def isqrtStep (n : Nat) : Nat → Nat → Nat
  | 0, r => r
  | k+1, r =>
    let c := r + 2 ^ k
    if c * c ≤ n then isqrtStep n k c else isqrtStep n k r

/-- Correctly rounded square root (round to nearest even; the tie is
impossible since `4N` is even while `(2c₀+1)²` is odd). -/
def Fp.sqrt (x : Fp ew mw) : Fp ew mw :=
  if x.isNan then Fp.qNaN ew mw
  else if x.isZero then x
  else if x.sign then Fp.qNaN ew mw
  else if x.isInf then x
  else
    let sig : Nat := if x.ex = 0 then x.frac else 2 ^ mw + x.frac
    let t : Int := (if x.ex = 0 then 1 else (x.ex : Int)) - bias ew - mw
    let e2 := qlog2 x.toQ
    let Es : Int := e2.fdiv 2
    let sh : Int := t + 2 * ((mw : Int) - Es)
    let N : Nat := sig * 2 ^ sh.toNat
    let c0 := isqrtStep N (mw + 2) 0
    let c := if (2*c0+1) * (2*c0+1) < 4 * N then c0 + 1 else c0
    if c = 2 ^ (mw + 1) then ⟨false, (Es + 1 + bias ew).toNat, 0⟩
    else ⟨false, (Es + bias ew).toNat, c - 2 ^ mw⟩

/-- The halved exponent used by `Fp.sqrt` (an abbreviation of its `Es`). -/
def sqrtEs (x : Fp ew mw) : Int := (qlog2 x.toQ).fdiv 2

/-- The scaled integer radicand of `Fp.sqrt` (its `N`). -/
def sqrtN (x : Fp ew mw) : Nat :=
  (if x.ex = 0 then x.frac else 2 ^ mw + x.frac) *
    2 ^ ((if x.ex = 0 then 1 else (x.ex : Int)) - bias ew - mw
      + 2 * ((mw : Int) - sqrtEs x)).toNat

/-- The rounded integer square root of `sqrtN` (its `c`). -/
def sqrtC (x : Fp ew mw) : Nat :=
  if (2 * isqrtStep (sqrtN x) (mw + 2) 0 + 1) * (2 * isqrtStep (sqrtN x) (mw + 2) 0 + 1)
      < 4 * sqrtN x
  then isqrtStep (sqrtN x) (mw + 2) 0 + 1 else isqrtStep (sqrtN x) (mw + 2) 0

/-! ## Constants -/

def one32 : F32 := ⟨false, 127, 0⟩
def two32 : F32 := ⟨false, 128, 0⟩
/-- `const LN2: f32 = 0.693147180559945309417232121458176568;` rounded to
binary32 by the Rust compiler: bit pattern 0x3F317218. -/
def ln2F32 : F32 := ⟨false, 126, 0x317218⟩
def one64 : F64 := ⟨false, 1023, 0⟩
def zero64 : F64 := Fp.pzero 11 52
def two64 : F64 := ⟨false, 1024, 0⟩

/-- Trailing-zero count of `n` (fuel-based; the fuel `f = n` suffices). -/
def ctzF : Nat → Nat → Nat
  | 0, _ => 0
  | f+1, n => if n % 2 = 1 || n = 0 then 0 else ctzF f (n / 2) + 1

/-- Number of significant bits of an integer significand: the span from the
most significant set bit down to the least significant set bit. -/
def sigBits (n : Nat) : Nat := if n = 0 then 0 else nlog2 n + 1 - ctzF n n

/-- The computed exponent of `trunc`:
`(i >> 52 & 0x7ff) as i64 - 0x3ff + 12` (an abbreviation of `trunc`'s `e`). -/
def truncE (i : Nat) : Int := (((i >>> 52) &&& 0x7ff : Nat) : Int) - 0x3ff + 12

/-- `trunc`'s clamped shift `e` after the `if e < 12 { e = 1 }` fix-up. -/
def truncEp (i : Nat) : Int := if truncE i < 12 then 1 else truncE i

/-- `trunc`'s low-bit mask `m = -1i64 as u64 >> e`. -/
def truncM (i : Nat) : Nat := 0xffffffffffffffff >>> (truncEp i).toNat

/-! ## `fmaf` and its `split` primitive (src/math/fmaf.rs) -/

/-- `split` (src/math/fmaf.rs):
```rust
let t = 1e0 * x; // FMSF uses (1 << 12) + 1) * x ...; we use (0 << 12) + 1) * x
let hi = t - (t - x);
let lo = x - hi;
(hi, lo)
``` -/
def split (x : F32) : F32 × F32 :=
  let t := Fp.mul one32 x
  let hi := Fp.sub t (Fp.sub t x)
  let lo := Fp.sub x hi
  (hi, lo)

/-- `fmaf` (src/math/fmaf.rs): `((hx * hy + z) + hx * ly + lx) + lx * ly`. -/
def fmaf (x y z : F32) : F32 :=
  let hx := (split x).1
  let lx := (split x).2
  let hy := (split y).1
  let ly := (split y).2
  Fp.add (Fp.add (Fp.add (Fp.add (Fp.mul hx hy) z) (Fp.mul hx ly)) lx) (Fp.mul lx ly)

/-! ## `powi` (src/math/powi.rs)

The source declares `let mut powers: Vec<f64>;` without initialising it (a
compile-time error in Rust as written); the evidently intended start is an
empty vector, so after the two `push`es the table is `[1., x]` and never
grows.  Rust's `Vec` indexing panics out of bounds; a panic is modelled as
`none`. -/

/-- One iteration of `powi`'s while-loop body:
`if powers[2 * i] <= 0. { powers[2 * i] = powers[i] * powers[i]; }`. -/
def powiBody (ps : List F64) (i : Nat) : Option (List F64) :=
  match ps[2 * i]? with
  | none => none
  | some v =>
    if Fp.le v zero64 then
      match ps[i]? with
      | none => none
      | some p => some (ps.set (2 * i) (Fp.mul p p))
    else some ps

/-- `while i < exp / 2 { ...body...; i += 1 }`, with enough fuel that the
fuel never runs out for the call below. -/
def powiLoop (half : Nat) : Nat → List F64 → Nat → Option (List F64 × Nat)
  | 0, ps, i => some (ps, i)
  | fuel+1, ps, i =>
    if i < half then
      match powiBody ps i with
      | none => none
      | some ps' => powiLoop half fuel ps' (i + 1)
    else some (ps, i)

/-- `powi` (src/math/powi.rs). -/
def powi (x : F64) (exp : Nat) : Option F64 :=
  let powers : List F64 := [one64, x]
  if exp = 0 then some one64
  else
    match powiLoop (exp / 2) (exp / 2) powers 1 with
    | none => none
    | some (ps, i) => if exp ≤ i then ps[i]? else some (Fp.pzero 11 52)

/-! ## Spec-modelled external collaborators

`acoshf` uses `sqrtf`, `logf`, `log1pf` and `exp2f` uses `powf`; none of
these are part of the repository sources (src/ holds only the six files).
They are modelled from the spec (§6: "treated as trusted primitives with
standard-library-equivalent contracts"). -/

/-- Modelled from the spec: `sqrtf` is an external collaborator with a
standard-library-equivalent contract; IEEE-754 specifies square root exactly
(correctly rounded, `sqrt(-0) = -0`, NaN for negative arguments), which
`Fp.sqrt` implements. -/
def sqrtf (x : F32) : F32 := Fp.sqrt x

/-- Modelled from the spec: `logf` is an external collaborator; its
standard-library contract fixes the special values (NaN for negative or NaN
argument, `log(±0) = -∞`, `log(+∞) = +∞`) and the sign (`log v ≥ 0` iff
`v ≥ 1`).  Finite positive results are otherwise unspecified; the model
returns a contract-conforming stand-in (the unbiased exponent, a crude
integer log₂, which is `≥ 0` exactly when `v ≥ 1`). -/
def logf (x : F32) : F32 :=
  if x.isNan then Fp.qNaN 8 23
  else if x.isZero then Fp.infinity 8 23 true
  else if x.sign then Fp.qNaN 8 23
  else if x.isInf then x
  else roundF 8 23 (Q.ofInt ((if x.ex = 0 then 1 else (x.ex : Int)) - bias 8))

/-- Modelled from the spec: `log1pf` is an external collaborator; its
standard-library contract fixes the special values (NaN for `u < -1` or `u`
NaN, `log1p(-1) = -∞`, `log1p(±0) = ±0`, `log1p(+∞) = +∞`) and the sign
(`log1p u` has the sign of `u`).  Finite nonzero results are otherwise
unspecified; the model returns the contract-conforming stand-in `u` itself
(`log1p u ≈ u` near zero). -/
def log1pf (u : F32) : F32 :=
  if u.isNan then Fp.qNaN 8 23
  else if u.isInf then (if u.sign then Fp.qNaN 8 23 else u)
  else if u.lt (Fp.neg one32) then Fp.qNaN 8 23
  else if u = Fp.neg one32 then Fp.infinity 8 23 true
  else u

/-- Modelled from the spec: `powf` is the external general power collaborator
to which `exp2f` delegates (§4.6); it performs its own range reduction and
special-value handling and is total.  Only totality and NaN propagation are
contractual here; other results are an unspecified stand-in. -/
def powf (x y : F32) : F32 :=
  if x.isNan || y.isNan then Fp.qNaN 8 23 else one32

/-- `exp2f` (src/math/exp2f.rs): `powf(2f32, x)`. -/
def exp2f (x : F32) : F32 := powf two32 x

/-! ## `acoshf` (src/math/acoshf.rs) -/

/-- `acoshf`:
```rust
let u = x.to_bits();
let a = u & 0x7fffffff;
if a < 0x3f800000 + (1 << 23) {
    return log1pf(x - 1.0 + sqrtf((x - 1.0) * (x - 1.0) + 2.0 * (x - 1.0)));
}
if a < 0x3f800000 + (12 << 23) {
    return logf(2.0 * x - 1.0 / (x + sqrtf(x * x - 1.0)));
}
return logf(x) + LN2;
``` -/
def acoshf (x : F32) : F32 :=
  let u := x.toBits
  let a := u &&& 0x7fffffff
  if a < 0x3f800000 + (1 <<< 23) then
    log1pf (Fp.add (Fp.sub x one32)
      (sqrtf (Fp.add (Fp.mul (Fp.sub x one32) (Fp.sub x one32))
        (Fp.mul two32 (Fp.sub x one32)))))
  else if a < 0x3f800000 + (12 <<< 23) then
    logf (Fp.sub (Fp.mul two32 x)
      (Fp.div one32 (Fp.add x (sqrtf (Fp.sub (Fp.mul x x) one32)))))
  else
    Fp.add (logf x) ln2F32

/-! ## Bridging `Q` to `ℚ` -/

theorem Q.val_eq (q : Q) : q.val = (q.num : ℚ) / (q.den : ℚ) := rfl

theorem Q.den_cast_ne (q : Q) (h : 0 < q.den) : ((q.den : ℚ)) ≠ 0 := by
  exact_mod_cast Nat.pos_iff_ne_zero.mp h

theorem Q.val_ofInt (n : Int) : (Q.ofInt n).val = (n : ℚ) := by
  simp [Q.ofInt, Q.val]

theorem Q.val_add (a b : Q) (ha : 0 < a.den) (hb : 0 < b.den) :
    (a.add b).val = a.val + b.val := by
  have ha' := a.den_cast_ne ha
  have hb' := b.den_cast_ne hb
  unfold Q.add Q.val
  push_cast
  field_simp

theorem Q.val_mul (a b : Q) (ha : 0 < a.den) (hb : 0 < b.den) :
    (a.mul b).val = a.val * b.val := by
  have ha' := a.den_cast_ne ha
  have hb' := b.den_cast_ne hb
  unfold Q.mul Q.val
  push_cast
  field_simp

theorem Q.val_neg (a : Q) : a.neg.val = -a.val := by
  unfold Q.neg Q.val
  push_cast
  ring

theorem Q.val_inv (a : Q) (ha : 0 < a.den) : a.inv.val = a.val⁻¹ := by
  have ha' := a.den_cast_ne ha
  unfold Q.inv Q.val
  rcases lt_trichotomy a.num 0 with h | h | h
  · have hn : ((a.num.natAbs : ℚ)) = -(a.num : ℚ) := by
      push_cast [Int.cast_natAbs]
      exact abs_of_nonpos (by exact_mod_cast h.le)
    simp only [if_pos h]
    rw [inv_div]
    push_cast [hn]
    rw [div_neg, neg_div, neg_neg]
  · simp [h]
  · have hn : ((a.num.natAbs : ℚ)) = (a.num : ℚ) := by
      push_cast [Int.cast_natAbs]
      exact abs_of_nonneg (by exact_mod_cast h.le)
    simp only [if_neg (not_lt.mpr h.le)]
    rw [inv_div]
    push_cast [hn]
    rfl

theorem Q.val_div (a b : Q) (ha : 0 < a.den) (hb : 0 < b.den) :
    (a.div b).val = a.val / b.val := by
  by_cases hb0 : b.num = 0
  · unfold Q.div Q.inv Q.val
    simp [hb0, Q.mul]
  · have : 0 < b.inv.den := by
      unfold Q.inv
      split <;> simpa using Int.natAbs_pos.mpr hb0
    rw [Q.div, Q.val_mul a b.inv ha this, Q.val_inv b hb, div_eq_mul_inv]

theorem Q.add_den_pos (a b : Q) (ha : 0 < a.den) (hb : 0 < b.den) :
    0 < (a.add b).den := Nat.mul_pos ha hb

theorem Q.mul_den_pos (a b : Q) (ha : 0 < a.den) (hb : 0 < b.den) :
    0 < (a.mul b).den := Nat.mul_pos ha hb

theorem Q.blt_iff (a b : Q) (ha : 0 < a.den) (hb : 0 < b.den) :
    a.blt b = true ↔ a.val < b.val := by
  have ha' : (0:ℚ) < (a.den : ℚ) := by exact_mod_cast ha
  have hb' : (0:ℚ) < (b.den : ℚ) := by exact_mod_cast hb
  unfold Q.blt Q.val
  rw [div_lt_div_iff ha' hb']
  rw [decide_eq_true_iff]
  constructor
  · intro h
    exact_mod_cast (by exact_mod_cast h : ((a.num * b.den : ℤ) : ℚ) < ((b.num * a.den : ℤ) : ℚ))
  · intro h
    exact_mod_cast h

theorem Q.ble_iff (a b : Q) (ha : 0 < a.den) (hb : 0 < b.den) :
    a.ble b = true ↔ a.val ≤ b.val := by
  have ha' : (0:ℚ) < (a.den : ℚ) := by exact_mod_cast ha
  have hb' : (0:ℚ) < (b.den : ℚ) := by exact_mod_cast hb
  unfold Q.ble Q.val
  rw [div_le_div_iff ha' hb']
  rw [decide_eq_true_iff]
  constructor
  · intro h
    exact_mod_cast (by exact_mod_cast h : ((a.num * b.den : ℤ) : ℚ) ≤ ((b.num * a.den : ℤ) : ℚ))
  · intro h
    exact_mod_cast h

theorem Q.num_eq_zero_iff (q : Q) (h : 0 < q.den) : q.num = 0 ↔ q.val = 0 := by
  unfold Q.val
  rw [div_eq_zero_iff]
  have := q.den_cast_ne h
  constructor
  · intro h0; exact Or.inl (by exact_mod_cast h0)
  · rintro (h0 | h0)
    · exact_mod_cast h0
    · exact absurd h0 this

theorem Q.floor_eq (q : Q) (h : 0 < q.den) : q.floor = ⌊q.val⌋ := by
  unfold Q.floor Q.val
  rw [Rat.floor_intCast_div_natCast]
  exact Int.fdiv_eq_ediv _ (by exact_mod_cast h.le)

theorem Q.val_pow2 (e : Int) : (Q.pow2 e).val = (2:ℚ) ^ e := by
  unfold Q.pow2 Q.val
  split
  · rename_i h
    push_cast
    rw [← zpow_natCast (2:ℚ) e.toNat, Int.toNat_of_nonneg h]
    simp
  · rename_i h
    push_cast
    rw [← zpow_natCast (2:ℚ) (-e).toNat, Int.toNat_of_nonneg (by omega)]
    rw [zpow_neg]
    simp

theorem Q.pow2_den_pos (e : Int) : 0 < (Q.pow2 e).den := by
  unfold Q.pow2
  split <;> positivity

theorem Q.val_pow2_pos (e : Int) : 0 < (Q.pow2 e).val := by
  rw [Q.val_pow2]; positivity

theorem qpow_toNat (e : Int) (h : 0 ≤ e) : (2:ℚ) ^ e = (2:ℚ) ^ e.toNat := by
  rw [← zpow_natCast (2:ℚ) e.toNat, Int.toNat_of_nonneg h]

theorem qpow_toNat_neg (e : Int) (h : ¬ 0 ≤ e) : (2:ℚ) ^ e = 1 / (2:ℚ) ^ (-e).toNat := by
  rw [← zpow_natCast (2:ℚ) (-e).toNat, Int.toNat_of_nonneg (by omega), zpow_neg]
  simp

theorem Fp.toQ_den_pos (x : Fp ew mw) : 0 < x.toQ.den := by
  simp only [Fp.toQ]
  by_cases h : 0 ≤ (if x.ex = 0 then 1 else (x.ex : Int)) - bias ew - mw
  · rw [if_pos h]
    exact Nat.one_pos
  · rw [if_neg h]
    positivity

theorem Fp.toQ_val (x : Fp ew mw) : x.toQ.val = x.toRat := by
  rcases x with ⟨s, xex, xfr⟩
  simp only [Fp.toQ, Fp.toRat, Q.val]
  by_cases hE : 0 ≤ (if xex = 0 then 1 else (xex : Int)) - bias ew - mw
  · rw [if_pos hE, qpow_toNat _ hE]
    set K := ((if xex = 0 then 1 else (xex : Int)) - bias ew - mw).toNat with hK
    by_cases hex : xex = 0 <;> cases s <;>
      simp only [hex, reduceIte, ite_true, ite_false] <;> push_cast <;> ring
  · rw [if_neg hE, qpow_toNat_neg _ hE]
    set K := (-((if xex = 0 then 1 else (xex : Int)) - bias ew - mw)).toNat with hK
    have hden : ((2:ℚ) ^ K) ≠ 0 := by positivity
    by_cases hex : xex = 0 <;> cases s <;>
      simp only [hex, reduceIte, ite_true, ite_false] <;> push_cast <;> field_simp

theorem nlog2F_spec (f : Nat) : ∀ (n : Nat), 1 ≤ n → n ≤ 2 ^ f →
    2 ^ nlog2F f n ≤ n ∧ n < 2 ^ (nlog2F f n + 1) := by
  induction f with
  | zero =>
    intro n h1 h2
    simp only [pow_zero] at h2
    have : n = 1 := le_antisymm h2 h1
    subst this
    simp [nlog2F]
  | succ f ih =>
    intro n h1 h2
    by_cases hn : n ≤ 1
    · have : n = 1 := le_antisymm hn h1
      subst this
      simp [nlog2F]
    · have h1' : 1 ≤ n / 2 := by omega
      have h2' : n / 2 ≤ 2 ^ f := by
        have : n ≤ 2 * 2 ^ f := by rw [← pow_succ']; exact h2
        omega
      obtain ⟨ha, hb⟩ := ih (n / 2) h1' h2'
      have hstep : nlog2F (f + 1) n = nlog2F f (n / 2) + 1 := by
        rw [nlog2F]
        simp [hn]
      rw [hstep]
      set K := nlog2F f (n / 2) with hK
      have e1 : 2 ^ (K + 1) = 2 * 2 ^ K := by rw [pow_succ]; ring
      have e2 : 2 ^ (K + 1 + 1) = 4 * 2 ^ K := by rw [pow_succ, pow_succ]; ring
      rw [e1, e2]
      rw [e1] at hb
      omega

theorem nlog2_spec (n : Nat) (h : 1 ≤ n) :
    2 ^ nlog2 n ≤ n ∧ n < 2 ^ (nlog2 n + 1) :=
  nlog2F_spec n n h (Nat.lt_two_pow n).le

theorem nat_lt_div_succ_mul (a b : Nat) (hb : 0 < b) : a < (a / b + 1) * b := by
  calc a = b * (a / b) + a % b := (Nat.div_add_mod a b).symm
    _ < b * (a / b) + b := by
        have := Nat.mod_lt a hb
        omega
    _ = (a / b + 1) * b := by ring

theorem qlog2_spec (q : Q) (hn : 0 < q.num) (hd : 0 < q.den) :
    (2:ℚ) ^ qlog2 q ≤ q.val ∧ q.val < (2:ℚ) ^ (qlog2 q + 1) := by
  have hdQ : (0:ℚ) < (q.den : ℚ) := by exact_mod_cast hd
  have hnQ : (0:ℚ) < (q.num : ℚ) := by exact_mod_cast hn
  have hnt : q.num.toNat = q.num.natAbs := by omega
  have hntQ : ((q.num.toNat : ℚ)) = (q.num : ℚ) := by
    exact_mod_cast congrArg (fun z : ℤ => (z : ℚ)) (Int.toNat_of_nonneg hn.le)
  unfold qlog2
  by_cases hge : q.den ≤ q.num.toNat
  · rw [if_pos hge]
    set F := q.num.toNat / q.den with hF
    have hF1 : 1 ≤ F := (Nat.one_le_div_iff hd).mpr hge
    obtain ⟨hk1, hk2⟩ := nlog2_spec F hF1
    have hFle : ((F : ℚ)) ≤ q.val := by
      rw [Q.val_eq, le_div_iff hdQ]
      have : F * q.den ≤ q.num.toNat := Nat.div_mul_le_self _ _
      calc ((F : ℚ)) * q.den = ((F * q.den : ℕ) : ℚ) := by push_cast; ring
        _ ≤ ((q.num.toNat : ℕ) : ℚ) := by exact_mod_cast this
        _ = (q.num : ℚ) := hntQ
    have hFlt : q.val < (F : ℚ) + 1 := by
      rw [Q.val_eq, div_lt_iff hdQ]
      have : q.num.toNat < (F + 1) * q.den := nat_lt_div_succ_mul _ _ hd
      calc (q.num : ℚ) = ((q.num.toNat : ℕ) : ℚ) := hntQ.symm
        _ < (((F + 1) * q.den : ℕ) : ℚ) := by exact_mod_cast this
        _ = ((F:ℚ) + 1) * q.den := by push_cast; ring
    constructor
    · rw [zpow_natCast]
      calc ((2:ℚ) ^ nlog2 F) = ((2 ^ nlog2 F : ℕ) : ℚ) := by push_cast; ring
        _ ≤ (F : ℚ) := by exact_mod_cast hk1
        _ ≤ q.val := hFle
    · have : ((nlog2 F : ℤ)) + 1 = ((nlog2 F + 1 : ℕ) : ℤ) := by push_cast; ring
      rw [this, zpow_natCast]
      calc q.val < (F : ℚ) + 1 := hFlt
        _ ≤ ((2 ^ (nlog2 F + 1) : ℕ) : ℚ) := by exact_mod_cast hk2
        _ = (2:ℚ) ^ (nlog2 F + 1) := by push_cast; ring
  · rw [if_neg hge]
    have hlt : q.num.toNat < q.den := lt_of_not_le hge
    have hnt1 : 1 ≤ q.num.toNat := by omega
    set C := q.den / q.num.toNat with hC
    have hC1 : 1 ≤ C := (Nat.one_le_div_iff (by omega)).mpr hlt.le
    obtain ⟨hk1, hk2⟩ := nlog2_spec C hC1
    set e := nlog2 C with he
    -- C ≤ d/n < C + 1
    have hCle : ((C : ℚ)) * q.num ≤ q.den := by
      have : C * q.num.toNat ≤ q.den := Nat.div_mul_le_self _ _
      calc ((C : ℚ)) * q.num = ((C * q.num.toNat : ℕ) : ℚ) := by
            rw [← hntQ]; push_cast; ring
        _ ≤ ((q.den : ℕ) : ℚ) := by exact_mod_cast this
    have hClt : ((q.den : ℚ)) < ((C : ℚ) + 1) * q.num := by
      have : q.den < (C + 1) * q.num.toNat := nat_lt_div_succ_mul _ _ (by omega)
      calc ((q.den : ℚ)) < (((C + 1) * q.num.toNat : ℕ) : ℚ) := by exact_mod_cast this
        _ = ((C:ℚ) + 1) * q.num := by rw [← hntQ]; push_cast; ring
    -- val ≤ 2^(-e) and 2^(-e-1) < val
    have h2e : ((2 ^ e : ℕ) : ℚ) ≤ (C : ℚ) := by exact_mod_cast hk1
    have h2e' : ((C : ℚ)) + 1 ≤ ((2 ^ (e + 1) : ℕ) : ℚ) := by exact_mod_cast hk2
    have hvle : q.val ≤ (2:ℚ) ^ (-(e:ℤ)) := by
      rw [Q.val_eq, div_le_iff hdQ, zpow_neg, zpow_natCast]
      rw [inv_mul_eq_div, le_div_iff (by positivity)]
      calc (q.num : ℚ) * 2 ^ e ≤ q.num * C := by
            have := h2e
            push_cast at this ⊢
            nlinarith
        _ ≤ q.den := by linarith [hCle]
    have hvgt : (2:ℚ) ^ (-(e:ℤ) - 1) < q.val := by
      rw [Q.val_eq, lt_div_iff hdQ]
      have hpow : (2:ℚ) ^ (-(e:ℤ) - 1) = ((2^(e+1) : ℕ) : ℚ)⁻¹ := by
        push_cast
        rw [← zpow_natCast (2:ℚ) (e+1), ← zpow_neg]
        congr 1
        push_cast
        ring
      rw [hpow, inv_mul_eq_div, div_lt_iff (by positivity)]
      calc (q.den : ℚ) < ((C:ℚ) + 1) * q.num := hClt
        _ ≤ ((2^(e+1) : ℕ) : ℚ) * q.num := by nlinarith
        _ = q.num * ((2^(e+1):ℕ) : ℚ) := by ring
    by_cases hcond : (q.den : ℤ) ≤ q.num * 2 ^ e
    · rw [if_pos hcond]
      constructor
      · -- 2^(-e) ≤ val
        rw [Q.val_eq, le_div_iff hdQ, zpow_neg, zpow_natCast]
        rw [inv_mul_eq_div, div_le_iff (by positivity : (0:ℚ) < (2:ℚ)^e)]
        calc (q.den : ℚ) ≤ ((q.num * 2 ^ e : ℤ) : ℚ) := by exact_mod_cast hcond
          _ = q.num * (2:ℚ) ^ e := by push_cast; ring
      · calc q.val ≤ (2:ℚ) ^ (-(e:ℤ)) := hvle
          _ < (2:ℚ) ^ (-(e:ℤ) + 1) := by
            apply zpow_lt_zpow_right₀ (by norm_num)
            omega
    · rw [if_neg hcond]
      constructor
      · calc (2:ℚ) ^ (-(e:ℤ) - 1) ≤ q.val := hvgt.le
          _ = q.val := rfl
      · -- val < 2^(-e)
        have : ¬ ((q.den : ℤ) ≤ q.num * 2 ^ e) := hcond
        have hlt2 : q.num * 2 ^ e < (q.den : ℤ) := lt_of_not_le this
        have : q.val < (2:ℚ) ^ (-(e:ℤ)) := by
          rw [Q.val_eq, div_lt_iff hdQ, zpow_neg, zpow_natCast]
          rw [inv_mul_eq_div, lt_div_iff (by positivity : (0:ℚ) < (2:ℚ)^e)]
          calc (q.num : ℚ) * 2 ^ e = ((q.num * 2 ^ e : ℤ) : ℚ) := by push_cast; ring
            _ < (q.den : ℚ) := by exact_mod_cast hlt2
        calc q.val < (2:ℚ) ^ (-(e:ℤ)) := this
          _ = (2:ℚ) ^ (-(e:ℤ) - 1 + 1) := by congr 1; ring

/-! ## ℚ-level reference for rounding -/

/-- Reference round-to-nearest-even on nonnegative rationals (ℚ-level twin
of `rne`, used only in proofs). -/
def rneR (v : ℚ) : ℤ :=
  if 1/2 < v - ⌊v⌋ then ⌊v⌋ + 1
  else if v - ⌊v⌋ < 1/2 then ⌊v⌋
  else if ⌊v⌋ % 2 = 0 then ⌊v⌋ else ⌊v⌋ + 1

theorem rne_eq_rneR (q : Q) (hn : 0 ≤ q.num) (hd : 0 < q.den) :
    ((rne q : ℕ) : ℤ) = rneR q.val := by
  have hdQ : (0:ℚ) < (q.den : ℚ) := by exact_mod_cast hd
  have hfl : q.num.fdiv q.den = ⌊q.val⌋ := Q.floor_eq q hd
  have hf0 : 0 ≤ q.num.fdiv q.den := Int.fdiv_nonneg hn (by exact_mod_cast hd.le)
  rw [hfl] at hf0
  have key : q.val - ⌊q.val⌋ = ((q.num - ⌊q.val⌋ * q.den : ℤ) : ℚ) / q.den := by
    rw [Q.val_eq]
    push_cast
    field_simp
    ring
  have hcond1 : ((q.den : ℤ) < 2 * (q.num - q.num.fdiv q.den * q.den)) ↔
      (1/2 < q.val - ⌊q.val⌋) := by
    rw [hfl, key, div_lt_div_iff (by norm_num) hdQ]
    constructor
    · intro h
      have h' : ((q.den : ℤ) : ℚ) < ((2 * (q.num - ⌊q.val⌋ * q.den) : ℤ) : ℚ) := by
        exact_mod_cast h
      push_cast at h'
      push_cast
      linarith
    · intro h
      push_cast at h
      have h' : ((q.den : ℤ) : ℚ) < ((2 * (q.num - ⌊q.val⌋ * q.den) : ℤ) : ℚ) := by
        push_cast
        linarith
      exact_mod_cast h'
  have hcond2 : (2 * (q.num - q.num.fdiv q.den * q.den) < (q.den : ℤ)) ↔
      (q.val - ⌊q.val⌋ < 1/2) := by
    rw [hfl, key, div_lt_div_iff hdQ (by norm_num)]
    constructor
    · intro h
      have h' : ((2 * (q.num - ⌊q.val⌋ * q.den) : ℤ) : ℚ) < ((q.den : ℤ) : ℚ) := by
        exact_mod_cast h
      push_cast at h'
      push_cast
      linarith
    · intro h
      push_cast at h
      have h' : ((2 * (q.num - ⌊q.val⌋ * q.den) : ℤ) : ℚ) < ((q.den : ℤ) : ℚ) := by
        push_cast
        linarith
      exact_mod_cast h'
  unfold rne rneR
  by_cases h1 : (q.den : ℤ) < 2 * (q.num - q.num.fdiv q.den * q.den)
  · rw [if_pos h1, if_pos (hcond1.mp h1)]
    rw [hfl]
    omega
  · rw [if_neg h1, if_neg (fun hc => h1 (hcond1.mpr hc))]
    by_cases h2 : 2 * (q.num - q.num.fdiv q.den * q.den) < (q.den : ℤ)
    · rw [if_pos h2, if_pos (hcond2.mp h2)]
      rw [hfl]
      omega
    · rw [if_neg h2, if_neg (fun hc => h2 (hcond2.mpr hc))]
      rw [hfl]
      by_cases h3 : ⌊q.val⌋ % 2 = 0
      · rw [if_pos h3, if_pos h3]
        omega
      · rw [if_neg h3, if_neg h3]
        omega

/-- ℚ-level twin of `roundF`, used only in proofs. -/
def roundR (ew mw : Nat) (v : ℚ) : Fp ew mw :=
  if v = 0 then Fp.pzero ew mw
  else roundCore ew mw (decide (v < 0))
    (max (Int.log 2 |v|) (1 - bias ew))
    (rneR (|v| * 2 ^ ((mw : Int) - max (Int.log 2 |v|) (1 - bias ew)))).toNat

theorem int_log_eq_of_brackets (r : ℚ) (e : Int) (hr : 0 < r)
    (h1 : (2:ℚ) ^ e ≤ r) (h2 : r < (2:ℚ) ^ (e + 1)) : Int.log 2 r = e := by
  have hb : 1 < 2 := by norm_num
  have hle : e ≤ Int.log 2 r := (Int.zpow_le_iff_le_log hb hr).mp (by exact_mod_cast h1)
  have hlt : Int.log 2 r < e + 1 := (Int.lt_zpow_iff_log_lt hb hr).mp (by exact_mod_cast h2)
  omega

theorem qlog2_eq_log (q : Q) (hn : 0 < q.num) (hd : 0 < q.den) :
    qlog2 q = Int.log 2 q.val := by
  obtain ⟨h1, h2⟩ := qlog2_spec q hn hd
  have hv : 0 < q.val := by
    rw [Q.val_eq]
    have h1 : (0:ℚ) < (q.num : ℚ) := by exact_mod_cast hn
    have h2 : (0:ℚ) < (q.den : ℚ) := by exact_mod_cast hd
    positivity
  exact (int_log_eq_of_brackets q.val (qlog2 q) hv h1 h2).symm

theorem roundF_eq_roundR (q : Q) (hd : 0 < q.den) :
    roundF ew mw q = roundR ew mw q.val := by
  by_cases h0 : q.num = 0
  · rw [roundF, roundR, if_pos h0, if_pos ((Q.num_eq_zero_iff q hd).mp h0)]
  · have hv0 : q.val ≠ 0 := fun hc => h0 ((Q.num_eq_zero_iff q hd).mpr hc)
    have hdQ : (0:ℚ) < (q.den : ℚ) := by exact_mod_cast hd
    have hsgn : (q.num < 0) ↔ (q.val < 0) := by
      rw [Q.val_eq, div_neg_iff]
      constructor
      · intro h
        right
        exact ⟨by exact_mod_cast h, hdQ⟩
      · rintro (⟨_, hneg⟩ | ⟨h, _⟩)
        · exact absurd hneg (not_lt.mpr hdQ.le)
        · exact_mod_cast h
    have habs : (⟨(q.num.natAbs : Int), q.den⟩ : Q).val = |q.val| := by
      rw [Q.val_eq, Q.val_eq]
      simp only
      rw [abs_div, abs_of_nonneg (by positivity : (0:ℚ) ≤ (q.den:ℚ))]
      congr 1
      push_cast [Int.cast_natAbs]
      ring
    have hanum : (0:ℤ) < (q.num.natAbs : Int) := by
      have := Int.natAbs_pos.mpr h0
      exact_mod_cast this
    have hlog : qlog2 ⟨(q.num.natAbs : Int), q.den⟩ = Int.log 2 |q.val| := by
      rw [qlog2_eq_log ⟨(q.num.natAbs : Int), q.den⟩ hanum hd, habs]
    have hscaled : ∀ E : Int,
        rne ((⟨(q.num.natAbs : Int), q.den⟩ : Q).mul (Q.pow2 ((mw : Int) - E)))
          = (rneR (|q.val| * 2 ^ ((mw : Int) - E))).toNat := by
      intro E
      have hnum0 : 0 ≤ ((⟨(q.num.natAbs : Int), q.den⟩ : Q).mul (Q.pow2 ((mw : Int) - E))).num := by
        show 0 ≤ (q.num.natAbs : Int) * (Q.pow2 ((mw : Int) - E)).num
        have h1 : (0:ℤ) ≤ (q.num.natAbs : Int) := by positivity
        have h2 : (0:ℤ) ≤ (Q.pow2 ((mw : Int) - E)).num := by
          unfold Q.pow2
          split
          · positivity
          · positivity
        exact mul_nonneg h1 h2
      have := rne_eq_rneR _ hnum0
        (Q.mul_den_pos ⟨(q.num.natAbs : Int), q.den⟩ (Q.pow2 ((mw : Int) - E)) hd
          (Q.pow2_den_pos _))
      rw [Q.val_mul ⟨(q.num.natAbs : Int), q.den⟩ (Q.pow2 ((mw : Int) - E)) hd
          (Q.pow2_den_pos _), habs, Q.val_pow2] at this
      omega
    have hsb : (decide (q.num < 0)) = (decide (q.val < 0)) := by
      by_cases h : q.num < 0
      · rw [decide_eq_true h, decide_eq_true (hsgn.mp h)]
      · rw [decide_eq_false h, decide_eq_false (fun hc => h (hsgn.mpr hc))]
    rw [roundF, roundR, if_neg h0, if_neg hv0, hsb, hlog, hscaled]

/-! ## Round-trip: rounding a representable value returns it -/

/-- The integer significand of a finite value (with the hidden bit). -/
def Fp.sigN (x : Fp ew mw) : Nat := if x.ex = 0 then x.frac else 2 ^ mw + x.frac

/-- The unbiased exponent of a finite value (subnormals share exponent 1-bias). -/
def Fp.uexp (x : Fp ew mw) : Int := (if x.ex = 0 then 1 else (x.ex : Int)) - bias ew

theorem two_zpow_add (a b : ℤ) : (2:ℚ) ^ (a + b) = (2:ℚ) ^ a * (2:ℚ) ^ b :=
  zpow_add₀ (by norm_num) a b

theorem two_zpow_cast (n : ℕ) : (2:ℚ) ^ (n : ℤ) = (2:ℚ) ^ n := zpow_natCast 2 n

theorem two_zpow_pos (a : ℤ) : (0:ℚ) < (2:ℚ) ^ a := by positivity

theorem Fp.toRat_eq (x : Fp ew mw) :
    x.toRat = (if x.sign then (-1:ℚ) else 1) * (x.sigN : ℚ) * 2 ^ (x.uexp - mw) := by
  rw [Fp.toRat, Fp.sigN, Fp.uexp]
  have h : (if x.ex = 0 then (x.frac : ℚ) else 2 ^ mw + (x.frac : ℚ))
      = ((if x.ex = 0 then x.frac else 2 ^ mw + x.frac : Nat) : ℚ) := by
    split <;> push_cast <;> ring
  rw [h]

theorem Fp.abs_toRat (x : Fp ew mw) :
    |x.toRat| = (x.sigN : ℚ) * 2 ^ (x.uexp - mw) := by
  rw [Fp.toRat_eq]
  by_cases hs : x.sign = true
  · rw [if_pos hs]
    have h : ((-1:ℚ)) * (x.sigN : ℚ) * 2 ^ (x.uexp - mw)
        = -((x.sigN : ℚ) * 2 ^ (x.uexp - mw)) := by ring
    rw [h, abs_neg, abs_of_nonneg (by positivity)]
  · rw [if_neg hs, one_mul, abs_of_nonneg (by positivity)]

theorem Fp.toRat_ne_zero (x : Fp ew mw) (h : x.sigN ≠ 0) : x.toRat ≠ 0 := by
  rw [Fp.toRat_eq]
  have h1 : ((x.sigN : ℚ)) ≠ 0 := by exact_mod_cast h
  have h2 : ((2:ℚ)) ^ (x.uexp - mw) ≠ 0 := by positivity
  by_cases hs : x.sign = true
  · rw [if_pos hs]
    have h3 : ((-1:ℚ)) * (x.sigN : ℚ) * 2 ^ (x.uexp - mw)
        = -((x.sigN : ℚ) * 2 ^ (x.uexp - mw)) := by ring
    rw [h3, neg_ne_zero]
    exact mul_ne_zero h1 h2
  · rw [if_neg hs, one_mul]
    exact mul_ne_zero h1 h2

theorem Fp.sigN_ne_zero (x : Fp ew mw) (hnz : x.isZero = false) (hv : x.Valid)
    (hmw : 1 ≤ mw) : x.sigN ≠ 0 := by
  rw [Fp.sigN]
  rw [Fp.isZero] at hnz
  by_cases hex : x.ex = 0
  · simp only [if_pos hex]
    simp [hex] at hnz
    exact hnz
  · simp only [if_neg hex]
    have : 0 < 2 ^ mw := Nat.pos_pow_of_pos mw (by norm_num)
    omega

theorem Fp.toRat_neg_iff (x : Fp ew mw) (h : x.sigN ≠ 0) :
    (x.toRat < 0) ↔ x.sign = true := by
  rw [Fp.toRat_eq]
  have h1 : (0:ℚ) < (x.sigN : ℚ) := by exact_mod_cast Nat.pos_of_ne_zero h
  have h2 : (0:ℚ) < (2:ℚ) ^ (x.uexp - mw) := by positivity
  by_cases hs : x.sign = true
  · rw [if_pos hs]
    constructor
    · intro _
      exact hs
    · intro _
      nlinarith
  · rw [if_neg hs]
    constructor
    · intro hc
      nlinarith
    · intro hc
      exact absurd hc hs

theorem rneR_natCast (n : Nat) : rneR ((n : ℚ)) = n := by
  unfold rneR
  rw [Int.floor_natCast]
  norm_num

theorem Fp.log_abs_toRat_normal (x : Fp ew mw) (hv : x.Valid) (hex : x.ex ≠ 0) :
    Int.log 2 |x.toRat| = x.uexp := by
  rw [Fp.abs_toRat]
  have hsig1 : (2:ℚ) ^ ((mw : ℤ)) ≤ (x.sigN : ℚ) := by
    rw [two_zpow_cast, Fp.sigN, if_neg hex]
    push_cast
    nlinarith [(by positivity : (0:ℚ) ≤ (x.frac : ℚ))]
  have hsig2 : ((x.sigN : ℚ)) < 2 ^ ((mw : ℤ) + 1) := by
    have h2 : ((x.frac : ℚ)) < 2 ^ mw := by exact_mod_cast hv.2
    have h3 : ((mw : ℤ) + 1) = (((mw + 1 : ℕ)) : ℤ) := by push_cast; ring
    rw [h3, two_zpow_cast, Fp.sigN, if_neg hex]
    push_cast
    rw [pow_succ]
    nlinarith
  have hp : (0:ℚ) < (2:ℚ) ^ (x.uexp - mw) := two_zpow_pos _
  have h0 : (0:ℚ) < (x.sigN : ℚ) := lt_of_lt_of_le (two_zpow_pos _) hsig1
  apply int_log_eq_of_brackets
  · exact mul_pos h0 hp
  · have h : (2:ℚ) ^ x.uexp = (2:ℚ) ^ ((mw : ℤ)) * 2 ^ (x.uexp - mw) := by
      rw [← two_zpow_add]
      congr 1
      ring
    rw [h]
    exact mul_le_mul_of_nonneg_right hsig1 hp.le
  · have h : (2:ℚ) ^ (x.uexp + 1) = (2:ℚ) ^ ((mw : ℤ) + 1) * 2 ^ (x.uexp - mw) := by
      rw [← two_zpow_add]
      congr 1
      ring
    rw [h]
    exact mul_lt_mul_of_pos_right hsig2 hp

theorem Fp.log_abs_toRat_subnormal (x : Fp ew mw) (hv : x.Valid) (hex : x.ex = 0)
    (hnz : x.sigN ≠ 0) : Int.log 2 |x.toRat| < 1 - bias ew := by
  have hpos : 0 < |x.toRat| := abs_pos.mpr (Fp.toRat_ne_zero x hnz)
  rw [← Int.lt_zpow_iff_log_lt (by norm_num) hpos]
  have hb : (((2:ℕ)):ℚ) = (2:ℚ) := by norm_cast
  rw [hb, Fp.abs_toRat, Fp.uexp, if_pos hex]
  have hsig : ((x.sigN : ℚ)) < 2 ^ ((mw : ℤ)) := by
    rw [two_zpow_cast, Fp.sigN, if_pos hex]
    exact_mod_cast hv.2
  have hp : (0:ℚ) < (2:ℚ) ^ ((1 - bias ew : ℤ) - mw) := two_zpow_pos _
  have h : (2:ℚ) ^ ((1 : ℤ) - bias ew) = (2:ℚ) ^ ((mw : ℤ)) * 2 ^ ((1 - bias ew : ℤ) - mw) := by
    rw [← two_zpow_add]
    congr 1
    ring
  rw [h]
  exact mul_lt_mul_of_pos_right hsig hp

/-- Rounding the value of a finite nonzero representable number returns that
number exactly. -/
theorem roundTrip (x : Fp ew mw) (hv : x.Valid) (hf : x.isFinite = true)
    (hnz : x.isZero = false) (hmw : 1 ≤ mw) (hew : 2 ≤ ew) :
    roundR ew mw x.toRat = x := by
  have hsig : x.sigN ≠ 0 := Fp.sigN_ne_zero x hnz hv hmw
  have hv0 : x.toRat ≠ 0 := Fp.toRat_ne_zero x hsig
  have hsgn : decide (x.toRat < 0) = x.sign := by
    by_cases h : x.toRat < 0
    · rw [decide_eq_true h, ((Fp.toRat_neg_iff x hsig).mp h).symm]
    · rw [decide_eq_false h]
      rcases hs : x.sign with _ | _
      · rfl
      · exact absurd ((Fp.toRat_neg_iff x hsig).mpr hs) h
  have hE : max (Int.log 2 |x.toRat|) (1 - bias ew) = x.uexp := by
    by_cases hex : x.ex = 0
    · rw [max_eq_right (Fp.log_abs_toRat_subnormal x hv hex hsig).le, Fp.uexp, if_pos hex]
    · rw [Fp.log_abs_toRat_normal x hv hex]
      apply max_eq_left
      rw [Fp.uexp, if_neg hex]
      have hex1 : 1 ≤ x.ex := Nat.pos_of_ne_zero hex
      omega
  have hscale : |x.toRat| * 2 ^ ((mw : ℤ) - x.uexp) = (x.sigN : ℚ) := by
    rw [Fp.abs_toRat]
    rw [mul_assoc, ← two_zpow_add]
    have h : (x.uexp - mw) + ((mw : ℤ) - x.uexp) = 0 := by ring
    rw [h, zpow_zero, mul_one]
  rw [roundR, if_neg hv0, hsgn, hE, hscale, rneR_natCast]
  rw [Int.toNat_natCast]
  by_cases hex : x.ex = 0
  · -- subnormal: sigN = frac < 2^mw
    have hfr : x.sigN = x.frac := by rw [Fp.sigN, if_pos hex]
    rw [roundCore, if_neg (by rw [hfr] at hsig ⊢; exact hsig), if_pos (by rw [hfr]; exact hv.2)]
    rcases x with ⟨s, xex, xfr⟩
    simp only at hex hfr ⊢
    rw [hfr, hex]
  · -- normal: 2^mw ≤ sigN < 2^(mw+1), uexp = ex - bias ≤ bias
    have hfr : x.sigN = 2 ^ mw + x.frac := by rw [Fp.sigN, if_neg hex]
    have hfrb : x.frac < 2 ^ mw := hv.2
    have hlow : ¬ (x.sigN < 2 ^ mw) := by omega
    have hne2 : x.sigN ≠ 2 ^ (mw + 1) := by
      have h2 : (2:ℕ) ^ (mw + 1) = 2 ^ mw + 2 ^ mw := by rw [pow_succ]; ring
      omega
    have huexp : x.uexp = (x.ex : ℤ) - bias ew := by rw [Fp.uexp, if_neg hex]
    have hexmax : x.ex ≤ 2 ^ ew - 2 := by
      have hfin : x.ex ≠ emaxF ew := by
        rw [Fp.isFinite] at hf
        simpa using hf
      have h1 := hv.1
      rw [emaxF] at hfin
      omega
    have h3 : 2 * 2 ^ (ew - 1) = 2 ^ ew := by
      rw [← pow_succ']
      congr 1
      omega
    have hnoover : ¬ ((bias ew : ℤ) < x.uexp) := by
      rw [huexp, bias]
      have h4 : 1 ≤ 2 ^ (ew - 1) := Nat.one_le_two_pow
      push_cast
      omega
    rw [roundCore, if_neg (by omega : ¬ x.sigN = 0), if_neg hlow, if_neg (by rw [if_neg hne2]; exact hnoover)]
    rw [if_neg hne2, if_neg hne2]
    have hexeq : (x.uexp + bias ew).toNat = x.ex := by
      rw [huexp]
      omega
    rcases x with ⟨s, xex, xfr⟩
    simp only at hfr hexeq ⊢
    rw [hexeq, hfr]
    simp

/-! ## Validity of rounded results -/

theorem rneR_cases (v : ℚ) : rneR v = ⌊v⌋ ∨ rneR v = ⌊v⌋ + 1 := by
  unfold rneR
  split
  · right; rfl
  · split
    · left; rfl
    · split
      · left; rfl
      · right; rfl

theorem rneR_nonneg (v : ℚ) (h : 0 ≤ v) : 0 ≤ rneR v := by
  have hf : (0:ℤ) ≤ ⌊v⌋ := Int.floor_nonneg.mpr h
  rcases rneR_cases v with hc | hc <;> omega

theorem rneR_le_of_lt_nat (v : ℚ) (n : Nat) (h : v < (n : ℚ)) : rneR v ≤ n := by
  have hf : ⌊v⌋ < (n : ℤ) := by
    have := Int.floor_le_floor h.le
    rw [Int.floor_natCast] at this
    rcases eq_or_lt_of_le this with he | hl
    · -- ⌊v⌋ = n would force v ≥ n
      exfalso
      have := Int.floor_le v
      rw [he] at this
      push_cast at this
      linarith
    · exact hl
  rcases rneR_cases v with hc | hc <;> omega

theorem two_pow_sub_one_lt (ew : Nat) : 2 ^ ew - 1 < 2 ^ ew := by
  have : (0:ℕ) < 2 ^ ew := Nat.pos_pow_of_pos ew (by norm_num)
  omega

theorem Fp.szero_valid (s : Bool) : (Fp.szero ew mw s).Valid :=
  ⟨Nat.pos_pow_of_pos ew (by norm_num), Nat.pos_pow_of_pos mw (by norm_num)⟩

theorem Fp.pzero_valid : (Fp.pzero ew mw).Valid :=
  ⟨Nat.pos_pow_of_pos ew (by norm_num), Nat.pos_pow_of_pos mw (by norm_num)⟩

theorem Fp.infinity_valid (s : Bool) : (Fp.infinity ew mw s).Valid :=
  ⟨two_pow_sub_one_lt ew, Nat.pos_pow_of_pos mw (by norm_num)⟩

theorem Fp.qNaN_valid (hmw : 1 ≤ mw) : (Fp.qNaN ew mw).Valid :=
  ⟨two_pow_sub_one_lt ew, Nat.pow_lt_pow_right (by norm_num) (by omega)⟩

theorem bias_double (ew : Nat) (hew : 2 ≤ ew) : 2 * bias ew + 2 = 2 ^ ew := by
  rw [bias]
  have h3 : 2 * 2 ^ (ew - 1) = 2 ^ ew := by
    rw [← pow_succ']
    congr 1
    omega
  have h4 : 1 ≤ 2 ^ (ew - 1) := Nat.one_le_two_pow
  omega

theorem roundCore_valid (s : Bool) (E : Int) (z : Nat) (hz : z ≤ 2 ^ (mw + 1))
    (hmw : 1 ≤ mw) (hew : 2 ≤ ew) : (roundCore ew mw s E z).Valid := by
  have hew0 : (0:ℕ) < 2 ^ ew := Nat.pos_pow_of_pos ew (by norm_num)
  have hmw0 : (0:ℕ) < 2 ^ mw := Nat.pos_pow_of_pos mw (by norm_num)
  have hbias := bias_double ew hew
  rw [roundCore]
  by_cases h0 : z = 0
  · simp only [if_pos h0]
    exact Fp.szero_valid s
  simp only [if_neg h0]
  by_cases h1 : z < 2 ^ mw
  · simp only [if_pos h1]
    exact ⟨hew0, h1⟩
  simp only [if_neg h1]
  by_cases h2 : (bias ew : ℤ) < (if z = 2 ^ (mw + 1) then E + 1 else E)
  · simp only [if_pos h2]
    exact Fp.infinity_valid s
  simp only [if_neg h2]
  constructor
  · show ((if z = 2 ^ (mw + 1) then E + 1 else E) + bias ew).toNat < 2 ^ ew
    rw [not_lt] at h2
    split at h2 <;> omega
  · show (if z = 2 ^ (mw + 1) then 2 ^ mw else z) - 2 ^ mw < 2 ^ mw
    rw [not_lt] at h1
    split
    · omega
    · rename_i h4
      have h5 : z < 2 ^ (mw + 1) := lt_of_le_of_ne hz h4
      rw [pow_succ] at h5
      omega

theorem roundR_z_le (v : ℚ) (hv0 : ¬ v = 0) :
    (rneR (|v| * 2 ^ ((mw : ℤ) - max (Int.log 2 |v|) (1 - bias ew)))).toNat ≤ 2 ^ (mw + 1) := by
  set E : Int := max (Int.log 2 |v|) (1 - bias ew) with hE
  have habs : 0 < |v| := abs_pos.mpr hv0
  have hlt : |v| * 2 ^ ((mw : ℤ) - E) < ((2 ^ (mw + 1) : ℕ) : ℚ) := by
    have h1 : |v| < 2 ^ (Int.log 2 |v| + 1) := by
      have := Int.lt_zpow_succ_log_self (by norm_num : 1 < 2) |v|
      exact_mod_cast this
    have h2 : |v| < 2 ^ (E + 1) := by
      apply lt_of_lt_of_le h1
      apply zpow_le_zpow_right₀ (by norm_num : (1:ℚ) ≤ 2)
      have : Int.log 2 |v| ≤ E := le_max_left _ _
      omega
    calc |v| * 2 ^ ((mw : ℤ) - E) < 2 ^ (E + 1) * 2 ^ ((mw : ℤ) - E) :=
          mul_lt_mul_of_pos_right h2 (two_zpow_pos _)
      _ = (2:ℚ) ^ ((mw : ℤ) + 1) := by
          rw [← two_zpow_add]
          congr 1
          ring
      _ = ((2 ^ (mw + 1) : ℕ) : ℚ) := by
          have h8 : ((mw : ℤ) + 1) = ((mw + 1 : ℕ) : ℤ) := by push_cast; ring
          rw [h8, two_zpow_cast]
          push_cast
          ring
  have h6 := rneR_le_of_lt_nat _ _ hlt
  have h7 : 0 ≤ rneR (|v| * 2 ^ ((mw : ℤ) - E)) := rneR_nonneg _ (by positivity)
  set n : ℕ := 2 ^ (mw + 1) with hn
  omega

theorem roundR_valid (v : ℚ) (hmw : 1 ≤ mw) (hew : 2 ≤ ew) :
    (roundR ew mw v).Valid := by
  rw [roundR]
  by_cases hv0 : v = 0
  · rw [if_pos hv0]
    exact Fp.pzero_valid
  · rw [if_neg hv0]
    exact roundCore_valid _ _ _ (roundR_z_le v hv0) hmw hew

theorem Fp.add_valid (x y : Fp ew mw) (hmw : 1 ≤ mw) (hew : 2 ≤ ew) :
    (x.add y).Valid := by
  have hqv := @Fp.qNaN_valid ew mw hmw
  have hXv : ∀ w : Fp ew mw, w.isInf = true → w.Valid := by
    intro w hw
    rw [Fp.isInf, Bool.and_eq_true, beq_iff_eq, beq_iff_eq] at hw
    constructor
    · rw [hw.1, emaxF]
      exact two_pow_sub_one_lt ew
    · rw [hw.2]
      exact Nat.pos_pow_of_pos mw (by norm_num)
  rw [Fp.add]
  split
  · exact hqv
  split
  · split
    · exact hqv
    · rename_i h2 _
      exact hXv x h2
  split
  · rename_i h3
    exact hXv y h3
  simp only
  split
  · split
    · exact Fp.szero_valid _
    · exact Fp.pzero_valid
  · rw [roundF_eq_roundR _ (Q.add_den_pos _ _ (Fp.toQ_den_pos x) (Fp.toQ_den_pos y))]
    exact roundR_valid _ hmw hew

theorem Fp.mul_valid (x y : Fp ew mw) (hmw : 1 ≤ mw) (hew : 2 ≤ ew) :
    (x.mul y).Valid := by
  have hqv := @Fp.qNaN_valid ew mw hmw
  rw [Fp.mul]
  split
  · exact hqv
  split
  · split
    · exact hqv
    · exact Fp.infinity_valid _
  split
  · exact Fp.szero_valid _
  · rw [roundF_eq_roundR _ (Q.mul_den_pos _ _ (Fp.toQ_den_pos x) (Fp.toQ_den_pos y))]
    exact roundR_valid _ hmw hew

theorem Fp.toQ_eq (x : Fp ew mw) : x.toQ =
    if 0 ≤ x.uexp - mw
    then ⟨(if x.sign then -(x.sigN : ℤ) else (x.sigN : ℤ)) * 2 ^ (x.uexp - (mw : ℤ)).toNat, 1⟩
    else ⟨(if x.sign then -(x.sigN : ℤ) else (x.sigN : ℤ)), 2 ^ (-(x.uexp - (mw : ℤ))).toNat⟩ :=
  rfl

theorem Fp.toQ_num_ne_zero (x : Fp ew mw) (h : x.sigN ≠ 0) : x.toQ.num ≠ 0 := by
  rw [Fp.toQ_eq]
  have hsgn : (if x.sign then -(x.sigN : ℤ) else (x.sigN : ℤ)) ≠ 0 := by
    split <;> simpa using fun hc => h (by exact_mod_cast hc)
  split
  · intro hc
    rcases mul_eq_zero.mp hc with h1 | h1
    · exact hsgn h1
    · exact absurd h1 (by positivity)
  · exact hsgn

theorem Fp.sigN_ne_zero_of_not_zero (x : Fp ew mw) (hnz : x.isZero = false) : x.sigN ≠ 0 := by
  rw [Fp.sigN]
  by_cases hex : x.ex = 0
  · rw [if_pos hex]
    intro hc
    rw [Fp.isZero, hex, hc] at hnz
    simp at hnz
  · rw [if_neg hex]
    have := Nat.pos_pow_of_pos mw (by norm_num : 0 < 2)
    omega

theorem Fp.div_valid (x y : Fp ew mw) (hmw : 1 ≤ mw) (hew : 2 ≤ ew) :
    (x.div y).Valid := by
  have hqv := @Fp.qNaN_valid ew mw hmw
  rw [Fp.div]
  split
  · exact hqv
  split
  · split
    · exact hqv
    · exact Fp.infinity_valid _
  split
  · exact Fp.szero_valid _
  split
  · split
    · exact hqv
    · exact Fp.infinity_valid _
  split
  · exact Fp.szero_valid _
  · rename_i h1 h2 h3 h4 h5
    have hsig : y.sigN ≠ 0 :=
      Fp.sigN_ne_zero_of_not_zero y (by simpa using h4)
    have hid : 0 < y.toQ.inv.den := by
      rw [Q.inv]
      have := Int.natAbs_pos.mpr (Fp.toQ_num_ne_zero y hsig)
      split <;> simpa using this
    rw [Q.div, roundF_eq_roundR _ (Q.mul_den_pos _ _ (Fp.toQ_den_pos x) hid)]
    exact roundR_valid _ hmw hew

/-! ## Facts about the f32 operations used by `split` and `fmaf` -/

theorem Fp.neg_isNan (x : Fp ew mw) : x.neg.isNan = x.isNan := rfl

theorem Fp.neg_isInf (x : Fp ew mw) : x.neg.isInf = x.isInf := rfl

theorem Fp.neg_isZero (x : Fp ew mw) : x.neg.isZero = x.isZero := rfl

theorem Fp.neg_sign (x : Fp ew mw) : x.neg.sign = !x.sign := rfl

theorem Fp.finite_not_nan (x : Fp ew mw) (hf : x.isFinite = true) : x.isNan = false := by
  rw [Fp.isFinite, bne_iff_ne] at hf
  rw [Fp.isNan]
  simp [hf]

theorem Fp.finite_not_inf (x : Fp ew mw) (hf : x.isFinite = true) : x.isInf = false := by
  rw [Fp.isFinite, bne_iff_ne] at hf
  rw [Fp.isInf]
  simp [hf]

theorem Fp.zero_isZero_eq (x : Fp ew mw) (hz : x.isZero = true) :
    x = Fp.szero ew mw x.sign := by
  rw [Fp.isZero, Bool.and_eq_true, beq_iff_eq, beq_iff_eq] at hz
  rw [Fp.szero]
  rcases x with ⟨s, e, f⟩
  simp only at hz ⊢
  rw [hz.1, hz.2]

theorem one32_valid : one32.Valid := by decide

theorem one32_finite : one32.isFinite = true := by decide

theorem one32_toRat : one32.toRat = 1 := by
  rw [Fp.toRat_eq]
  have hs : one32.sigN = 2 ^ 23 := rfl
  have hu : one32.uexp = 0 := by decide
  have hsn : one32.sign = false := rfl
  rw [hs, hu, hsn]
  rw [if_neg (by simp : ¬ false = true)]
  rw [one_mul]
  rw [show ((0:ℤ) - (23:ℕ)) = -((23:ℕ):ℤ) from by norm_num]
  rw [zpow_neg, two_zpow_cast]
  push_cast
  norm_num

theorem Fp.mul_one32 (x : F32) (hv : x.Valid) (hf : x.isFinite = true) :
    Fp.mul one32 x = x := by
  have hxnan := Fp.finite_not_nan x hf
  have hxinf := Fp.finite_not_inf x hf
  have honan : one32.isNan = false := rfl
  have honinf : one32.isInf = false := rfl
  have honzero : one32.isZero = false := rfl
  rw [Fp.mul]
  rw [if_neg (by simp [honan, hxnan])]
  rw [if_neg (by simp [honinf, hxinf])]
  by_cases hz : x.isZero = true
  · rw [if_pos (by simp [hz])]
    have h1 : (one32.sign != x.sign) = x.sign := by
      rcases hb : x.sign with _ | _ <;> rfl
    rw [h1]
    exact (Fp.zero_isZero_eq x hz).symm
  · rw [if_neg (by simp only [honzero, Bool.false_or]; exact hz)]
    rw [roundF_eq_roundR _ (Q.mul_den_pos _ _ (Fp.toQ_den_pos one32) (Fp.toQ_den_pos x))]
    rw [Q.val_mul _ _ (Fp.toQ_den_pos one32) (Fp.toQ_den_pos x), Fp.toQ_val, Fp.toQ_val,
      one32_toRat, one_mul]
    exact roundTrip x hv hf (by simpa using hz) (by norm_num) (by norm_num)

theorem Q.add_num (a b : Q) : (a.add b).num = a.num * b.den + b.num * a.den := rfl

theorem Fp.szero_toQ_num (s : Bool) : ((Fp.szero 8 23 s).toQ).num = 0 := by
  rcases s with _ | _ <;> decide

theorem Fp.szero_toRat (s : Bool) : (Fp.szero 8 23 s).toRat = 0 := by
  have h : (Fp.szero 8 23 s).sigN = 0 := rfl
  rw [Fp.toRat_eq, h]
  push_cast
  ring

theorem Fp.szero_isNan (s : Bool) : (Fp.szero ew mw s).isNan = false := by
  rw [Fp.isNan, Fp.szero, emaxF]
  simp

theorem Fp.finite_of_not_nan_inf (x : Fp ew mw) (hn : x.isNan = false)
    (hi : x.isInf = false) : x.isFinite = true := by
  rw [Fp.isNan] at hn
  rw [Fp.isInf] at hi
  rw [Fp.isFinite]
  by_cases hex : x.ex = emaxF ew
  · by_cases hf : x.frac = 0
    · rw [hex, hf] at hi
      simp at hi
    · rw [hex] at hn
      simp [hf] at hn
  · simpa using hex

theorem Fp.toQ_num_zero (x : Fp ew mw) (hz : x.isZero = true) : x.toQ.num = 0 := by
  rw [Fp.toQ_eq]
  have h : x.sigN = 0 := by
    rw [Fp.isZero, Bool.and_eq_true, beq_iff_eq, beq_iff_eq] at hz
    rw [Fp.sigN, if_pos hz.1]
    exact hz.2
  rw [h]
  split
  · show (if x.sign then -((0:ℕ):ℤ) else ((0:ℕ):ℤ)) * 2 ^ _ = 0
    split <;> simp
  · show (if x.sign then -((0:ℕ):ℤ) else ((0:ℕ):ℤ)) = 0
    split <;> simp

theorem Fp.add_szero (w : F32) (hw : w.Valid) (hnan : w.isNan = false) (s : Bool) :
    Fp.add w (Fp.szero 8 23 s)
      = if w.isZero = true then (if w.sign == s then w else Fp.pzero 8 23) else w := by
  have hznan : (Fp.szero 8 23 s).isNan = false := Fp.szero_isNan s
  have hzinf : (Fp.szero 8 23 s).isInf = false := by
    rcases s with _ | _ <;> decide
  have hzsign : (Fp.szero 8 23 s).sign = s := rfl
  rw [Fp.add, if_neg (by simp [hnan, hznan])]
  by_cases hinf : w.isInf = true
  · rw [if_pos hinf, if_neg (by simp [hzinf])]
    have hz : w.isZero = false := by
      rw [Fp.isInf, Bool.and_eq_true, beq_iff_eq] at hinf
      rw [Fp.isZero, hinf.1]
      have : emaxF 8 = 255 := rfl
      simp [this]
    rw [hz]
    simp
  · rw [if_neg hinf, if_neg (by simp [hzinf])]
    simp only
    by_cases hz : w.isZero = true
    · rw [if_pos (by rw [Q.add_num, Fp.szero_toQ_num, Fp.toQ_num_zero w hz]; ring)]
      rw [hz, hzsign]
      simp only [if_true]
      by_cases hs : w.sign = s
      · rw [if_pos (by simp [hs]), if_pos (by simp [hs])]
        exact ((Fp.zero_isZero_eq w hz).trans (by rw [hs])).symm
      · have hbs : (w.sign == s) = false := by
          rcases hb : w.sign with _ | _ <;> rcases hc : s with _ | _ <;> simp_all
        rw [hbs]
        rfl
    · have hnum : w.toQ.num ≠ 0 :=
        Fp.toQ_num_ne_zero w (Fp.sigN_ne_zero_of_not_zero w (by simpa using hz))
      have hzden : 0 < (Fp.szero 8 23 s).toQ.den := Fp.toQ_den_pos _
      rw [if_neg (by
        rw [Q.add_num, Fp.szero_toQ_num, zero_mul, add_zero]
        exact mul_ne_zero hnum (by exact_mod_cast Nat.pos_iff_ne_zero.mp hzden))]
      rw [roundF_eq_roundR _ (Q.add_den_pos _ _ (Fp.toQ_den_pos w) (Fp.toQ_den_pos _)),
        Q.val_add _ _ (Fp.toQ_den_pos w) (Fp.toQ_den_pos _), Fp.toQ_val, Fp.toQ_val,
        Fp.szero_toRat, add_zero]
      rw [if_neg hz]
      exact roundTrip w hw (Fp.finite_of_not_nan_inf w hnan (by simpa using hinf))
        (by simpa using hz) (by norm_num) (by norm_num)

theorem Fp.toQ_neg (x : Fp ew mw) : (x.neg).toQ = ⟨-x.toQ.num, x.toQ.den⟩ := by
  rw [Fp.toQ_eq, Fp.toQ_eq]
  have h1 : x.neg.sigN = x.sigN := rfl
  have h2 : x.neg.uexp = x.uexp := rfl
  have h3 : x.neg.sign = !x.sign := rfl
  rw [h1, h2, h3]
  by_cases hc : 0 ≤ x.uexp - (mw:ℤ)
  · rw [if_pos hc, if_pos hc]
    rcases hb : x.sign with _ | _ <;> simp <;> ring
  · rw [if_neg hc, if_neg hc]
    rcases hb : x.sign with _ | _ <;> simp

theorem Fp.sub_self32 (x : F32) (hf : x.isFinite = true) : Fp.sub x x = Fp.pzero 8 23 := by
  have hxnan := Fp.finite_not_nan x hf
  have hxinf := Fp.finite_not_inf x hf
  rw [Fp.sub, Fp.add]
  rw [if_neg (by simp [hxnan, Fp.neg_isNan])]
  rw [if_neg (by simp [hxinf])]
  rw [if_neg (by simp [Fp.neg_isInf, hxinf])]
  simp only
  rw [if_pos (by
    rw [Q.add_num, Fp.toQ_neg]
    show x.toQ.num * x.toQ.den + -x.toQ.num * x.toQ.den = 0
    ring)]
  have hss : (x.sign == x.neg.sign) = false := by
    rw [Fp.neg_sign]
    rcases x.sign with _ | _ <;> rfl
  rw [hss]
  rfl

theorem Fp.sub_pzero32 (x : F32) (hv : x.Valid) (hnan : x.isNan = false) :
    Fp.sub x (Fp.pzero 8 23) = x := by
  have h : (Fp.pzero 8 23).neg = Fp.szero 8 23 true := rfl
  rw [Fp.sub, h, Fp.add_szero x hv hnan true]
  by_cases hz : x.isZero = true
  · rw [if_pos hz]
    by_cases hs : x.sign = true
    · rw [if_pos (by simp [hs])]
    · have hs' : x.sign = false := by simpa using hs
      rw [if_neg (by simp [hs'])]
      exact ((Fp.zero_isZero_eq x hz).trans (by rw [hs']; rfl)).symm
  · rw [if_neg hz]

theorem Fp.mul_szero32 (x : F32) (hf : x.isFinite = true) (s : Bool) :
    Fp.mul x (Fp.szero 8 23 s) = Fp.szero 8 23 (x.sign != s) := by
  have hxnan := Fp.finite_not_nan x hf
  have hxinf := Fp.finite_not_inf x hf
  have hznan : (Fp.szero 8 23 s).isNan = false := Fp.szero_isNan s
  have hzinf : (Fp.szero 8 23 s).isInf = false := by
    rcases s with _ | _ <;> decide
  have hzz : (Fp.szero 8 23 s).isZero = true := by
    rcases s with _ | _ <;> decide
  rw [Fp.mul, if_neg (by simp [hxnan, hznan]), if_neg (by simp [hxinf, hzinf]),
    if_pos (by simp [hzz])]
  rfl

/-- With the factor `1e0`, `split` is degenerate on every finite value:
the high part is the whole input and the low part is `+0`. -/
theorem split_finite32 (x : F32) (hv : x.Valid) (hf : x.isFinite = true) :
    split x = (x, Fp.pzero 8 23) := by
  simp only [split]
  rw [Fp.mul_one32 x hv hf, Fp.sub_self32 x hf,
    Fp.sub_pzero32 x hv (Fp.finite_not_nan x hf), Fp.sub_self32 x hf]

theorem Fp.isNan_eq_false_of_ex (x : Fp ew mw) (h : x.ex ≠ emaxF ew) : x.isNan = false := by
  rw [Fp.isNan]
  simp [h]

theorem Fp.isNan_eq_false_of_frac (x : Fp ew mw) (h : x.frac = 0) : x.isNan = false := by
  rw [Fp.isNan]
  simp [h]

theorem Fp.isInf_eq_false_of_ex (x : Fp ew mw) (h : x.ex ≠ emaxF ew) : x.isInf = false := by
  rw [Fp.isInf]
  simp [h]

theorem emaxF_pos (hew : 2 ≤ ew) : 1 ≤ emaxF ew := by
  rw [emaxF]
  have h1 : (4:ℕ) ≤ 2 ^ ew := by
    calc (4:ℕ) = 2 ^ 2 := by norm_num
      _ ≤ 2 ^ ew := Nat.pow_le_pow_right (by norm_num) hew
  omega

theorem roundCore_not_nan (s : Bool) (E : Int) (z : Nat) (hew : 2 ≤ ew) :
    (roundCore ew mw s E z).isNan = false := by
  have hbias := bias_double ew hew
  have hemax := emaxF_pos hew
  rw [roundCore]
  split
  · exact Fp.szero_isNan _
  split
  · exact Fp.isNan_eq_false_of_ex _ (by show (0:ℕ) ≠ emaxF ew; omega)
  by_cases hz2 : z = 2 ^ (mw + 1)
  · simp only [if_pos hz2]
    split
    · exact Fp.isNan_eq_false_of_frac _ rfl
    · rename_i h1 h2 h3
      rw [not_lt] at h3
      exact Fp.isNan_eq_false_of_ex _ (by show (E + 1 + bias ew).toNat ≠ emaxF ew; rw [emaxF]; omega)
  · simp only [if_neg hz2]
    split
    · exact Fp.isNan_eq_false_of_frac _ rfl
    · rename_i h1 h2 h3
      rw [not_lt] at h3
      exact Fp.isNan_eq_false_of_ex _ (by show (E + bias ew).toNat ≠ emaxF ew; rw [emaxF]; omega)

theorem roundR_not_nan (v : ℚ) (hew : 2 ≤ ew) : (roundR ew mw v).isNan = false := by
  rw [roundR]
  split
  · exact Fp.szero_isNan _
  · exact roundCore_not_nan _ _ _ hew

theorem Fp.mul_not_nan (x y : Fp ew mw) (hx : x.isFinite = true) (hy : y.isFinite = true)
    (hew : 2 ≤ ew) : (x.mul y).isNan = false := by
  rw [Fp.mul]
  rw [if_neg (by simp [Fp.finite_not_nan x hx, Fp.finite_not_nan y hy])]
  rw [if_neg (by simp [Fp.finite_not_inf x hx, Fp.finite_not_inf y hy])]
  split
  · exact Fp.szero_isNan _
  · rw [roundF_eq_roundR _ (Q.mul_den_pos _ _ (Fp.toQ_den_pos x) (Fp.toQ_den_pos y))]
    exact roundR_not_nan _ hew

theorem Fp.add_not_nan_right_finite (x y : Fp ew mw) (hx : x.isNan = false)
    (hy : y.isFinite = true) (hew : 2 ≤ ew) : (x.add y).isNan = false := by
  rw [Fp.add]
  rw [if_neg (by simp [hx, Fp.finite_not_nan y hy])]
  split
  · rw [if_neg (by simp [Fp.finite_not_inf y hy])]
    exact hx
  split
  · exact Fp.finite_not_nan y hy
  simp only
  split
  · split
    · exact Fp.szero_isNan _
    · exact Fp.szero_isNan _
  · rw [roundF_eq_roundR _ (Q.add_den_pos _ _ (Fp.toQ_den_pos x) (Fp.toQ_den_pos y))]
    exact roundR_not_nan _ hew

/-- With the degenerate `split`, `fmaf` computes the plainly rounded
`(x * y) + z`, except that a `-0` sum is returned as `+0`. -/
theorem fmaf_eq_plain (x y z : F32) (hvx : x.Valid) (hvy : y.Valid) (hvz : z.Valid)
    (hfx : x.isFinite = true) (hfy : y.isFinite = true) (hfz : z.isFinite = true) :
    fmaf x y z = (if (Fp.add (Fp.mul x y) z).isZero = true
      then Fp.pzero 8 23 else Fp.add (Fp.mul x y) z) := by
  simp only [fmaf]
  rw [split_finite32 x hvx hfx, split_finite32 y hvy hfy]
  simp only
  have hxz : Fp.mul x (Fp.pzero 8 23) = Fp.szero 8 23 x.sign := by
    have h := Fp.mul_szero32 x hfx false
    have h2 : (x.sign != false) = x.sign := by
      rcases x.sign with _ | _ <;> rfl
    rw [h2] at h
    exact h
  have hzz : Fp.mul (Fp.pzero 8 23) (Fp.pzero 8 23) = Fp.pzero 8 23 := by decide
  rw [hxz, hzz]
  set w := Fp.add (Fp.mul x y) z with hwdef
  have hwv : w.Valid := Fp.add_valid _ _ (by norm_num) (by norm_num)
  have hwnan : w.isNan = false :=
    Fp.add_not_nan_right_finite _ _ (Fp.mul_not_nan x y hfx hfy (by norm_num)) hfz
      (by norm_num)
  rw [Fp.add_szero w hwv hwnan x.sign]
  by_cases hz0 : w.isZero = true
  · rw [if_pos hz0, if_pos hz0]
    have hiz : ∀ u : F32, u.isZero = true → u.Valid → u.isNan = false →
        Fp.add (Fp.add u (Fp.pzero 8 23)) (Fp.pzero 8 23) = Fp.pzero 8 23 := by
      intro u hu huv hunan
      rw [show (Fp.pzero 8 23) = Fp.szero 8 23 false from rfl]
      rw [Fp.add_szero u huv hunan false, if_pos hu]
      by_cases hus : (u.sign == false) = true
      · rw [if_pos hus]
        have hupz : u = Fp.szero 8 23 false := by
          have h := Fp.zero_isZero_eq u hu
          rwa [show u.sign = false from by simpa using hus] at h
        rw [hupz]
        decide
      · rw [if_neg hus]
        decide
    by_cases hs : (w.sign == x.sign) = true
    · rw [if_pos hs]
      exact hiz w hz0 hwv hwnan
    · rw [if_neg hs]
      exact hiz (Fp.pzero 8 23) (by decide) (by decide) (by decide)
  · rw [if_neg hz0, if_neg hz0]
    have step : ∀ u : F32, u.isZero = false → u.Valid → u.isNan = false →
        Fp.add u (Fp.pzero 8 23) = u := by
      intro u hu huv hunan
      rw [show (Fp.pzero 8 23) = Fp.szero 8 23 false from rfl]
      rw [Fp.add_szero u huv hunan false, hu]
      simp
    rw [step w (by simpa using hz0) hwv hwnan, step w (by simpa using hz0) hwv hwnan]

/-! ## Bit-mask arithmetic helpers -/

theorem mask31_eq_mod (b : Nat) : b &&& 0x7fffffff = b % 2 ^ 31 := by
  have h : (0x7fffffff : Nat) = 2 ^ 31 - 1 := by norm_num
  rw [h, Nat.and_pow_two_sub_one_eq_mod]

theorem Fp.toBits_abs32 (x : F32) (hv : x.Valid) :
    x.toBits &&& 0x7fffffff = x.ex * 8388608 + x.frac := by
  rw [mask31_eq_mod, Fp.toBits]
  have hex : x.ex < 256 := by
    have h := hv.1
    norm_num at h
    exact h
  have hfr : x.frac < 8388608 := by
    have h := hv.2
    norm_num at h
    exact h
  have h23 : (2:Nat) ^ 23 = 8388608 := by norm_num
  have h31 : (2:Nat) ^ 31 = 2147483648 := by norm_num
  rcases hs : x.sign with _ | _
  · rw [if_neg (by simp), h23, h31]
    omega
  · rw [if_pos rfl, h23, h31]
    omega

theorem add_qNaN_left32 (y : F32) : Fp.add (Fp.qNaN 8 23) y = Fp.qNaN 8 23 := by
  have h : ((Fp.qNaN 8 23).isNan || y.isNan) = true := by
    rw [show (Fp.qNaN 8 23).isNan = true from by decide, Bool.true_or]
  rw [Fp.add, if_pos h]

/-! ## The claims -/

/-- C1: the spec promises that no public function panics for any input, but
`powi` indexes `powers[2 * i]` on a two-element table as soon as `exp ≥ 4`;
already at base `x = 1.0`, exponent `4`, the embedded `powi` reaches the
out-of-bounds access and returns `none` (the panic). -/
theorem C1_powi_panics : powi one64 4 = none := by decide

/-- C2: `powi(x, 0) == 1` does hold for every base, but the other three
scenarios of the claim all fail: `powi(2, 20)` and `powi(-1, 9)` panic
(out-of-bounds indexing, embedded as `none`), and `powi(-1, 2)` returns
`+0.0`, not `1`. -/
theorem C2_powi_values :
    (∀ x : F64, powi x 0 = some one64) ∧
    powi two64 20 = none ∧
    powi one64.neg 9 = none ∧
    powi one64.neg 2 = some (Fp.pzero 11 52) :=
  ⟨fun _ => rfl, by decide, by decide, by decide⟩

/-- C3 (counterexample): with the degenerate factor `1e0`, `split` returns
the whole input as its high part; at `x = 16777215 = 2^24 - 1` the high part
carries all 24 significant mantissa bits, not strictly fewer than the
working precision 24. -/
theorem C3_counterexample :
    (split ⟨false, 150, 0x7fffff⟩).1 = (⟨false, 150, 0x7fffff⟩ : F32) ∧
    ¬ sigBits ((split (⟨false, 150, 0x7fffff⟩ : F32)).1.sigN) < 24 := by
  constructor
  · decide
  · decide

/-- C3 (amended): for every finite `f32`, `split` returns `(x, +0)`; the
exact-sum invariant `high + low = x` holds (trivially), but the high part is
the whole input, so no bit-width reduction takes place. -/
theorem C3_split_exact (x : F32) (hv : x.Valid) (hf : x.isFinite = true) :
    split x = (x, Fp.pzero 8 23) ∧
    (split x).1.toRat + (split x).2.toRat = x.toRat := by
  have h := split_finite32 x hv hf
  refine ⟨h, ?_⟩
  rw [h]
  show x.toRat + (Fp.pzero 8 23).toRat = x.toRat
  have hz : (Fp.pzero 8 23).toRat = 0 := by
    norm_num [Fp.toRat, Fp.pzero]
  rw [hz, add_zero]

theorem C3_witness :
    (⟨false, 150, 0x7fffff⟩ : F32).Valid ∧
    (⟨false, 150, 0x7fffff⟩ : F32).isFinite = true ∧
    (split ⟨false, 150, 0x7fffff⟩ = ((⟨false, 150, 0x7fffff⟩ : F32), Fp.pzero 8 23) ∧
      (split (⟨false, 150, 0x7fffff⟩ : F32)).1.toRat +
        (split (⟨false, 150, 0x7fffff⟩ : F32)).2.toRat =
        (⟨false, 150, 0x7fffff⟩ : F32).toRat) :=
  ⟨by decide, by decide, C3_split_exact _ (by decide) (by decide)⟩

/-- C4 (counterexample): `fmaf` is not the plainly rounded `(x * y) + z` on
every input: at `x = +∞, y = 1, z = +0` the degenerate `split` turns `∞`
into NaN parts (`∞ - ∞`), so `fmaf` returns NaN while `(x * y) + z = +∞`. -/
theorem C4_counterexample :
    fmaf (Fp.infinity 8 23 false) one32 (Fp.pzero 8 23) ≠
      Fp.add (Fp.mul (Fp.infinity 8 23 false) one32) (Fp.pzero 8 23) := by
  decide

/-- C4 (amended): for finite inputs, `fmaf(x, y, z)` is exactly the plainly
rounded `(x * y) + z`, except that a zero sum is always returned as `+0`
(the correction-term additions replace `-0` by `+0`). -/
theorem C4_fmaf_plain (x y z : F32) (hvx : x.Valid) (hvy : y.Valid) (hvz : z.Valid)
    (hfx : x.isFinite = true) (hfy : y.isFinite = true) (hfz : z.isFinite = true) :
    fmaf x y z = (if (Fp.add (Fp.mul x y) z).isZero = true
      then Fp.pzero 8 23 else Fp.add (Fp.mul x y) z) :=
  fmaf_eq_plain x y z hvx hvy hvz hfx hfy hfz

theorem C4_witness :
    fmaf one32 two32 two32 = (if (Fp.add (Fp.mul one32 two32) two32).isZero = true
      then Fp.pzero 8 23 else Fp.add (Fp.mul one32 two32) two32) :=
  C4_fmaf_plain one32 two32 two32 (by decide) (by decide) (by decide)
    (by decide) (by decide) (by decide)

/-- C6 (counterexample): `acoshf` does not return NaN on every input below 1:
at `x = -2048` the second branch collapses (`x + sqrtf(x*x - 1) = -2^-12`
exactly, `2x - 1/(-2^-12) = +0`), so `acoshf(-2048) = logf(+0) = -∞`. -/
theorem C6_counterexample :
    acoshf ⟨true, 138, 0⟩ = Fp.infinity 8 23 true ∧
    (acoshf (⟨true, 138, 0⟩ : F32)).isNan = false := by
  constructor
  · decide
  · decide

/-- C6 (amended): `acoshf` returns NaN for every NaN input, and for every
negative input of magnitude at least `2^12` (the third branch feeds the
negative value to `logf`); but not for every `x < 1`. -/
theorem C6_acoshf_nan :
    (∀ x : F32, x.Valid → x.isNan = true → acoshf x = Fp.qNaN 8 23) ∧
    (∀ x : F32, x.Valid → x.sign = true →
      0x45800000 ≤ x.toBits &&& 0x7fffffff → acoshf x = Fp.qNaN 8 23) := by
  have hlit1 : (0x3f800000 + 1 <<< 23 : Nat) = 1073741824 := by
    norm_num [Nat.shiftLeft_eq]
  have hlit2 : (0x3f800000 + 12 <<< 23 : Nat) = 1166016512 := by
    norm_num [Nat.shiftLeft_eq]
  constructor
  · intro x hv hnan
    have ha : x.toBits &&& 0x7fffffff = x.ex * 8388608 + x.frac := Fp.toBits_abs32 x hv
    have hex : x.ex = 255 := by
      rw [Fp.isNan] at hnan
      rw [Bool.and_eq_true, beq_iff_eq] at hnan
      have h := hnan.1
      rw [emaxF] at h
      norm_num at h
      exact h
    simp only [acoshf]
    rw [ha, hlit1, hlit2]
    rw [if_neg (by omega), if_neg (by omega)]
    rw [logf, if_pos hnan]
    exact add_qNaN_left32 ln2F32
  · intro x hv hs ha0
    have ha : x.toBits &&& 0x7fffffff = x.ex * 8388608 + x.frac := Fp.toBits_abs32 x hv
    rw [ha] at ha0
    have hfr : x.frac < 8388608 := by
      have h := hv.2
      norm_num at h
      exact h
    simp only [acoshf]
    rw [ha, hlit1, hlit2]
    rw [if_neg (by omega), if_neg (by omega)]
    by_cases hnan : x.isNan = true
    · rw [logf, if_pos hnan]
      exact add_qNaN_left32 ln2F32
    · have hz : x.isZero = false := by
        rw [Fp.isZero]
        have hex : x.ex ≠ 0 := by omega
        simp [hex]
      rw [logf, if_neg hnan, hz]
      simp only [Bool.false_eq_true, if_false]
      rw [if_pos hs]
      exact add_qNaN_left32 ln2F32

theorem C6_witness :
    acoshf ⟨false, 255, 1⟩ = Fp.qNaN 8 23 ∧ acoshf ⟨true, 139, 0⟩ = Fp.qNaN 8 23 :=
  ⟨C6_acoshf_nan.1 ⟨false, 255, 1⟩ (by decide) (by decide),
   C6_acoshf_nan.2 ⟨true, 139, 0⟩ (by decide) (by decide) (by decide)⟩

/-- C10: `fabsf` clears exactly the sign bit: it is invariant under negation
of the input, keeps every non-sign bit (NaN payloads included), and the
reconstructed float always has a cleared sign. -/
theorem C10_fabsf (b : Nat) :
    fabsf (negBits32 b) = fabsf b ∧
    fabsf b = b % 2 ^ 31 ∧
    (Fp.ofBits 8 23 (fabsf b)).sign = false := by
  have hmod : fabsf b = b % 2 ^ 31 := mask31_eq_mod b
  refine ⟨?_, hmod, ?_⟩
  · show (b ^^^ 0x80000000) &&& 0x7fffffff = b &&& 0x7fffffff
    have h31 : (0x80000000 : Nat) = 2 ^ 31 := by norm_num
    have hm : (0x7fffffff : Nat) = 2 ^ 31 - 1 := by norm_num
    rw [h31, hm]
    apply Nat.eq_of_testBit_eq
    intro i
    rw [Nat.testBit_and, Nat.testBit_and, Nat.testBit_xor, Nat.testBit_two_pow]
    rw [Nat.testBit_two_pow_sub_one]
    by_cases h : i < 31
    · have h31i : (31 = i) = False := by
        simp only [eq_iff_iff, iff_false]
        omega
      simp [h, h31i]
    · simp [h]
  · rw [Fp.ofBits, hmod]
    simp only
    have h1 : b % 2 ^ 31 / 2 ^ (8 + 23) = 0 := by
      apply Nat.div_eq_of_lt
      exact Nat.mod_lt b (by norm_num)
    rw [h1]
    simp

/-! ## Bit-level facts about `trunc` -/

theorem u64_lit : (0xffffffffffffffff : Nat) = 2 ^ 64 - 1 := by norm_num

theorem u64_shr (k : Nat) (hk : k ≤ 64) :
    (0xffffffffffffffff : Nat) >>> k = 2 ^ (64 - k) - 1 := by
  rw [u64_lit, Nat.shiftRight_eq_div_pow]
  have hp : (2:Nat) ^ (64 - k) * 2 ^ k = 2 ^ 64 := by
    rw [← pow_add]
    congr 1
    omega
  have hk1 : (1:Nat) ≤ 2 ^ k := Nat.one_le_two_pow
  have hj1 : (1:Nat) ≤ 2 ^ (64 - k) := Nat.one_le_two_pow
  apply Nat.div_eq_of_lt_le
  · have h : (2 ^ (64 - k) - 1) * 2 ^ k = 2 ^ 64 - 2 ^ k := by
      rw [Nat.sub_mul, one_mul, hp]
    rw [h]
    omega
  · rw [Nat.sub_add_cancel hj1, hp]
    omega

theorem and_mask_zero (i j : Nat) (hj : j ≤ 64) :
    (i &&& ((2 ^ 64 - 1) ^^^ (2 ^ j - 1))) &&& (2 ^ j - 1) = 0 := by
  apply Nat.eq_of_testBit_eq
  intro t
  rw [Nat.testBit_and, Nat.testBit_and, Nat.testBit_xor,
    Nat.testBit_two_pow_sub_one, Nat.testBit_two_pow_sub_one, Nat.zero_testBit]
  by_cases h : t < j
  · have h64 : t < 64 := lt_of_lt_of_le h hj
    simp [h, h64]
  · simp [h]

theorem and_high_exp_preserved (i j : Nat) (hj : j ≤ 52) :
    ((i &&& ((2 ^ 64 - 1) ^^^ (2 ^ j - 1))) >>> 52) &&& (2 ^ 11 - 1)
      = (i >>> 52) &&& (2 ^ 11 - 1) := by
  apply Nat.eq_of_testBit_eq
  intro t
  rw [Nat.testBit_and, Nat.testBit_and, Nat.testBit_shiftRight, Nat.testBit_shiftRight,
    Nat.testBit_and, Nat.testBit_xor, Nat.testBit_two_pow_sub_one,
    Nat.testBit_two_pow_sub_one, Nat.testBit_two_pow_sub_one]
  by_cases h : t < 11
  · have h64 : 52 + t < 64 := by omega
    have hnj : ¬ 52 + t < j := by omega
    simp [h, h64, hnj]
  · simp [h]

theorem and_high63_exp (i : Nat) :
    ((i &&& ((2 ^ 64 - 1) ^^^ (2 ^ 63 - 1))) >>> 52) &&& (2 ^ 11 - 1) = 0 := by
  apply Nat.eq_of_testBit_eq
  intro t
  rw [Nat.testBit_and, Nat.testBit_shiftRight, Nat.testBit_and, Nat.testBit_xor,
    Nat.testBit_two_pow_sub_one, Nat.testBit_two_pow_sub_one,
    Nat.testBit_two_pow_sub_one, Nat.zero_testBit]
  by_cases h : t < 11
  · have h63 : 52 + t < 63 := by omega
    have h64 : 52 + t < 64 := by omega
    simp [h, h63, h64]
  · simp [h]

theorem trunc_eq (i : Nat) :
    trunc i = if 52 + 12 ≤ truncE i then i
      else if i &&& truncM i = 0 then i
      else i &&& (0xffffffffffffffff ^^^ truncM i) := rfl

theorem truncExit_eq (i : Nat) :
    truncExit i = if 52 + 12 ≤ truncE i then TruncExit.bigExp
      else if i &&& truncM i = 0 then TruncExit.maskedZero
      else TruncExit.cleared := rfl

/-- C5 (counterexample): a zero input leaves `trunc` through the masked-zero
early return and a nonzero subnormal through the mantissa-clearing tail, not
through the "exponent already large" fast path. -/
theorem C5_counterexample :
    truncExit 0 = TruncExit.maskedZero ∧ truncExit 1 = TruncExit.cleared ∧
    TruncExit.maskedZero ≠ TruncExit.bigExp ∧ TruncExit.cleared ≠ TruncExit.bigExp := by
  refine ⟨by decide, by decide, by decide, by decide⟩

/-- C5 (amended): only the maximum-exponent class takes the "exponent already
large" fast path; a zero input returns through the masked-zero early return
and a nonzero subnormal through the mantissa-clearing tail. -/
theorem C5_trunc_paths (i : Nat) :
    ((i >>> 52) &&& 0x7ff = 0x7ff → truncExit i = TruncExit.bigExp) ∧
    (i &&& 0x7fffffffffffffff = 0 → truncExit i = TruncExit.maskedZero) ∧
    ((i >>> 52) &&& 0x7ff = 0 → i &&& 0x7fffffffffffffff ≠ 0 →
      truncExit i = TruncExit.cleared) := by
  have hm1 : truncE i < 12 → truncM i = 0x7fffffffffffffff := by
    intro h3
    rw [truncM, truncEp, if_pos h3]
    have h1 : ((1:Int)).toNat = 1 := rfl
    rw [h1, u64_shr 1 (by norm_num)]
    norm_num
  refine ⟨?_, ?_, ?_⟩
  · intro hE
    rw [truncExit_eq, if_pos (by rw [truncE, hE]; norm_num)]
  · intro hlow
    have hE : (i >>> 52) &&& 0x7ff = 0 := by
      have h63 : (0x7fffffffffffffff : Nat) = 2 ^ 63 - 1 := by norm_num
      rw [h63, Nat.and_pow_two_sub_one_eq_mod] at hlow
      have h7 : (0x7ff : Nat) = 2 ^ 11 - 1 := by norm_num
      rw [h7, Nat.and_pow_two_sub_one_eq_mod, Nat.shiftRight_eq_div_pow]
      have h52 : (2:Nat) ^ 52 = 4503599627370496 := by norm_num
      have h63' : (2:Nat) ^ 63 = 9223372036854775808 := by norm_num
      have h11 : (2:Nat) ^ 11 = 2048 := by norm_num
      rw [h52, h63', h11] at *
      omega
    have he : truncE i = -1011 := by rw [truncE, hE]; norm_num
    rw [truncExit_eq, if_neg (by rw [he]; norm_num), if_pos ?_]
    rw [hm1 (by rw [he]; norm_num)]
    exact hlow
  · intro hE hlow
    have he : truncE i = -1011 := by rw [truncE, hE]; norm_num
    rw [truncExit_eq, if_neg (by rw [he]; norm_num), if_neg ?_]
    rw [hm1 (by rw [he]; norm_num)]
    exact hlow

theorem C5_witness :
    truncExit 0x7FF0000000000000 = TruncExit.bigExp ∧
    truncExit 0x8000000000000000 = TruncExit.maskedZero ∧
    truncExit 1 = TruncExit.cleared :=
  ⟨(C5_trunc_paths 0x7FF0000000000000).1 (by decide),
   (C5_trunc_paths 0x8000000000000000).2.1 (by decide),
   (C5_trunc_paths 1).2.2 (by decide) (by decide)⟩

/-- C9: both idempotence laws hold: truncating an already-truncated pattern
changes nothing (the cleared mantissa bits make the masked-zero early return
fire on the second pass), and clearing an already-cleared sign bit changes
nothing. -/
theorem C9_idempotent :
    (∀ i : Nat, trunc (trunc i) = trunc i) ∧
    (∀ b : Nat, fabsf (fabsf b) = fabsf b) := by
  constructor
  · intro i
    rcases le_or_lt (52 + 12 : Int) (truncE i) with h1 | h1
    · have ht : trunc i = i := by rw [trunc_eq, if_pos h1]
      rw [ht]
      exact ht
    · by_cases h2 : i &&& truncM i = 0
      · have ht : trunc i = i := by
          rw [trunc_eq, if_neg (not_le.mpr h1), if_pos h2]
        rw [ht]
        exact ht
      · have ht : trunc i = i &&& (0xffffffffffffffff ^^^ truncM i) := by
          rw [trunc_eq, if_neg (not_le.mpr h1), if_neg h2]
        rw [ht]
        set X := i &&& (0xffffffffffffffff ^^^ truncM i) with hX
        by_cases h3 : truncE i < 12
        · have hm : truncM i = 2 ^ 63 - 1 := by
            rw [truncM, truncEp, if_pos h3]
            have hone : ((1:Int)).toNat = 1 := rfl
            rw [hone, u64_shr 1 (by norm_num)]
          have hE' : (X >>> 52) &&& 0x7ff = 0 := by
            rw [hX, hm, u64_lit, show (0x7ff : Nat) = 2 ^ 11 - 1 from by norm_num]
            exact and_high63_exp i
          have he' : truncE X = -1011 := by
            rw [truncE, hE']
            norm_num
          have hm' : truncM X = 2 ^ 63 - 1 := by
            rw [truncM, truncEp, if_pos (by rw [he']; norm_num)]
            have hone : ((1:Int)).toNat = 1 := rfl
            rw [hone, u64_shr 1 (by norm_num)]
          have hz : X &&& truncM X = 0 := by
            rw [hm', hX, hm, u64_lit]
            exact and_mask_zero i 63 (by norm_num)
          rw [trunc_eq, if_neg (by rw [he']; norm_num), if_pos hz]
        · push_neg at h3
          have hknat : (truncEp i).toNat = (truncE i).toNat := by
            rw [truncEp, if_neg (not_lt.mpr h3)]
          have hkub : (truncE i).toNat < 64 := by omega
          have hklb : 12 ≤ (truncE i).toNat := by omega
          have hm : truncM i = 2 ^ (64 - (truncE i).toNat) - 1 := by
            rw [truncM, hknat]
            exact u64_shr _ (by omega)
          have hj52 : 64 - (truncE i).toNat ≤ 52 := by omega
          have hEpres : (X >>> 52) &&& 0x7ff = (i >>> 52) &&& 0x7ff := by
            rw [hX, hm, u64_lit, show (0x7ff : Nat) = 2 ^ 11 - 1 from by norm_num]
            exact and_high_exp_preserved i _ hj52
          have he' : truncE X = truncE i := by
            rw [truncE, truncE, hEpres]
          have hm' : truncM X = truncM i := by
            rw [truncM, truncM, truncEp, truncEp, he']
          have hz : X &&& truncM X = 0 := by
            rw [hm', hm, hX, hm, u64_lit]
            exact and_mask_zero i _ (by omega)
          rw [trunc_eq, if_neg (by rw [he']; exact not_le.mpr h1), if_pos hz]
  · intro b
    show (b &&& 0x7fffffff) &&& 0x7fffffff = b &&& 0x7fffffff
    apply Nat.eq_of_testBit_eq
    intro t
    rw [Nat.testBit_and, Nat.testBit_and, Bool.and_assoc, Bool.and_self]

/-! ## `trunc` at the level of float fields -/

theorem and_high_eq_shift (i j : Nat) (hi : i < 2 ^ 64) (hj : j ≤ 64) :
    i &&& ((2 ^ 64 - 1) ^^^ (2 ^ j - 1)) = (i >>> j) <<< j := by
  apply Nat.eq_of_testBit_eq
  intro t
  rw [Nat.testBit_and, Nat.testBit_xor, Nat.testBit_two_pow_sub_one,
    Nat.testBit_two_pow_sub_one, Nat.testBit_shiftLeft, Nat.testBit_shiftRight]
  by_cases h : t < j
  · have hge : ¬ t ≥ j := by omega
    have h64 : t < 64 := lt_of_lt_of_le h hj
    simp [h, hge, h64]
  · by_cases h64 : t < 64
    · have hj' : j + (t - j) = t := by omega
      have hge : t ≥ j := by omega
      simp [h, h64, hge, hj']
    · have hbf : i.testBit t = false := by
        apply Nat.testBit_lt_two_pow
        exact lt_of_lt_of_le hi (Nat.pow_le_pow_right (by norm_num) (by omega))
      have hj' : j + (t - j) = t := by omega
      simp [h64, hj', hbf]

theorem and_high_arith (i j : Nat) (hi : i < 2 ^ 64) (hj : j ≤ 64) :
    i &&& ((2 ^ 64 - 1) ^^^ (2 ^ j - 1)) = i - i % 2 ^ j := by
  rw [and_high_eq_shift i j hi hj, Nat.shiftRight_eq_div_pow, Nat.shiftLeft_eq]
  have h := Nat.div_add_mod' i (2 ^ j)
  exact Nat.eq_sub_of_add_eq h

theorem toBits64_lt (x : F64) (hv : x.Valid) : x.toBits < 2 ^ 64 := by
  obtain ⟨h1, h2⟩ := hv
  rw [Fp.toBits]
  have h1' : x.ex < 2048 := by
    have := h1
    norm_num at this
    exact this
  have h2' : x.frac < 4503599627370496 := by
    have := h2
    norm_num at this
    exact this
  rcases x.sign with _ | _ <;> norm_num <;> omega

theorem toBits64_exF (x : F64) (hv : x.Valid) :
    (x.toBits >>> 52) &&& 0x7ff = x.ex := by
  obtain ⟨h1, h2⟩ := hv
  rw [Fp.toBits, Nat.shiftRight_eq_div_pow,
    show (0x7ff : Nat) = 2 ^ 11 - 1 from by norm_num, Nat.and_pow_two_sub_one_eq_mod]
  have h1' : x.ex < 2048 := by
    have := h1
    norm_num at this
    exact this
  have h2' : x.frac < 4503599627370496 := by
    have := h2
    norm_num at this
    exact this
  rcases x.sign with _ | _ <;> norm_num <;> omega

theorem toBits64_mod (x : F64) (j : Nat) (hj : j ≤ 52) :
    x.toBits % 2 ^ j = x.frac % 2 ^ j := by
  rw [Fp.toBits]
  obtain ⟨a, ha⟩ : (2 ^ j : Nat) ∣ (if x.sign then 2 ^ (11 + 52) else 0) + x.ex * 2 ^ 52 := by
    apply Nat.dvd_add
    · rcases x.sign with _ | _
      · simp
      · simpa using pow_dvd_pow 2 (show j ≤ 11 + 52 by omega)
    · exact Dvd.dvd.mul_left (pow_dvd_pow 2 hj) x.ex
  rw [ha, Nat.mul_add_mod]

theorem ofBits_toBits64 (x : F64) (hv : x.Valid) : Fp.ofBits 11 52 x.toBits = x := by
  obtain ⟨s, ex, frac⟩ := x
  obtain ⟨h1, h2⟩ := hv
  have h1' : ex < 2048 := by
    have := h1
    norm_num at this
    exact this
  have h2' : frac < 4503599627370496 := by
    have := h2
    norm_num at this
    exact this
  rw [Fp.toBits, Fp.ofBits]
  simp only [Fp.mk.injEq]
  rcases s with _ | _
  · refine ⟨?_, by norm_num; omega, by norm_num; omega⟩
    simp only [decide_eq_false_iff_not]
    norm_num
    omega
  · refine ⟨?_, by norm_num; omega, by norm_num; omega⟩
    simp only [decide_eq_true_eq]
    norm_num
    omega

theorem bias11 : (bias 11 : Int) = 1023 := by
  rw [bias]
  norm_num

theorem trunc_toBits_eq (x : F64) (hv : x.Valid) :
    trunc x.toBits =
      Fp.toBits (if 1075 ≤ x.ex then x
        else if x.ex < 1023 then (⟨x.sign, 0, 0⟩ : F64)
        else (⟨x.sign, x.ex, x.frac - x.frac % 2 ^ (1075 - x.ex)⟩ : F64)) := by
  have hE : (x.toBits >>> 52) &&& 0x7ff = x.ex := toBits64_exF x hv
  have hTE : truncE x.toBits = (x.ex : Int) - 1011 := by
    rw [truncE, hE]
    omega
  have h1' : x.ex < 2048 := by
    have := hv.1
    norm_num at this
    exact this
  have h2' : x.frac < 4503599627370496 := by
    have := hv.2
    norm_num at this
    exact this
  by_cases hbig : 1075 ≤ x.ex
  · rw [if_pos hbig, trunc_eq, if_pos (by rw [hTE]; omega)]
  · rw [if_neg hbig]
    by_cases hsmall : x.ex < 1023
    · rw [if_pos hsmall]
      have h3 : truncE x.toBits < 12 := by
        rw [hTE]
        omega
      have hm : truncM x.toBits = 2 ^ 63 - 1 := by
        rw [truncM, truncEp, if_pos h3]
        have hone : ((1:Int)).toNat = 1 := rfl
        rw [hone, u64_shr 1 (by norm_num)]
      have hand : x.toBits &&& truncM x.toBits = x.ex * 2 ^ 52 + x.frac := by
        rw [hm, Nat.and_pow_two_sub_one_eq_mod, Fp.toBits]
        rcases x.sign with _ | _ <;> norm_num <;> omega
      by_cases hz : x.ex * 2 ^ 52 + x.frac = 0
      · have hex0 : x.ex = 0 := by omega
        have hfr0 : x.frac = 0 := by omega
        rw [trunc_eq, if_neg (by rw [hTE]; omega), if_pos (by rw [hand]; exact hz)]
        rw [Fp.toBits, Fp.toBits, hex0, hfr0]
      · rw [trunc_eq, if_neg (by rw [hTE]; omega), if_neg (by rw [hand]; exact hz)]
        rw [hm, u64_lit, and_high_arith x.toBits 63 (toBits64_lt x hv) (by norm_num)]
        rw [Fp.toBits, Fp.toBits]
        rcases x.sign with _ | _ <;> norm_num <;> omega
    · push_neg at hsmall
      rw [if_neg (not_lt.mpr hsmall)]
      have h3 : ¬ truncE x.toBits < 12 := by
        rw [hTE]
        omega
      have hknat : (truncEp x.toBits).toNat = x.ex - 1011 := by
        rw [truncEp, if_neg h3, hTE]
        omega
      have hm : truncM x.toBits = 2 ^ (1075 - x.ex) - 1 := by
        rw [truncM, hknat, u64_shr _ (by omega),
          show 64 - (x.ex - 1011) = 1075 - x.ex from by omega]
      have hand : x.toBits &&& truncM x.toBits = x.frac % 2 ^ (1075 - x.ex) := by
        rw [hm, Nat.and_pow_two_sub_one_eq_mod, toBits64_mod x _ (by omega)]
      by_cases hz : x.frac % 2 ^ (1075 - x.ex) = 0
      · rw [trunc_eq, if_neg (by rw [hTE]; omega), if_pos (by rw [hand]; exact hz)]
        rw [hz, Nat.sub_zero]
      · rw [trunc_eq, if_neg (by rw [hTE]; omega), if_neg (by rw [hand]; exact hz)]
        rw [hm, u64_lit, and_high_arith x.toBits _ (toBits64_lt x hv) (by omega)]
        rw [toBits64_mod x _ (by omega), Fp.toBits, Fp.toBits]
        have hle : x.frac % 2 ^ (1075 - x.ex) ≤ x.frac := Nat.mod_le _ _
        rcases x.sign with _ | _ <;> norm_num <;> omega

theorem trunc_toFp (x : F64) (hv : x.Valid) :
    Fp.ofBits 11 52 (trunc x.toBits) =
      (if 1075 ≤ x.ex then x
       else if x.ex < 1023 then (⟨x.sign, 0, 0⟩ : F64)
       else (⟨x.sign, x.ex, x.frac - x.frac % 2 ^ (1075 - x.ex)⟩ : F64)) := by
  rw [trunc_toBits_eq x hv]
  apply ofBits_toBits64
  split
  · exact hv
  split
  · exact ⟨by norm_num, by norm_num⟩
  · exact ⟨hv.1, lt_of_le_of_lt (Nat.sub_le _ _) hv.2⟩

theorem int_small64 (x : F64) (hv : x.Valid) (hex : x.ex < 1023)
    (hn : ∃ n : ℤ, x.toRat = (n : ℚ)) : x.ex = 0 ∧ x.frac = 0 := by
  by_contra hc
  have hsig : x.sigN ≠ 0 := by
    rw [Fp.sigN]
    by_cases hex0 : x.ex = 0
    · rw [if_pos hex0]
      intro hf
      exact hc ⟨hex0, hf⟩
    · rw [if_neg hex0]
      have hp : (0:Nat) < 2 ^ 52 := Nat.pos_pow_of_pos _ (by norm_num)
      omega
  obtain ⟨n, hn⟩ := hn
  have habs := Fp.abs_toRat x
  have hsig53 : x.sigN < 2 ^ 53 := by
    rw [Fp.sigN]
    have h2 : x.frac < 2 ^ 52 := hv.2
    split <;> omega
  have hsiglt : (x.sigN : ℚ) < 2 ^ (((53:ℕ)) : ℤ) := by
    rw [two_zpow_cast]
    exact_mod_cast hsig53
  have huexp : x.uexp ≤ -1 := by
    rw [Fp.uexp, bias11]
    split <;> omega
  have h1 : |x.toRat| < 1 := by
    rw [habs]
    simp only [Nat.cast_ofNat]
    have hp : (0:ℚ) < 2 ^ (x.uexp - 52) := two_zpow_pos _
    have step : (x.sigN : ℚ) * 2 ^ (x.uexp - 52) < 2 ^ (((53:ℕ)):ℤ) * 2 ^ (x.uexp - 52) :=
      mul_lt_mul_of_pos_right hsiglt hp
    have step2 : (2:ℚ) ^ (((53:ℕ)):ℤ) * 2 ^ (x.uexp - 52) = 2 ^ (x.uexp + 1) := by
      rw [← two_zpow_add]
      congr 1
      push_cast
      omega
    have step3 : (2:ℚ) ^ (x.uexp + 1) ≤ 2 ^ (0:ℤ) := by
      apply zpow_le_zpow_right₀ (by norm_num)
      omega
    calc (x.sigN : ℚ) * 2 ^ (x.uexp - 52)
        < 2 ^ (((53:ℕ)):ℤ) * 2 ^ (x.uexp - 52) := step
      _ = 2 ^ (x.uexp + 1) := step2
      _ ≤ 2 ^ (0:ℤ) := step3
      _ = 1 := by norm_num
  rw [hn] at h1
  have hn0 : n = 0 := by
    have h2 : |n| < 1 := by
      have h3 : ((|n| : ℤ) : ℚ) < 1 := by
        rw [Int.cast_abs]
        exact_mod_cast h1
      exact_mod_cast h3
    have h4 := abs_lt.mp h2
    omega
  rw [hn0] at hn
  exact Fp.toRat_ne_zero x hsig (by exact_mod_cast hn)

theorem int_mid64 (x : F64) (hv : x.Valid) (hex1 : 1023 ≤ x.ex) (hex2 : x.ex < 1075)
    (hn : ∃ n : ℤ, x.toRat = (n : ℚ)) : x.frac % 2 ^ (1075 - x.ex) = 0 := by
  obtain ⟨n, hn⟩ := hn
  have hex0 : x.ex ≠ 0 := by omega
  rw [Fp.toRat_eq] at hn
  simp only [Nat.cast_ofNat] at hn
  have huexp : x.uexp - 52 = -((1075 - x.ex : ℕ) : ℤ) := by
    rw [Fp.uexp, if_neg hex0, bias11]
    push_cast
    omega
  rw [huexp] at hn
  have h2j : ((2:ℚ)) ^ (-((1075 - x.ex : ℕ) : ℤ)) * 2 ^ (((1075 - x.ex : ℕ)) : ℤ) = 1 := by
    rw [← two_zpow_add]
    norm_num
  have key : ((x.sigN : ℤ)) = (if x.sign then -n else n) * 2 ^ (1075 - x.ex) := by
    rcases hs : x.sign with _ | _
    · rw [hs] at hn
      have hred : (if (false = true) then (-1:ℚ) else 1) = 1 := rfl
      rw [hred, one_mul] at hn
      have hredg : (if (false = true) then (-n : ℤ) else n) = n := rfl
      rw [hredg]
      have hQ : (x.sigN : ℚ) = (n:ℚ) * 2 ^ ((1075 - x.ex : ℕ)) := by
        calc (x.sigN : ℚ)
            = (x.sigN : ℚ) * ((2:ℚ) ^ (-((1075 - x.ex : ℕ) : ℤ)) * 2 ^ (((1075 - x.ex : ℕ)) : ℤ)) := by
              rw [h2j, mul_one]
          _ = ((x.sigN : ℚ) * (2:ℚ) ^ (-((1075 - x.ex : ℕ) : ℤ))) * 2 ^ (((1075 - x.ex : ℕ)) : ℤ) := by
              ring
          _ = (n:ℚ) * 2 ^ (((1075 - x.ex : ℕ)) : ℤ) := by rw [hn]
          _ = (n:ℚ) * 2 ^ ((1075 - x.ex : ℕ)) := by rw [two_zpow_cast]
      exact_mod_cast hQ
    · rw [hs] at hn
      have hred : (if (true = true) then (-1:ℚ) else 1) = -1 := rfl
      rw [hred] at hn
      have hn2 : (x.sigN : ℚ) * (2:ℚ) ^ (-((1075 - x.ex : ℕ) : ℤ)) = -(n:ℚ) := by
        linarith [hn]
      have hredg : (if (true = true) then (-n : ℤ) else n) = -n := rfl
      rw [hredg]
      have hQ : (x.sigN : ℚ) = (-(n:ℚ)) * 2 ^ ((1075 - x.ex : ℕ)) := by
        calc (x.sigN : ℚ)
            = (x.sigN : ℚ) * ((2:ℚ) ^ (-((1075 - x.ex : ℕ) : ℤ)) * 2 ^ (((1075 - x.ex : ℕ)) : ℤ)) := by
              rw [h2j, mul_one]
          _ = ((x.sigN : ℚ) * (2:ℚ) ^ (-((1075 - x.ex : ℕ) : ℤ))) * 2 ^ (((1075 - x.ex : ℕ)) : ℤ) := by
              ring
          _ = (-(n:ℚ)) * 2 ^ (((1075 - x.ex : ℕ)) : ℤ) := by rw [hn2]
          _ = (-(n:ℚ)) * 2 ^ ((1075 - x.ex : ℕ)) := by rw [two_zpow_cast]
      exact_mod_cast hQ
  have hdvdZ : ((2:ℤ) ^ (1075 - x.ex)) ∣ (x.sigN : ℤ) := ⟨(if x.sign then -n else n), by
    rw [key]
    ring⟩
  have hdvdN : (2:Nat) ^ (1075 - x.ex) ∣ x.sigN := by
    have h2 : (((2:Nat) ^ (1075 - x.ex) : ℕ) : ℤ) ∣ ((x.sigN : ℕ) : ℤ) := by
      push_cast
      exact hdvdZ
    exact_mod_cast h2
  rw [Fp.sigN, if_neg hex0] at hdvdN
  have hd52 : (2:Nat) ^ (1075 - x.ex) ∣ 2 ^ 52 := pow_dvd_pow 2 (by omega)
  have hdfr : (2:Nat) ^ (1075 - x.ex) ∣ x.frac := (Nat.dvd_add_right hd52).mp hdvdN
  obtain ⟨c, hc⟩ := hdfr
  rw [hc, Nat.mul_mod_right]

theorem isInf_ex64 (x : F64) (h : x.isInf = true) : x.ex = 2047 ∧ x.frac = 0 := by
  rw [Fp.isInf, Bool.and_eq_true, beq_iff_eq, beq_iff_eq] at h
  obtain ⟨h1, h2⟩ := h
  rw [emaxF] at h1
  norm_num at h1
  exact ⟨h1, h2⟩

theorem isNan_ex64 (x : F64) (h : x.isNan = true) : x.ex = 2047 := by
  rw [Fp.isNan, Bool.and_eq_true, beq_iff_eq] at h
  have h1 := h.1
  rw [emaxF] at h1
  norm_num at h1
  exact h1

theorem isZero_fields64 (x : F64) (h : x.isZero = true) : x.ex = 0 ∧ x.frac = 0 := by
  rw [Fp.isZero, Bool.and_eq_true, beq_iff_eq, beq_iff_eq] at h
  exact h

/-- C7: `trunc` preserves the sign bit, never grows the magnitude, always
returns a mathematical integer, and is the identity on patterns that are
already integral, zero, infinite, or NaN. -/
theorem C7_trunc (x : F64) (hv : x.Valid) :
    (Fp.ofBits 11 52 (trunc x.toBits)).sign = x.sign ∧
    |(Fp.ofBits 11 52 (trunc x.toBits)).toRat| ≤ |x.toRat| ∧
    (∃ n : ℤ, (Fp.ofBits 11 52 (trunc x.toBits)).toRat = (n : ℚ)) ∧
    ((((∃ n : ℤ, x.toRat = (n : ℚ)) ∧ x.isFinite = true) ∨ x.isZero = true ∨
        x.isInf = true ∨ x.isNan = true) → trunc x.toBits = x.toBits) := by
  have hzero_sigN : (⟨x.sign, 0, 0⟩ : F64).sigN = 0 := rfl
  have hzero_toRat : (⟨x.sign, 0, 0⟩ : F64).toRat = 0 := by
    rw [Fp.toRat_eq, hzero_sigN]
    push_cast
    ring
  refine ⟨?_, ?_, ?_, ?_⟩
  · rw [trunc_toFp x hv]
    split
    · rfl
    · split
      · rfl
      · rfl
  · rw [trunc_toFp x hv]
    split
    · exact le_refl _
    · split
      · rw [hzero_toRat, abs_zero]
        exact abs_nonneg _
      · rename_i hbig hsmall
        have hex0 : x.ex ≠ 0 := by omega
        have hsigN1 : (⟨x.sign, x.ex, x.frac - x.frac % 2 ^ (1075 - x.ex)⟩ : F64).sigN
            = 2 ^ 52 + (x.frac - x.frac % 2 ^ (1075 - x.ex)) := by
          show (if x.ex = 0 then x.frac - x.frac % 2 ^ (1075 - x.ex)
            else 2 ^ 52 + (x.frac - x.frac % 2 ^ (1075 - x.ex))) = _
          rw [if_neg hex0]
        have hsigN2 : x.sigN = 2 ^ 52 + x.frac := by
          rw [Fp.sigN, if_neg hex0]
        have huexp1 : (⟨x.sign, x.ex, x.frac - x.frac % 2 ^ (1075 - x.ex)⟩ : F64).uexp
            = (x.ex : ℤ) - bias 11 := by
          show (if x.ex = 0 then (1:ℤ) else (x.ex : ℤ)) - bias 11 = _
          rw [if_neg hex0]
        have huexp2 : x.uexp = (x.ex : ℤ) - bias 11 := by
          rw [Fp.uexp, if_neg hex0]
        rw [Fp.abs_toRat, Fp.abs_toRat, huexp1, huexp2, hsigN1, hsigN2]
        apply mul_le_mul_of_nonneg_right _ (two_zpow_pos _).le
        have hle : x.frac - x.frac % 2 ^ (1075 - x.ex) ≤ x.frac := Nat.sub_le _ _
        exact_mod_cast Nat.add_le_add_left hle (2 ^ 52)
  · rw [trunc_toFp x hv]
    split
    · rename_i hbig
      have hex0 : x.ex ≠ 0 := by omega
      refine ⟨(if x.sign then -1 else 1) * (x.sigN : ℤ) * 2 ^ (x.ex - 1075), ?_⟩
      rw [Fp.toRat_eq]
      simp only [Nat.cast_ofNat]
      have he : x.uexp - (52:ℤ) = ((x.ex - 1075 : ℕ) : ℤ) := by
        rw [Fp.uexp, if_neg hex0, bias11]
        push_cast
        omega
      rw [he, show ((2:ℚ)) ^ (((x.ex - 1075 : ℕ)) : ℤ) = (2:ℚ) ^ ((x.ex - 1075 : ℕ)) from
        two_zpow_cast _]
      push_cast
      rcases x.sign with _ | _ <;> norm_num
    · split
      · exact ⟨0, by rw [hzero_toRat]; norm_num⟩
      · rename_i hbig hsmall
        have hex0 : x.ex ≠ 0 := by omega
        have hdvd : (2:Nat) ^ (1075 - x.ex) ∣
            2 ^ 52 + (x.frac - x.frac % 2 ^ (1075 - x.ex)) := by
          apply Nat.dvd_add
          · exact pow_dvd_pow 2 (by omega)
          · exact Nat.dvd_sub_mod x.frac
        obtain ⟨q, hq⟩ := hdvd
        refine ⟨(if x.sign then -(q:ℤ) else (q:ℤ)), ?_⟩
        rw [Fp.toRat_eq]
        simp only [Nat.cast_ofNat]
        have hsigN1 : (⟨x.sign, x.ex, x.frac - x.frac % 2 ^ (1075 - x.ex)⟩ : F64).sigN
            = 2 ^ (1075 - x.ex) * q := by
          show (if x.ex = 0 then x.frac - x.frac % 2 ^ (1075 - x.ex)
            else 2 ^ 52 + (x.frac - x.frac % 2 ^ (1075 - x.ex))) = _
          rw [if_neg hex0]
          exact hq
        have huexp1 : (⟨x.sign, x.ex, x.frac - x.frac % 2 ^ (1075 - x.ex)⟩ : F64).uexp - (52:ℤ)
            = -((1075 - x.ex : ℕ) : ℤ) := by
          have h1 : (⟨x.sign, x.ex, x.frac - x.frac % 2 ^ (1075 - x.ex)⟩ : F64).uexp
              = (x.ex : ℤ) - bias 11 := by
            show (if x.ex = 0 then (1:ℤ) else (x.ex : ℤ)) - bias 11 = _
            rw [if_neg hex0]
          rw [h1, bias11]
          push_cast
          omega
        rw [hsigN1, huexp1]
        have hz2 : ((2:ℚ)) ^ (-((1075 - x.ex : ℕ) : ℤ)) * 2 ^ (((1075 - x.ex : ℕ)) : ℤ) = 1 := by
          rw [← two_zpow_add]
          norm_num
        have hkey : ((2 ^ (1075 - x.ex) * q : ℕ) : ℚ) * (2:ℚ) ^ (-((1075 - x.ex : ℕ) : ℤ))
            = (q : ℚ) := by
          push_cast
          rw [show ((2:ℚ)) ^ ((1075 - x.ex : ℕ)) = (2:ℚ) ^ (((1075 - x.ex : ℕ)) : ℤ) from
            (two_zpow_cast _).symm]
          calc (2:ℚ) ^ (((1075 - x.ex : ℕ)) : ℤ) * (q:ℚ) * (2:ℚ) ^ (-((1075 - x.ex : ℕ) : ℤ))
              = (q:ℚ) * ((2:ℚ) ^ (-((1075 - x.ex : ℕ) : ℤ)) * 2 ^ (((1075 - x.ex : ℕ)) : ℤ)) := by
                ring
            _ = (q:ℚ) := by rw [hz2, mul_one]
        rcases x.sign with _ | _
        · rw [show (if (false = true) then (-1:ℚ) else 1) = 1 from rfl,
            show (if (false = true) then (-(q:ℤ)) else (q:ℤ)) = (q:ℤ) from rfl, one_mul]
          rw [mul_comm ((2 ^ (1075 - x.ex) * q : ℕ) : ℚ) _] at hkey
          push_cast at hkey ⊢
          linarith [hkey]
        · rw [show (if (true = true) then (-1:ℚ) else 1) = -1 from rfl,
            show (if (true = true) then (-(q:ℤ)) else (q:ℤ)) = -(q:ℤ) from rfl]
          push_cast at hkey ⊢
          linarith [hkey]
  · intro h
    rw [trunc_toBits_eq x hv]
    rcases h with ⟨hint, hfin⟩ | hz | hinf | hnan
    · have hex2048 : x.ex < 2048 := by
        have h1 := hv.1
        norm_num at h1
        exact h1
      by_cases hbig : 1075 ≤ x.ex
      · rw [if_pos hbig]
      · rw [if_neg hbig]
        by_cases hsmall : x.ex < 1023
        · rw [if_pos hsmall]
          obtain ⟨he0, hf0⟩ := int_small64 x hv hsmall hint
          rw [Fp.toBits, Fp.toBits, he0, hf0]
        · push_neg at hsmall
          rw [if_neg (not_lt.mpr hsmall)]
          have hfr := int_mid64 x hv hsmall (by omega) hint
          rw [hfr, Nat.sub_zero]
    · obtain ⟨he0, hf0⟩ := isZero_fields64 x hz
      rw [if_neg (by omega), if_pos (by omega), Fp.toBits, Fp.toBits, he0, hf0]
    · obtain ⟨he, hf⟩ := isInf_ex64 x hinf
      rw [if_pos (by omega)]
    · have he := isNan_ex64 x hnan
      rw [if_pos (by omega)]

theorem C7_witness :
    (Fp.ofBits 11 52 (trunc one64.toBits)).sign = one64.sign ∧
    |(Fp.ofBits 11 52 (trunc one64.toBits)).toRat| ≤ |one64.toRat| ∧
    (∃ n : ℤ, (Fp.ofBits 11 52 (trunc one64.toBits)).toRat = (n : ℚ)) ∧
    ((((∃ n : ℤ, one64.toRat = (n : ℚ)) ∧ one64.isFinite = true) ∨ one64.isZero = true ∨
        one64.isInf = true ∨ one64.isNan = true) → trunc one64.toBits = one64.toBits) :=
  C7_trunc one64 (by decide)

/-! ## Order-of-magnitude facts about rounding (towards `acoshf`'s sign) -/

theorem rneR_ge (v : ℚ) : v - 1/2 ≤ (rneR v : ℚ) := by
  unfold rneR
  have h1 := Int.floor_le v
  have h2 := Int.lt_floor_add_one v
  split
  · push_cast
    linarith
  split
  · rename_i h3 h4
    push_cast
    linarith
  split
  · push_cast
    linarith
  · push_cast
    linarith

theorem rneR_le (v : ℚ) : (rneR v : ℚ) ≤ v + 1/2 := by
  unfold rneR
  have h1 := Int.floor_le v
  have h2 := Int.lt_floor_add_one v
  split
  · rename_i h3
    push_cast
    linarith
  split
  · push_cast
    linarith
  split
  · rename_i h3 h4 h5
    push_cast
    linarith
  · rename_i h3 h4 h5
    push_cast
    have hhalf : v - ⌊v⌋ = 1/2 := le_antisymm (not_lt.mp h3) (not_lt.mp h4)
    linarith

theorem roundCore_sign (s : Bool) (E : Int) (z : Nat) :
    (roundCore ew mw s E z).sign = s := by
  rw [roundCore]
  split
  · rfl
  split
  · rfl
  split
  · split
    · rfl
    · rfl
  · split
    · rfl
    · rfl

theorem roundR_sign (v : ℚ) : (roundR ew mw v).sign = decide (v < 0) := by
  rw [roundR]
  split
  · rename_i h
    rw [h, show (Fp.pzero ew mw).sign = false from rfl]
    norm_num
  · exact roundCore_sign _ _ _

theorem Fp.toRat_nonneg (x : Fp ew mw) (hs : x.sign = false) : 0 ≤ x.toRat := by
  rw [Fp.toRat_eq, hs]
  have h1 : (0:ℚ) ≤ (x.sigN : ℚ) := by positivity
  have h2 : (0:ℚ) < (2:ℚ) ^ (x.uexp - mw) := two_zpow_pos _
  simp only [Bool.false_eq_true, if_false, one_mul]
  positivity

theorem Fp.toRat_neg_eq (x : Fp ew mw) : x.neg.toRat = -x.toRat := by
  rw [Fp.toRat_eq, Fp.toRat_eq]
  have h1 : x.neg.sigN = x.sigN := rfl
  have h2 : x.neg.uexp = x.uexp := rfl
  have h3 : x.neg.sign = !x.sign := rfl
  rw [h1, h2, h3]
  rcases x.sign with _ | _ <;> simp <;> ring

theorem Fp.log_abs_toRat_le (x : Fp ew mw) (hv : x.Valid) (hsig : x.sigN ≠ 0) :
    Int.log 2 |x.toRat| ≤ x.uexp := by
  have hpos : 0 < |x.toRat| := abs_pos.mpr (Fp.toRat_ne_zero x hsig)
  have hub : |x.toRat| < (2:ℚ) ^ (x.uexp + 1) := by
    rw [Fp.abs_toRat]
    have hsig2 : ((x.sigN : ℚ)) < 2 ^ ((mw : ℤ) + 1) := by
      have h2 : x.frac < 2 ^ mw := hv.2
      have h3 : ((mw : ℤ) + 1) = (((mw + 1 : ℕ)) : ℤ) := by push_cast; ring
      rw [h3, two_zpow_cast, Fp.sigN]
      split
      · push_cast
        rw [pow_succ]
        have : (0:ℚ) < 2 ^ mw := by positivity
        have h2' : ((x.frac : ℚ)) < 2 ^ mw := by exact_mod_cast h2
        nlinarith
      · push_cast
        rw [pow_succ]
        have h2' : ((x.frac : ℚ)) < 2 ^ mw := by exact_mod_cast h2
        nlinarith
    calc (x.sigN : ℚ) * 2 ^ (x.uexp - mw)
        < 2 ^ ((mw : ℤ) + 1) * 2 ^ (x.uexp - mw) :=
          mul_lt_mul_of_pos_right hsig2 (two_zpow_pos _)
      _ = 2 ^ (x.uexp + 1) := by
          rw [← two_zpow_add]
          congr 1
          ring
  have h := (Int.lt_zpow_iff_log_lt (by norm_num : 1 < 2) hpos).mp (by
    have hb : (((2:ℕ)):ℚ) = (2:ℚ) := by norm_cast
    rw [hb]
    exact hub)
  omega

theorem Fp.inf_not_zero (x : Fp ew mw) (hew : 2 ≤ ew) (h : x.isInf = true) :
    x.isZero = false := by
  rw [Fp.isInf, Bool.and_eq_true, beq_iff_eq] at h
  rw [Fp.isZero, h.1, emaxF]
  have h4 : (4:ℕ) ≤ 2 ^ ew := by
    calc (4:ℕ) = 2 ^ 2 := by norm_num
      _ ≤ 2 ^ ew := Nat.pow_le_pow_right (by norm_num) hew
  have : ¬ (2 ^ ew - 1 = 0) := by omega
  simp [this]

theorem Fp.inf_sigN (x : Fp ew mw) (hew : 2 ≤ ew) (h : x.isInf = true) : x.sigN ≠ 0 := by
  rw [Fp.isInf, Bool.and_eq_true, beq_iff_eq] at h
  rw [Fp.sigN, h.1, emaxF]
  have h4 : (4:ℕ) ≤ 2 ^ ew := by
    calc (4:ℕ) = 2 ^ 2 := by norm_num
      _ ≤ 2 ^ ew := Nat.pow_le_pow_right (by norm_num) hew
  have hne : ¬ (2 ^ ew - 1 = 0) := by omega
  rw [if_neg hne]
  have : 0 < 2 ^ mw := Nat.pos_pow_of_pos _ (by norm_num)
  omega

theorem Fp.le_pzero_of_nonneg (w : Fp ew mw) (hew : 2 ≤ ew) (hnn : w.isNan = false)
    (hnnr : 0 ≤ w.toRat) : Fp.le (Fp.pzero ew mw) w = true := by
  have hpz : (Fp.pzero ew mw).isNan = false := Fp.szero_isNan false
  have hpzinf : (Fp.pzero ew mw).isInf = false := by
    rw [Fp.isInf, emaxF]
    have h4 : (4:ℕ) ≤ 2 ^ ew := by
      calc (4:ℕ) = 2 ^ 2 := by norm_num
        _ ≤ 2 ^ ew := Nat.pow_le_pow_right (by norm_num) hew
    have : ¬ ((Fp.pzero ew mw).ex = 2 ^ ew - 1) := by
      show ¬ ((0:ℕ) = 2 ^ ew - 1)
      omega
    simp [this]
  rw [Fp.le, if_neg (by simp [hpz, hnn]), hpzinf]
  simp only [Bool.false_eq_true, if_false]
  split
  · rename_i hinf
    have hsig := Fp.inf_sigN w hew hinf
    have hs : w.sign = false := by
      rcases hsw : w.sign with _ | _
      · rfl
      · have := (Fp.toRat_neg_iff w hsig).mpr hsw
        linarith
    rw [hs]
    rfl
  · rw [Q.ble_iff _ _ (Fp.toQ_den_pos _) (Fp.toQ_den_pos w), Fp.toQ_val, Fp.toQ_val]
    have hpz0 : (Fp.pzero ew mw).toRat = 0 := by
      rw [Fp.toRat_eq]
      have : (Fp.pzero ew mw).sigN = 0 := rfl
      rw [this]
      push_cast
      ring
    rw [hpz0]
    exact hnnr

theorem toRat_mk (s : Bool) (e f : Nat) :
    (⟨s, e, f⟩ : Fp ew mw).toRat
      = (if s then (-1:ℚ) else 1) * (if e = 0 then (f:ℚ) else 2 ^ mw + (f:ℚ))
        * (2:ℚ) ^ ((if e = 0 then 1 else (e:ℤ)) - bias ew - mw) := rfl

theorem roundCore_toRat (s : Bool) (E : Int) (z : Nat) (hmw : 1 ≤ mw) (hew : 2 ≤ ew)
    (hz : 0 < z) (hz2 : z ≤ 2 ^ (mw + 1)) (hE1 : 1 - (bias ew : Int) ≤ E)
    (hsub : z < 2 ^ mw → E = 1 - bias ew)
    (hov : (if z = 2 ^ (mw + 1) then E + 1 else E) ≤ (bias ew : Int)) :
    (roundCore ew mw s E z).toRat
      = (if s then (-1:ℚ) else 1) * (z : ℚ) * 2 ^ (E - mw) ∧
    (roundCore ew mw s E z).isInf = false := by
  have hbias := bias_double ew hew
  have hemax := emaxF_pos hew
  rw [roundCore, if_neg (by omega)]
  by_cases hzs : z < 2 ^ mw
  · have hEs := hsub hzs
    rw [if_pos hzs]
    constructor
    · rw [toRat_mk, if_pos rfl, if_pos rfl, hEs]
    · rw [Fp.isInf]
      have hne : ¬ ((0:ℕ) = emaxF ew) := by omega
      simp [hne]
  · rw [if_neg hzs]
    push_neg at hzs
    by_cases hz2p : z = 2 ^ (mw + 1)
    · simp only [if_pos hz2p] at hov ⊢
      rw [if_neg (not_lt.mpr hov)]
      have hexpos : (0:ℤ) < E + 1 + bias ew := by omega
      have hexne : ¬ ((E + 1 + (bias ew : ℤ)).toNat = 0) := by omega
      constructor
      · rw [toRat_mk, if_neg hexne, if_neg hexne]
        have hc : (((E + 1 + (bias ew : ℤ)).toNat : ℤ)) = E + 1 + bias ew := by omega
        rw [hc, show ((2:ℕ) ^ mw - 2 ^ mw) = 0 from by omega, hz2p]
        have hab : ((2:ℚ) ^ mw + ((0:ℕ) : ℚ)) * (2:ℚ) ^ (E + 1 + (bias ew : ℤ) - bias ew - mw)
            = (((2:ℕ) ^ (mw + 1) : ℕ) : ℚ) * (2:ℚ) ^ (E - (mw:ℤ)) := by
          have hlhs : ((2:ℚ) ^ mw + ((0:ℕ) : ℚ)) * (2:ℚ) ^ (E + 1 + (bias ew : ℤ) - bias ew - mw)
              = (2:ℚ) ^ (E + 1) := by
            push_cast
            rw [add_zero, show ((2:ℚ) ^ mw) = (2:ℚ) ^ ((mw : ℕ) : ℤ) from (two_zpow_cast mw).symm,
              ← two_zpow_add]
            congr 1
            ring
          have hrhs : (((2:ℕ) ^ (mw + 1) : ℕ) : ℚ) * (2:ℚ) ^ (E - (mw:ℤ)) = (2:ℚ) ^ (E + 1) := by
            push_cast
            rw [show ((2:ℚ) ^ (mw + 1)) = (2:ℚ) ^ (((mw + 1 : ℕ)) : ℤ) from
              (two_zpow_cast (mw + 1)).symm, ← two_zpow_add]
            congr 1
            push_cast
            ring
          rw [hlhs, hrhs]
        linear_combination ((if s = true then (-1:ℚ) else 1)) * hab
      · rw [Fp.isInf]
        have hne : ¬ ((E + 1 + (bias ew : ℤ)).toNat = emaxF ew) := by
          rw [emaxF]
          omega
        simp [hne]
    · simp only [if_neg hz2p] at hov ⊢
      rw [if_neg (not_lt.mpr hov)]
      have hexpos : (0:ℤ) < E + bias ew := by omega
      have hexne : ¬ ((E + (bias ew : ℤ)).toNat = 0) := by omega
      constructor
      · rw [toRat_mk, if_neg hexne, if_neg hexne]
        have hc : (((E + (bias ew : ℤ)).toNat : ℤ)) = E + bias ew := by omega
        rw [hc]
        have hab : ((2:ℚ) ^ mw + ((z - 2 ^ mw : ℕ) : ℚ)) * (2:ℚ) ^ (E + (bias ew : ℤ) - bias ew - mw)
            = (z : ℚ) * (2:ℚ) ^ (E - (mw:ℤ)) := by
          have h1 : ((z - 2 ^ mw : ℕ) : ℚ) = (z : ℚ) - 2 ^ mw := by
            push_cast [Nat.cast_sub hzs]
            ring
          rw [h1, show (E + (bias ew : ℤ) - bias ew - mw) = E - (mw:ℤ) from by ring]
          ring
        linear_combination ((if s = true then (-1:ℚ) else 1)) * hab
      · rw [Fp.isInf]
        have hne : ¬ ((E + (bias ew : ℤ)).toNat = emaxF ew) := by
          rw [emaxF]
          omega
        simp [hne]

theorem roundR_unfold_pos (v : ℚ) (hv : 0 < v) :
    roundR ew mw v = roundCore ew mw false (max (Int.log 2 v) (1 - bias ew))
      ((rneR (v * 2 ^ ((mw : Int) - max (Int.log 2 v) (1 - bias ew)))).toNat) := by
  rw [roundR, if_neg (ne_of_gt hv), abs_of_pos hv,
    decide_eq_false (not_lt.mpr hv.le)]

theorem two_nat_cast_q : (((2:ℕ)):ℚ) = (2:ℚ) := by norm_cast

theorem roundR_lb (v : ℚ) (k : ℤ) (hmw : 1 ≤ mw) (hew : 2 ≤ ew)
    (hk1 : 1 - (bias ew : Int) ≤ k) (hvk : (2:ℚ) ^ k ≤ v)
    (hub : v < (2:ℚ) ^ ((bias ew : ℤ))) :
    (roundR ew mw v).sign = false ∧ (roundR ew mw v).isNan = false ∧
    (roundR ew mw v).isInf = false ∧ (2:ℚ) ^ k ≤ (roundR ew mw v).toRat := by
  have hbias := bias_double ew hew
  have h4ew : (4:ℕ) ≤ 2 ^ ew := by
    calc (4:ℕ) = 2 ^ 2 := by norm_num
      _ ≤ 2 ^ ew := Nat.pow_le_pow_right (by norm_num) hew
  have hbias1 : 1 ≤ (bias ew : ℤ) := by omega
  have hv : 0 < v := lt_of_lt_of_le (two_zpow_pos k) hvk
  set E := max (Int.log 2 v) (1 - (bias ew : ℤ)) with hE
  set u := v * 2 ^ ((mw : Int) - E) with hu
  set z := (rneR u).toNat with hz
  have hru := @roundR_unfold_pos ew mw v hv
  have hkE : k ≤ E := by
    have h1 : k ≤ Int.log 2 v := by
      apply (Int.zpow_le_iff_le_log (by norm_num) hv).mp
      rw [two_nat_cast_q]
      exact hvk
    exact le_trans h1 (le_max_left _ _)
  have hEub : E ≤ (bias ew : ℤ) - 1 := by
    have h1 : Int.log 2 v < (bias ew : ℤ) := by
      apply (Int.lt_zpow_iff_log_lt (by norm_num) hv).mp
      rw [two_nat_cast_q]
      exact hub
    apply max_le (by omega) (by omega)
  have hupos : 0 < u := mul_pos hv (two_zpow_pos _)
  have hunn : 0 ≤ rneR u := rneR_nonneg u hupos.le
  have hzc : ((z : ℕ) : ℚ) = ((rneR u : ℤ) : ℚ) := by
    rw [hz]
    exact_mod_cast congrArg (fun t : ℤ => (t : ℚ)) (Int.toNat_of_nonneg hunn)
  have hvlt : v < (2:ℚ) ^ (E + 1) := by
    have h1 : v < (2:ℚ) ^ (Int.log 2 v + 1) := by
      have := Int.lt_zpow_succ_log_self (by norm_num : 1 < 2) v
      rw [two_nat_cast_q] at this
      exact this
    exact lt_of_lt_of_le h1 (zpow_le_zpow_right₀ (by norm_num) (by
      have := le_max_left (Int.log 2 v) (1 - (bias ew : ℤ))
      omega))
  have hult : u < ((2 ^ (mw + 1) : ℕ) : ℚ) := by
    have h1 : u < (2:ℚ) ^ (E + 1) * 2 ^ ((mw : Int) - E) :=
      mul_lt_mul_of_pos_right hvlt (two_zpow_pos _)
    have h2 : (2:ℚ) ^ (E + 1) * 2 ^ ((mw : Int) - E) = ((2 ^ (mw + 1) : ℕ) : ℚ) := by
      rw [← two_zpow_add]
      push_cast
      rw [show (E + 1 + ((mw : ℤ) - E)) = (((mw + 1 : ℕ)) : ℤ) from by push_cast; ring,
        two_zpow_cast]
    rw [← h2]
    exact h1
  have hz2 : z ≤ 2 ^ (mw + 1) := by
    have := rneR_le_of_lt_nat u (2 ^ (mw + 1)) hult
    omega
  have hsubc : z < 2 ^ mw → E = 1 - (bias ew : ℤ) := by
    intro hzs
    by_contra hne
    have hEl : E = Int.log 2 v := by
      rcases max_cases (Int.log 2 v) (1 - (bias ew : ℤ)) with ⟨h1, _⟩ | ⟨h1, _⟩
      · rw [hE, h1]
      · exact absurd (hE.trans h1) hne
    have hvE : (2:ℚ) ^ E ≤ v := by
      rw [hEl]
      have := Int.zpow_log_le_self (by norm_num : 1 < 2) hv
      rw [two_nat_cast_q] at this
      exact this
    have huge : ((2 ^ mw : ℕ) : ℚ) ≤ u := by
      have h1 : (2:ℚ) ^ E * 2 ^ ((mw : Int) - E) ≤ u :=
        mul_le_mul_of_nonneg_right hvE (two_zpow_pos _).le
      have h2 : (2:ℚ) ^ E * 2 ^ ((mw : Int) - E) = ((2 ^ mw : ℕ) : ℚ) := by
        rw [← two_zpow_add]
        push_cast
        rw [show (E + ((mw : ℤ) - E)) = ((mw : ℕ) : ℤ) from by push_cast; ring, two_zpow_cast]
      rw [← h2]
      exact h1
    have hgeZ : ((2 ^ mw : ℕ) : ℤ) ≤ rneR u := by
      by_contra hlt
      push_neg at hlt
      have h6 : ((rneR u : ℤ) : ℚ) ≤ ((2 ^ mw : ℕ) : ℚ) - 1 := by
        have h7 : rneR u ≤ ((2 ^ mw : ℕ) : ℤ) - 1 := by omega
        have h8 : ((rneR u : ℤ) : ℚ) ≤ ((((2 ^ mw : ℕ) : ℤ) - 1 : ℤ) : ℚ) := by
          exact_mod_cast h7
        push_cast at h8 ⊢
        linarith
      linarith [rneR_ge u, huge]
    omega
  have hzpos : 0 < z := by
    rcases le_or_lt E (k + mw) with hcase | hcase
    · have hd : (0:ℤ) ≤ k + mw - E := by omega
      have hu1 : (1:ℚ) ≤ u := by
        have h1 : (2:ℚ) ^ k * 2 ^ ((mw : Int) - E) ≤ u :=
          mul_le_mul_of_nonneg_right hvk (two_zpow_pos _).le
        have h2 : (1:ℚ) ≤ (2:ℚ) ^ (k + mw - E) := by
          rw [show (1:ℚ) = (2:ℚ) ^ (0:ℤ) from by norm_num]
          exact zpow_le_zpow_right₀ (by norm_num) hd
        have h3 : (2:ℚ) ^ k * 2 ^ ((mw : Int) - E) = (2:ℚ) ^ (k + mw - E) := by
          rw [← two_zpow_add]
          congr 1
          ring
        rw [h3] at h1
        linarith
      have : (1:ℤ) ≤ rneR u := by
        by_contra hlt
        push_neg at hlt
        have h0 : rneR u ≤ 0 := by omega
        have : ((rneR u : ℤ) : ℚ) ≤ 0 := by exact_mod_cast h0
        linarith [rneR_ge u]
      omega
    · have hne : E ≠ 1 - (bias ew : ℤ) := by omega
      by_contra hz0
      push_neg at hz0
      have hzs : z < 2 ^ mw := by
        have : 0 < 2 ^ mw := Nat.pos_pow_of_pos _ (by norm_num)
        omega
      exact hne (hsubc hzs)
  have hov : (if z = 2 ^ (mw + 1) then E + 1 else E) ≤ (bias ew : ℤ) := by
    split <;> omega
  have hcore := @roundCore_toRat ew mw false E z hmw hew hzpos hz2
    (le_max_right _ _) hsubc hov
  rw [hru]
  refine ⟨roundCore_sign _ _ _, roundCore_not_nan _ _ _ hew, hcore.2, ?_⟩
  rw [hcore.1]
  simp only [Bool.false_eq_true, if_false, one_mul]
  rcases le_or_lt E (k + mw) with hcase | hcase
  · have hd : (0:ℤ) ≤ k + mw - E := by omega
    have hdge : ((2:ℚ)) ^ (k + mw - E) - 1/2 ≤ (z : ℚ) := by
      have h1 : (2:ℚ) ^ k * 2 ^ ((mw : Int) - E) ≤ u :=
        mul_le_mul_of_nonneg_right hvk (two_zpow_pos _).le
      have h3 : (2:ℚ) ^ k * 2 ^ ((mw : Int) - E) = (2:ℚ) ^ (k + mw - E) := by
        rw [← two_zpow_add]
        congr 1
        ring
      rw [h3] at h1
      rw [hzc]
      linarith [rneR_ge u]
    have hdz : (2:ℚ) ^ (k + mw - E) ≤ (z : ℚ) := by
      have hcast : (2:ℚ) ^ (k + mw - E) = (((2 ^ (k + mw - E).toNat : ℕ)) : ℚ) := by
        conv_lhs => rw [show (k + mw - E) = (((k + mw - E).toNat : ℕ) : ℤ) from
          (Int.toNat_of_nonneg hd).symm]
        rw [two_zpow_cast]
        push_cast
        try ring
      rw [hcast] at hdge ⊢
      have hzn : (2 ^ (k + mw - E).toNat : ℕ) ≤ z := by
        by_contra hlt
        push_neg at hlt
        have h5 : (z : ℚ) ≤ ((2 ^ (k + mw - E).toNat : ℕ) : ℚ) - 1 := by
          have h7 : (z : ℤ) ≤ ((2 ^ (k + mw - E).toNat : ℕ) : ℤ) - 1 := by omega
          have h8 : ((z : ℤ) : ℚ) ≤ ((((2 ^ (k + mw - E).toNat : ℕ) : ℤ) - 1 : ℤ) : ℚ) := by
            exact_mod_cast h7
          push_cast at h8 ⊢
          linarith
        linarith
      exact_mod_cast hzn
    calc (2:ℚ) ^ k = (2:ℚ) ^ (k + mw - E) * 2 ^ (E - mw) := by
          rw [← two_zpow_add]
          congr 1
          ring
      _ ≤ (z : ℚ) * 2 ^ (E - mw) :=
          mul_le_mul_of_nonneg_right hdz (two_zpow_pos _).le
  · have hne : E ≠ 1 - (bias ew : ℤ) := by omega
    have hzmw : 2 ^ mw ≤ z := by
      by_contra hlt
      push_neg at hlt
      exact hne (hsubc hlt)
    have h1 : ((2 ^ mw : ℕ) : ℚ) ≤ (z : ℚ) := by exact_mod_cast hzmw
    calc (2:ℚ) ^ k ≤ (2:ℚ) ^ (E - mw + mw) := by
          apply zpow_le_zpow_right₀ (by norm_num)
          omega
      _ = ((2 ^ mw : ℕ) : ℚ) * 2 ^ (E - mw) := by
          rw [two_zpow_add]
          push_cast
          rw [show ((2:ℚ) ^ ((mw:ℕ):ℤ)) = (2:ℚ) ^ (mw:ℕ) from two_zpow_cast mw]
          ring
      _ ≤ (z : ℚ) * 2 ^ (E - mw) :=
          mul_le_mul_of_nonneg_right h1 (two_zpow_pos _).le

theorem roundR_ub (v : ℚ) (k : ℤ) (hmw : 1 ≤ mw) (hew : 2 ≤ ew)
    (hk1 : 1 - (bias ew : Int) ≤ k) (hk2 : k ≤ (bias ew : Int) - 1)
    (hv : 0 < v) (hvk : v ≤ (2:ℚ) ^ k) :
    (roundR ew mw v).sign = false ∧ (roundR ew mw v).isNan = false ∧
    (roundR ew mw v).isInf = false ∧ 0 ≤ (roundR ew mw v).toRat ∧
    (roundR ew mw v).toRat ≤ (2:ℚ) ^ k := by
  have hbias := bias_double ew hew
  have h4ew : (4:ℕ) ≤ 2 ^ ew := by
    calc (4:ℕ) = 2 ^ 2 := by norm_num
      _ ≤ 2 ^ ew := Nat.pow_le_pow_right (by norm_num) hew
  have hbias1 : 1 ≤ (bias ew : ℤ) := by omega
  set E := max (Int.log 2 v) (1 - (bias ew : ℤ)) with hE
  set u := v * 2 ^ ((mw : Int) - E) with hu
  set z := (rneR u).toNat with hz
  have hru := @roundR_unfold_pos ew mw v hv
  have hEk : E ≤ k := by
    have h1 : Int.log 2 v ≤ k := by
      have h2 : v < (2:ℚ) ^ (k + 1) :=
        lt_of_le_of_lt hvk (by
          apply zpow_lt_zpow_right₀ (by norm_num)
          omega)
      have h3 := (Int.lt_zpow_iff_log_lt (by norm_num : 1 < 2) hv).mp (by
        rw [two_nat_cast_q]
        exact h2)
      omega
    exact max_le h1 hk1
  have hupos : 0 < u := mul_pos hv (two_zpow_pos _)
  have hunn : 0 ≤ rneR u := rneR_nonneg u hupos.le
  have hzc : ((z : ℕ) : ℚ) = ((rneR u : ℤ) : ℚ) := by
    rw [hz]
    exact_mod_cast congrArg (fun t : ℤ => (t : ℚ)) (Int.toNat_of_nonneg hunn)
  have hd : (0:ℤ) ≤ k + mw - E := by omega
  have hule : u ≤ (((2 ^ (k + mw - E).toNat : ℕ)) : ℚ) := by
    have h1 : u ≤ (2:ℚ) ^ k * 2 ^ ((mw : Int) - E) :=
      mul_le_mul_of_nonneg_right hvk (two_zpow_pos _).le
    have h3 : (2:ℚ) ^ k * 2 ^ ((mw : Int) - E) = (2:ℚ) ^ (k + mw - E) := by
      rw [← two_zpow_add]
      congr 1
      ring
    have hcast : (2:ℚ) ^ (k + mw - E) = (((2 ^ (k + mw - E).toNat : ℕ)) : ℚ) := by
      conv_lhs => rw [show (k + mw - E) = (((k + mw - E).toNat : ℕ) : ℤ) from
        (Int.toNat_of_nonneg hd).symm]
      rw [two_zpow_cast]
      push_cast
      try ring
    rw [h3, hcast] at h1
    exact h1
  have hzle : z ≤ 2 ^ (k + mw - E).toNat := by
    have h1 : ((rneR u : ℤ) : ℚ) ≤ (((2 ^ (k + mw - E).toNat : ℕ)) : ℚ) + 1/2 := by
      linarith [rneR_le u]
    by_contra hlt
    push_neg at hlt
    have h2 : ((2 ^ (k + mw - E).toNat : ℕ) : ℤ) + 1 ≤ rneR u := by omega
    have h3 : (((2 ^ (k + mw - E).toNat : ℕ) : ℤ) : ℚ) + 1 ≤ ((rneR u : ℤ) : ℚ) := by
      exact_mod_cast h2
    push_cast at h3 h1
    linarith
  have hmwk : mw ≤ (k + mw - E).toNat := by omega
  have hz2 : z ≤ 2 ^ (mw + 1) ∨ True := Or.inr trivial
  rw [hru]
  by_cases hz0 : z = 0
  · have hzero : roundCore ew mw false E z = Fp.szero ew mw false := by
      rw [roundCore, if_pos hz0]
    rw [hzero]
    refine ⟨rfl, Fp.szero_isNan _, ?_, ?_, ?_⟩
    · rw [Fp.isInf]
      have hne : ¬ ((Fp.szero ew mw false).ex = emaxF ew) := by
        show ¬ ((0:ℕ) = emaxF ew)
        have := emaxF_pos hew
        omega
      simp [hne]
    · rw [show (Fp.szero ew mw false).toRat = 0 from by
        rw [Fp.toRat_eq, show (Fp.szero ew mw false).sigN = 0 from rfl]
        push_cast
        ring]
    · rw [show (Fp.szero ew mw false).toRat = 0 from by
        rw [Fp.toRat_eq, show (Fp.szero ew mw false).sigN = 0 from rfl]
        push_cast
        ring]
      exact (two_zpow_pos k).le
  · have hzpos : 0 < z := Nat.pos_of_ne_zero hz0
    have hzn2 : z ≤ 2 ^ (mw + 1) := by
      have hvlt : v < (2:ℚ) ^ (E + 1) := by
        have h1 : v < (2:ℚ) ^ (Int.log 2 v + 1) := by
          have := Int.lt_zpow_succ_log_self (by norm_num : 1 < 2) v
          rw [two_nat_cast_q] at this
          exact this
        refine lt_of_lt_of_le h1 (zpow_le_zpow_right₀ (by norm_num) ?_)
        have := le_max_left (Int.log 2 v) (1 - (bias ew : ℤ))
        omega
      have hult : u < ((2 ^ (mw + 1) : ℕ) : ℚ) := by
        have h1 : u < (2:ℚ) ^ (E + 1) * 2 ^ ((mw : Int) - E) :=
          mul_lt_mul_of_pos_right hvlt (two_zpow_pos _)
        have h2 : (2:ℚ) ^ (E + 1) * 2 ^ ((mw : Int) - E) = ((2 ^ (mw + 1) : ℕ) : ℚ) := by
          rw [← two_zpow_add]
          push_cast
          rw [show (E + 1 + ((mw : ℤ) - E)) = (((mw + 1 : ℕ)) : ℤ) from by push_cast; ring,
            two_zpow_cast]
        rw [← h2]
        exact h1
      have := rneR_le_of_lt_nat u (2 ^ (mw + 1)) hult
      omega
    have hsubc : z < 2 ^ mw → E = 1 - (bias ew : ℤ) := by
      intro hzs
      by_contra hne
      have hEl : E = Int.log 2 v := by
        rcases max_cases (Int.log 2 v) (1 - (bias ew : ℤ)) with ⟨h1, _⟩ | ⟨h1, _⟩
        · rw [hE, h1]
        · exact absurd (hE.trans h1) hne
      have hvE : (2:ℚ) ^ E ≤ v := by
        rw [hEl]
        have := Int.zpow_log_le_self (by norm_num : 1 < 2) hv
        rw [two_nat_cast_q] at this
        exact this
      have huge : ((2 ^ mw : ℕ) : ℚ) ≤ u := by
        have h1 : (2:ℚ) ^ E * 2 ^ ((mw : Int) - E) ≤ u :=
          mul_le_mul_of_nonneg_right hvE (two_zpow_pos _).le
        have h2 : (2:ℚ) ^ E * 2 ^ ((mw : Int) - E) = ((2 ^ mw : ℕ) : ℚ) := by
          rw [← two_zpow_add]
          push_cast
          rw [show (E + ((mw : ℤ) - E)) = ((mw : ℕ) : ℤ) from by push_cast; ring, two_zpow_cast]
        rw [← h2]
        exact h1
      have hgeZ : ((2 ^ mw : ℕ) : ℤ) ≤ rneR u := by
        by_contra hlt
        push_neg at hlt
        have h6 : ((rneR u : ℤ) : ℚ) ≤ ((2 ^ mw : ℕ) : ℚ) - 1 := by
          have h7 : rneR u ≤ ((2 ^ mw : ℕ) : ℤ) - 1 := by omega
          have h8 : ((rneR u : ℤ) : ℚ) ≤ ((((2 ^ mw : ℕ) : ℤ) - 1 : ℤ) : ℚ) := by
            exact_mod_cast h7
          push_cast at h8 ⊢
          linarith
        linarith [rneR_ge u, huge]
      omega
    have hov : (if z = 2 ^ (mw + 1) then E + 1 else E) ≤ (bias ew : ℤ) := by
      split <;> omega
    have hcore := @roundCore_toRat ew mw false E z hmw hew hzpos hzn2
      (le_max_right _ _) hsubc hov
    refine ⟨roundCore_sign _ _ _, roundCore_not_nan _ _ _ hew, hcore.2, ?_, ?_⟩
    · rw [hcore.1]
      simp only [Bool.false_eq_true, if_false, one_mul]
      positivity
    · rw [hcore.1]
      simp only [Bool.false_eq_true, if_false, one_mul]
      have h1 : ((z : ℕ) : ℚ) ≤ (((2 ^ (k + mw - E).toNat : ℕ)) : ℚ) := by
        exact_mod_cast hzle
      calc (z : ℚ) * 2 ^ (E - mw)
          ≤ (((2 ^ (k + mw - E).toNat : ℕ)) : ℚ) * 2 ^ (E - mw) :=
            mul_le_mul_of_nonneg_right h1 (two_zpow_pos _).le
        _ = (2:ℚ) ^ k := by
            have hcast : (((2 ^ (k + mw - E).toNat : ℕ)) : ℚ) = (2:ℚ) ^ (k + mw - E) := by
              conv_rhs => rw [show (k + mw - E) = (((k + mw - E).toNat : ℕ) : ℤ) from
                (Int.toNat_of_nonneg hd).symm]
              rw [two_zpow_cast]
              push_cast
              try ring
            rw [hcast, ← two_zpow_add]
            congr 1
            ring

/-! ## Arithmetic on values: the rounded result seen through `toRat` -/

theorem Fp.add_eq_roundR (x y : Fp ew mw) (hx : x.isNan = false) (hy : y.isNan = false)
    (hxi : x.isInf = false) (hyi : y.isInf = false) (hnz : x.toRat + y.toRat ≠ 0) :
    x.add y = roundR ew mw (x.toRat + y.toRat) := by
  rw [Fp.add, if_neg (by simp [hx, hy]), if_neg (by simp [hxi]), if_neg (by simp [hyi])]
  simp only
  have hq : (x.toQ.add y.toQ).val = x.toRat + y.toRat := by
    rw [Q.val_add _ _ (Fp.toQ_den_pos x) (Fp.toQ_den_pos y), Fp.toQ_val, Fp.toQ_val]
  have hden : 0 < (x.toQ.add y.toQ).den :=
    Q.add_den_pos _ _ (Fp.toQ_den_pos x) (Fp.toQ_den_pos y)
  have hnum : ¬ ((x.toQ.add y.toQ).num = 0) := by
    intro h0
    apply hnz
    rw [← hq, Q.val_eq, h0]
    norm_num
  rw [if_neg hnum, roundF_eq_roundR _ hden, hq]

theorem Fp.mul_eq_roundR (x y : Fp ew mw) (hx : x.isNan = false) (hy : y.isNan = false)
    (hxi : x.isInf = false) (hyi : y.isInf = false)
    (hxz : x.isZero = false) (hyz : y.isZero = false) :
    x.mul y = roundR ew mw (x.toRat * y.toRat) := by
  rw [Fp.mul, if_neg (by simp [hx, hy]), if_neg (by simp [hxi, hyi]),
    if_neg (by simp [hxz, hyz])]
  have hq : (x.toQ.mul y.toQ).val = x.toRat * y.toRat := by
    rw [Q.val_mul _ _ (Fp.toQ_den_pos x) (Fp.toQ_den_pos y), Fp.toQ_val, Fp.toQ_val]
  have hden : 0 < (x.toQ.mul y.toQ).den :=
    Q.mul_den_pos _ _ (Fp.toQ_den_pos x) (Fp.toQ_den_pos y)
  rw [roundF_eq_roundR _ hden, hq]

theorem Fp.sub_eq_roundR (x y : Fp ew mw) (hx : x.isNan = false) (hy : y.isNan = false)
    (hxi : x.isInf = false) (hyi : y.isInf = false) (hnz : x.toRat - y.toRat ≠ 0) :
    x.sub y = roundR ew mw (x.toRat - y.toRat) := by
  rw [Fp.sub]
  have h1 : y.neg.isNan = false := by
    rw [Fp.neg_isNan]
    exact hy
  have h2 : y.neg.isInf = false := by
    rw [Fp.neg_isInf]
    exact hyi
  rw [Fp.add_eq_roundR x y.neg hx h1 hxi h2 (by rw [Fp.toRat_neg_eq]; intro hc; apply hnz; linarith),
    Fp.toRat_neg_eq]
  congr 1
  ring

theorem Fp.div_eq_roundR (x y : Fp ew mw) (hx : x.isNan = false) (hy : y.isNan = false)
    (hxi : x.isInf = false) (hyi : y.isInf = false)
    (hxz : x.isZero = false) (hyz : y.isZero = false) (hmw : 1 ≤ mw)
    (hyv : y.Valid) :
    x.div y = roundR ew mw (x.toRat / y.toRat) := by
  rw [Fp.div, if_neg (by simp [hx, hy]), if_neg (by simp [hxi]), if_neg (by simp [hyi]),
    if_neg (by simp [hyz]), if_neg (by simp [hxz])]
  have hq : (x.toQ.div y.toQ).val = x.toRat / y.toRat := by
    rw [Q.val_div _ _ (Fp.toQ_den_pos x) (Fp.toQ_den_pos y), Fp.toQ_val, Fp.toQ_val]
  have hynum : y.toQ.num ≠ 0 :=
    Fp.toQ_num_ne_zero y (Fp.sigN_ne_zero y hyz hyv hmw)
  have hden : 0 < (x.toQ.div y.toQ).den := by
    rw [Q.div]
    apply Q.mul_den_pos _ _ (Fp.toQ_den_pos x)
    rw [Q.inv]
    split <;> simpa using Int.natAbs_pos.mpr hynum
  rw [roundF_eq_roundR _ hden, hq]

/-! ## Nonnegativity propagation through the operations -/

theorem Fp.addP (x y : Fp ew mw) (hew : 2 ≤ ew) (hx : x.isNan = false) (hy : y.isNan = false)
    (hxr : 0 ≤ x.toRat) (hyr : 0 ≤ y.toRat) :
    (x.add y).isNan = false ∧ 0 ≤ (x.add y).toRat := by
  have hsx : x.isInf = true → x.sign = false := by
    intro hinf
    rcases hsw : x.sign with _ | _
    · rfl
    · have := (Fp.toRat_neg_iff x (Fp.inf_sigN x hew hinf)).mpr hsw
      linarith
  have hsy : y.isInf = true → y.sign = false := by
    intro hinf
    rcases hsw : y.sign with _ | _
    · rfl
    · have := (Fp.toRat_neg_iff y (Fp.inf_sigN y hew hinf)).mpr hsw
      linarith
  rw [Fp.add, if_neg (by simp [hx, hy])]
  split
  · rename_i hxinf
    have hcond : (y.isInf && (x.sign != y.sign)) = false := by
      rcases hyinf : y.isInf with _ | _
      · rfl
      · rw [hsx hxinf, hsy hyinf]
        rfl
    rw [hcond]
    simp only [Bool.false_eq_true, if_false]
    exact ⟨hx, hxr⟩
  split
  · exact ⟨hy, hyr⟩
  simp only
  split
  · split
    · refine ⟨Fp.szero_isNan _, ?_⟩
      rw [Fp.toRat_eq, show (Fp.szero ew mw x.sign).sigN = 0 from rfl]
      push_cast
      split <;> norm_num
    · refine ⟨Fp.szero_isNan _, ?_⟩
      rw [Fp.toRat_eq, show (Fp.pzero ew mw).sigN = 0 from rfl]
      push_cast
      split <;> norm_num
  · rename_i hxinf hyinf hnum
    have hden : 0 < (x.toQ.add y.toQ).den :=
      Q.add_den_pos _ _ (Fp.toQ_den_pos x) (Fp.toQ_den_pos y)
    rw [roundF_eq_roundR _ hden]
    have hq : (x.toQ.add y.toQ).val = x.toRat + y.toRat := by
      rw [Q.val_add _ _ (Fp.toQ_den_pos x) (Fp.toQ_den_pos y), Fp.toQ_val, Fp.toQ_val]
    rw [hq]
    refine ⟨roundR_not_nan _ hew, ?_⟩
    have hvnn : 0 ≤ x.toRat + y.toRat := by linarith
    have hsgn : (roundR ew mw (x.toRat + y.toRat)).sign = false := by
      rw [roundR_sign]
      simp only [decide_eq_false_iff_not]
      linarith
    exact Fp.toRat_nonneg _ hsgn

theorem Fp.addP_val (x y : Fp ew mw) (hew : 2 ≤ ew) (hx : x.isNan = false)
    (hy : y.isNan = false) (hxi : x.isInf = false) (hyi : y.isInf = false)
    (hval : 0 ≤ x.toRat + y.toRat) :
    (x.add y).isNan = false ∧ 0 ≤ (x.add y).toRat := by
  rw [Fp.add, if_neg (by simp [hx, hy]), if_neg (by simp [hxi]), if_neg (by simp [hyi])]
  simp only
  split
  · split
    · refine ⟨Fp.szero_isNan _, ?_⟩
      rw [Fp.toRat_eq, show (Fp.szero ew mw x.sign).sigN = 0 from rfl]
      push_cast
      split <;> norm_num
    · refine ⟨Fp.szero_isNan _, ?_⟩
      rw [Fp.toRat_eq, show (Fp.pzero ew mw).sigN = 0 from rfl]
      push_cast
      split <;> norm_num
  · have hden : 0 < (x.toQ.add y.toQ).den :=
      Q.add_den_pos _ _ (Fp.toQ_den_pos x) (Fp.toQ_den_pos y)
    rw [roundF_eq_roundR _ hden]
    have hq : (x.toQ.add y.toQ).val = x.toRat + y.toRat := by
      rw [Q.val_add _ _ (Fp.toQ_den_pos x) (Fp.toQ_den_pos y), Fp.toQ_val, Fp.toQ_val]
    rw [hq]
    refine ⟨roundR_not_nan _ hew, ?_⟩
    have hsgn : (roundR ew mw (x.toRat + y.toRat)).sign = false := by
      rw [roundR_sign]
      simp only [decide_eq_false_iff_not]
      linarith
    exact Fp.toRat_nonneg _ hsgn

theorem Fp.mulP (x y : Fp ew mw) (hew : 2 ≤ ew) (hx : x.isNan = false) (hy : y.isNan = false)
    (hxr : 0 ≤ x.toRat) (hyr : 0 ≤ y.toRat)
    (hp1 : ¬ (x.isInf = true ∧ y.isZero = true)) (hp2 : ¬ (y.isInf = true ∧ x.isZero = true)) :
    (x.mul y).isNan = false ∧ 0 ≤ (x.mul y).toRat := by
  rw [Fp.mul, if_neg (by simp [hx, hy])]
  split
  · rename_i hinfs
    have hzf : (x.isZero || y.isZero) = false := by
      rw [Bool.or_eq_true] at hinfs
      rcases hinfs with hxi | hyi
      · rcases hyz : y.isZero with _ | _
        · rw [Fp.inf_not_zero x hew hxi]
          rfl
        · exact absurd ⟨hxi, hyz⟩ hp1
      · rcases hxz : x.isZero with _ | _
        · rw [Fp.inf_not_zero y hew hyi]
          rfl
        · exact absurd ⟨hyi, hxz⟩ hp2
    rw [hzf]
    simp only [Bool.false_eq_true, if_false]
    rw [Bool.or_eq_true] at hinfs
    have hsgn : (x.sign != y.sign) = false := by
      rcases hinfs with hxi | hyi
      · have hxs : x.sign = false := by
          rcases hsw : x.sign with _ | _
          · rfl
          · have := (Fp.toRat_neg_iff x (Fp.inf_sigN x hew hxi)).mpr hsw
            linarith
        have hyz : y.isZero = false := by
          rcases hyz2 : y.isZero with _ | _
          · rfl
          · exact absurd ⟨hxi, hyz2⟩ hp1
        have hys : y.sign = false := by
          rcases hsw : y.sign with _ | _
          · rfl
          · have hsig : y.sigN ≠ 0 := by
              apply Fp.sigN_ne_zero_of_not_zero
              simpa using hyz
            have := (Fp.toRat_neg_iff y hsig).mpr hsw
            linarith
        rw [hxs, hys]
        rfl
      · have hys : y.sign = false := by
          rcases hsw : y.sign with _ | _
          · rfl
          · have := (Fp.toRat_neg_iff y (Fp.inf_sigN y hew hyi)).mpr hsw
            linarith
        have hxz : x.isZero = false := by
          rcases hxz2 : x.isZero with _ | _
          · rfl
          · exact absurd ⟨hyi, hxz2⟩ hp2
        have hxs : x.sign = false := by
          rcases hsw : x.sign with _ | _
          · rfl
          · have hsig : x.sigN ≠ 0 := by
              apply Fp.sigN_ne_zero_of_not_zero
              simpa using hxz
            have := (Fp.toRat_neg_iff x hsig).mpr hsw
            linarith
        rw [hxs, hys]
        rfl
    rw [hsgn]
    constructor
    · exact Fp.isNan_eq_false_of_frac _ rfl
    · apply Fp.toRat_nonneg
      rfl
  split
  · refine ⟨Fp.szero_isNan _, ?_⟩
    rw [Fp.toRat_eq, show (Fp.szero ew mw (x.sign != y.sign)).sigN = 0 from rfl]
    push_cast
    split <;> norm_num
  · have hden : 0 < (x.toQ.mul y.toQ).den :=
      Q.mul_den_pos _ _ (Fp.toQ_den_pos x) (Fp.toQ_den_pos y)
    rw [roundF_eq_roundR _ hden]
    have hq : (x.toQ.mul y.toQ).val = x.toRat * y.toRat := by
      rw [Q.val_mul _ _ (Fp.toQ_den_pos x) (Fp.toQ_den_pos y), Fp.toQ_val, Fp.toQ_val]
    rw [hq]
    refine ⟨roundR_not_nan _ hew, ?_⟩
    have hsgn : (roundR ew mw (x.toRat * y.toRat)).sign = false := by
      rw [roundR_sign]
      simp only [decide_eq_false_iff_not]
      nlinarith
    exact Fp.toRat_nonneg _ hsgn

/-! ## The integer square root and `Fp.sqrt` bounds -/

theorem isqrtStep_spec (n : Nat) : ∀ k r, r * r ≤ n → n < (r + 2 ^ k) * (r + 2 ^ k) →
    isqrtStep n k r * isqrtStep n k r ≤ n ∧
    n < (isqrtStep n k r + 1) * (isqrtStep n k r + 1) := by
  intro k
  induction k with
  | zero =>
    intro r h1 h2
    rw [isqrtStep]
    constructor
    · exact h1
    · simpa using h2
  | succ k ih =>
    intro r h1 h2
    rw [isqrtStep]
    split
    · rename_i hc
      apply ih
      · exact hc
      · have : r + 2 ^ k + 2 ^ k = r + 2 ^ (k + 1) := by
          rw [pow_succ]
          ring
        rw [this]
        exact h2
    · rename_i hc
      push_neg at hc
      exact ih r h1 hc

theorem sqrt_unfold (x : Fp ew mw) (h1 : x.isNan = false) (h2 : x.isZero = false)
    (h3 : x.sign = false) (h4 : x.isInf = false) :
    Fp.sqrt x = (if sqrtC x = 2 ^ (mw + 1)
      then (⟨false, (sqrtEs x + 1 + bias ew).toNat, 0⟩ : Fp ew mw)
      else ⟨false, (sqrtEs x + bias ew).toNat, sqrtC x - 2 ^ mw⟩) := by
  rw [Fp.sqrt, if_neg (by simp [h1]), if_neg (by simp [h2]), if_neg (by simp [h3]),
    if_neg (by simp [h4])]
  rfl

theorem Fp.sqrtP (x : Fp ew mw) (hv : x.Valid) (hmw : 1 ≤ mw) (hew : 2 ≤ ew)
    (hnn : x.isNan = false) (hxr : 0 ≤ x.toRat) :
    (Fp.sqrt x).isNan = false ∧ 0 ≤ (Fp.sqrt x).toRat := by
  have hbias := bias_double ew hew
  have h4ew : (4:ℕ) ≤ 2 ^ ew := by
    calc (4:ℕ) = 2 ^ 2 := by norm_num
      _ ≤ 2 ^ ew := Nat.pow_le_pow_right (by norm_num) hew
  by_cases hz : x.isZero = true
  · have hx : Fp.sqrt x = x := by
      rw [Fp.sqrt, if_neg (by simp [hnn]), if_pos hz]
    rw [hx]
    exact ⟨hnn, hxr⟩
  · have hsig : x.sigN ≠ 0 := Fp.sigN_ne_zero x (by simpa using hz) hv hmw
    have hs : x.sign = false := by
      rcases hsw : x.sign with _ | _
      · rfl
      · have := (Fp.toRat_neg_iff x hsig).mpr hsw
        linarith
    by_cases hinf : x.isInf = true
    · have hx : Fp.sqrt x = x := by
        rw [Fp.sqrt, if_neg (by simp [hnn]), if_neg hz, if_neg (by simp [hs]), if_pos hinf]
      rw [hx]
      exact ⟨hnn, hxr⟩
    ·
      have hvpos : 0 < x.toRat := lt_of_le_of_ne hxr (Ne.symm (Fp.toRat_ne_zero x hsig))
      have hnumpos : 0 < x.toQ.num := by
        have hne := Fp.toQ_num_ne_zero x hsig
        rcases lt_trichotomy x.toQ.num 0 with h | h | h
        · exfalso
          have hval : x.toQ.val < 0 := by
            rw [Q.val_eq]
            apply div_neg_of_neg_of_pos
            · exact_mod_cast h
            · exact_mod_cast Fp.toQ_den_pos x
          rw [Fp.toQ_val] at hval
          linarith
        · exact absurd h hne
        · exact h
      have he2 : qlog2 x.toQ = Int.log 2 x.toRat := by
        rw [qlog2_eq_log x.toQ hnumpos (Fp.toQ_den_pos x), Fp.toQ_val]
      have he2ub : qlog2 x.toQ ≤ x.uexp := by
        rw [he2]
        have h1 := Fp.log_abs_toRat_le x hv hsig
        rw [abs_of_pos hvpos] at h1
        exact h1
      have huexp_ub : x.uexp ≤ (bias ew : ℤ) + 1 := by
        rw [Fp.uexp]
        have h1 := hv.1
        split
        · omega
        · have h3 : (x.ex : ℤ) ≤ ((2 ^ ew - 1 : ℕ) : ℤ) := by
            exact_mod_cast (by omega : x.ex ≤ 2 ^ ew - 1)
          omega
      have hEs_ub : (qlog2 x.toQ).fdiv 2 ≤ (bias ew : ℤ) := by
        rw [Int.fdiv_eq_ediv _ (by norm_num)]
        omega
      rw [sqrt_unfold x hnn (by simpa using hz) hs (by simpa using hinf)]
      split
      · exact ⟨Fp.isNan_eq_false_of_frac _ rfl, Fp.toRat_nonneg _ rfl⟩
      · refine ⟨Fp.isNan_eq_false_of_ex _ ?_, Fp.toRat_nonneg _ rfl⟩
        show ¬ ((sqrtEs x + (bias ew : ℤ)).toNat = emaxF ew)
        rw [emaxF, sqrtEs]
        omega

theorem q_npow_toNat (n : ℤ) (hn : 0 ≤ n) : ((2:ℚ) ^ n.toNat) = (2:ℚ) ^ n := by
  rw [← two_zpow_cast, Int.toNat_of_nonneg hn]

theorem q_pow_toNat (n : ℤ) (hn : 0 ≤ n) : (((2 ^ n.toNat : ℕ)) : ℚ) = (2:ℚ) ^ n := by
  conv_rhs => rw [show n = ((n.toNat : ℕ) : ℤ) from (Int.toNat_of_nonneg hn).symm]
  rw [two_zpow_cast]
  push_cast
  try ring

theorem Fp.sqrt_ub (x : Fp ew mw) (hv : x.Valid) (hmw : 1 ≤ mw) (hew : 2 ≤ ew)
    (hs : x.sign = false) (hnn : x.isNan = false) (hni : x.isInf = false)
    (hnz : x.isZero = false) (b : ℤ) (hb0 : 0 ≤ b) (hb2 : b ≤ (bias ew : ℤ) - 1)
    (hlo : (1:ℚ) ≤ x.toRat) (hub : x.toRat ≤ (2:ℚ) ^ (2 * b)) :
    (x.sqrt).sign = false ∧ (x.sqrt).isNan = false ∧ (x.sqrt).isInf = false ∧
    (x.sqrt).Valid ∧ 0 ≤ (x.sqrt).toRat ∧ (x.sqrt).toRat ≤ (2:ℚ) ^ b := by
  have hbias := bias_double ew hew
  have h4ew : (4:ℕ) ≤ 2 ^ ew := by
    calc (4:ℕ) = 2 ^ 2 := by norm_num
      _ ≤ 2 ^ ew := Nat.pow_le_pow_right (by norm_num) hew
  have hbias1 : 1 ≤ (bias ew : ℤ) := by omega
  have hsig : x.sigN ≠ 0 := Fp.sigN_ne_zero x hnz hv hmw
  have hvpos : 0 < x.toRat := by
    have := Fp.toRat_nonneg x hs
    exact lt_of_le_of_ne this (Ne.symm (Fp.toRat_ne_zero x hsig))
  have hnumpos : 0 < x.toQ.num := by
    have hne := Fp.toQ_num_ne_zero x hsig
    rcases lt_trichotomy x.toQ.num 0 with h | h | h
    · exfalso
      have hval : x.toQ.val < 0 := by
        rw [Q.val_eq]
        apply div_neg_of_neg_of_pos
        · exact_mod_cast h
        · exact_mod_cast Fp.toQ_den_pos x
      rw [Fp.toQ_val] at hval
      linarith
    · exact absurd h hne
    · exact h
  have he2 : qlog2 x.toQ = Int.log 2 x.toRat := by
    rw [qlog2_eq_log x.toQ hnumpos (Fp.toQ_den_pos x), Fp.toQ_val]
  have he2_lb : 0 ≤ qlog2 x.toQ := by
    rw [he2]
    apply (Int.zpow_le_iff_le_log (by norm_num) hvpos).mp
    rw [two_nat_cast_q]
    simpa using hlo
  have he2_ub : qlog2 x.toQ ≤ 2 * b := by
    rw [he2]
    have h1 := (Int.lt_zpow_iff_log_lt (by norm_num : 1 < 2) hvpos).mp (by
      rw [two_nat_cast_q]
      calc x.toRat ≤ (2:ℚ) ^ (2 * b) := hub
        _ < (2:ℚ) ^ (2 * b + 1) := by
            apply zpow_lt_zpow_right₀ (by norm_num)
            omega)
    omega
  have hfd := Int.fdiv_eq_ediv (qlog2 x.toQ) (by norm_num : (0:ℤ) ≤ 2)
  have hES_lb : 0 ≤ sqrtEs x := by
    rw [sqrtEs, hfd]
    omega
  have hES_ub : sqrtEs x ≤ b := by
    rw [sqrtEs, hfd]
    omega
  have h2ES : 2 * sqrtEs x ≤ qlog2 x.toQ := by
    rw [sqrtEs, hfd]
    omega
  have hE2lt : qlog2 x.toQ ≤ 2 * sqrtEs x + 1 := by
    rw [sqrtEs, hfd]
    omega
  have he2uexp : qlog2 x.toQ ≤ x.uexp := by
    rw [he2]
    have h1 := Fp.log_abs_toRat_le x hv hsig
    rw [abs_of_pos hvpos] at h1
    exact h1
  have hshnn : 0 ≤ (x.uexp - mw) + 2 * ((mw : ℤ) - sqrtEs x) := by omega
  have hNval : ((sqrtN x : ℕ) : ℚ) = x.toRat * 2 ^ (2 * ((mw:ℤ) - sqrtEs x)) := by
    have h1 : sqrtN x = x.sigN *
        2 ^ ((x.uexp - mw) + 2 * ((mw : Int) - sqrtEs x)).toNat := rfl
    rw [h1]
    push_cast
    rw [show ((2:ℚ) ^ ((x.uexp - mw) + 2 * ((mw : Int) - sqrtEs x)).toNat)
        = (2:ℚ) ^ ((x.uexp - mw) + 2 * ((mw : Int) - sqrtEs x)) from by
      rw [← q_pow_toNat _ hshnn]
      push_cast
      try ring]
    have hvsig : x.toRat = (x.sigN : ℚ) * 2 ^ (x.uexp - mw) := by
      rw [Fp.toRat_eq, hs]
      simp only [Bool.false_eq_true, if_false, one_mul]
    rw [hvsig, mul_assoc, ← two_zpow_add]
  have hPnn : 0 ≤ b + mw - sqrtEs x := by omega
  have hN_ub : sqrtN x ≤ 2 ^ (b + mw - sqrtEs x).toNat * 2 ^ (b + mw - sqrtEs x).toNat := by
    have h1 : ((sqrtN x : ℕ) : ℚ) ≤
        ((2 ^ (b + mw - sqrtEs x).toNat * 2 ^ (b + mw - sqrtEs x).toNat : ℕ) : ℚ) := by
      rw [hNval]
      push_cast
      rw [q_npow_toNat _ hPnn]
      calc x.toRat * 2 ^ (2 * ((mw:ℤ) - sqrtEs x))
          ≤ (2:ℚ) ^ (2 * b) * 2 ^ (2 * ((mw:ℤ) - sqrtEs x)) :=
            mul_le_mul_of_nonneg_right hub (two_zpow_pos _).le
        _ = (2:ℚ) ^ (b + mw - sqrtEs x) * 2 ^ (b + mw - sqrtEs x) := by
            rw [← two_zpow_add, ← two_zpow_add]
            congr 1
            ring
    exact_mod_cast h1
  have hN_lb : 2 ^ mw * 2 ^ mw ≤ sqrtN x := by
    have h1 : (((2 ^ mw * 2 ^ mw : ℕ)) : ℚ) ≤ ((sqrtN x : ℕ) : ℚ) := by
      rw [hNval]
      have hvE : (2:ℚ) ^ (2 * sqrtEs x) ≤ x.toRat := by
        calc (2:ℚ) ^ (2 * sqrtEs x) ≤ (2:ℚ) ^ (qlog2 x.toQ) :=
              zpow_le_zpow_right₀ (by norm_num) h2ES
          _ ≤ x.toRat := by
              rw [he2]
              have := Int.zpow_log_le_self (by norm_num : 1 < 2) hvpos
              rw [two_nat_cast_q] at this
              exact this
      calc (((2 ^ mw * 2 ^ mw : ℕ)) : ℚ)
          = (2:ℚ) ^ (2 * sqrtEs x) * 2 ^ (2 * ((mw:ℤ) - sqrtEs x)) := by
            push_cast
            rw [show ((2:ℚ) ^ mw) = (2:ℚ) ^ ((mw:ℕ):ℤ) from (two_zpow_cast mw).symm,
              ← two_zpow_add, ← two_zpow_add]
            congr 1
            push_cast
            ring
        _ ≤ x.toRat * 2 ^ (2 * ((mw:ℤ) - sqrtEs x)) :=
            mul_le_mul_of_nonneg_right hvE (two_zpow_pos _).le
    exact_mod_cast h1
  have hN_lt2 : sqrtN x < 2 ^ (mw + 1) * 2 ^ (mw + 1) := by
    have h1 : ((sqrtN x : ℕ) : ℚ) < ((2 ^ (mw + 1) * 2 ^ (mw + 1) : ℕ) : ℚ) := by
      rw [hNval]
      have hvE : x.toRat < (2:ℚ) ^ (2 * sqrtEs x + 2) := by
        have h2 : x.toRat < (2:ℚ) ^ (qlog2 x.toQ + 1) := by
          rw [he2]
          have := Int.lt_zpow_succ_log_self (by norm_num : 1 < 2) x.toRat
          rw [two_nat_cast_q] at this
          exact this
        calc x.toRat < (2:ℚ) ^ (qlog2 x.toQ + 1) := h2
          _ ≤ (2:ℚ) ^ (2 * sqrtEs x + 2) := zpow_le_zpow_right₀ (by norm_num) (by omega)
      calc x.toRat * 2 ^ (2 * ((mw:ℤ) - sqrtEs x))
          < (2:ℚ) ^ (2 * sqrtEs x + 2) * 2 ^ (2 * ((mw:ℤ) - sqrtEs x)) :=
            mul_lt_mul_of_pos_right hvE (two_zpow_pos _)
        _ = ((2 ^ (mw + 1) * 2 ^ (mw + 1) : ℕ) : ℚ) := by
            push_cast
            rw [show ((2:ℚ) ^ (mw + 1)) = (2:ℚ) ^ (((mw + 1 : ℕ)):ℤ) from
              (two_zpow_cast (mw + 1)).symm, ← two_zpow_add, ← two_zpow_add]
            congr 1
            push_cast
            ring
    exact_mod_cast h1
  have hstep := isqrtStep_spec (sqrtN x) (mw + 2) 0 (by simp) (by
    have h1 : (2:ℕ) ^ (mw + 1) * 2 ^ (mw + 1) ≤ (0 + 2 ^ (mw + 2)) * (0 + 2 ^ (mw + 2)) := by
      have h2 : (2:ℕ) ^ (mw + 1) ≤ 2 ^ (mw + 2) := Nat.pow_le_pow_right (by norm_num) (by omega)
      calc (2:ℕ) ^ (mw + 1) * 2 ^ (mw + 1) ≤ 2 ^ (mw + 2) * 2 ^ (mw + 2) :=
            Nat.mul_le_mul h2 h2
        _ = (0 + 2 ^ (mw + 2)) * (0 + 2 ^ (mw + 2)) := by ring
    omega)
  have hc0_lb : 2 ^ mw ≤ isqrtStep (sqrtN x) (mw + 2) 0 := by
    by_contra hlt
    push_neg at hlt
    have h1 : isqrtStep (sqrtN x) (mw + 2) 0 + 1 ≤ 2 ^ mw := by omega
    have h2 : (isqrtStep (sqrtN x) (mw + 2) 0 + 1) * (isqrtStep (sqrtN x) (mw + 2) 0 + 1)
        ≤ 2 ^ mw * 2 ^ mw := Nat.mul_le_mul h1 h1
    have := hstep.2
    omega
  have hc0_ubP : isqrtStep (sqrtN x) (mw + 2) 0 ≤ 2 ^ (b + mw - sqrtEs x).toNat := by
    by_contra hlt
    push_neg at hlt
    have h2 : (2 ^ (b + mw - sqrtEs x).toNat + 1) * (2 ^ (b + mw - sqrtEs x).toNat + 1)
        ≤ isqrtStep (sqrtN x) (mw + 2) 0 * isqrtStep (sqrtN x) (mw + 2) 0 :=
      Nat.mul_le_mul (by omega) (by omega)
    have h3 : (2 ^ (b + mw - sqrtEs x).toNat + 1) * (2 ^ (b + mw - sqrtEs x).toNat + 1)
        ≤ 2 ^ (b + mw - sqrtEs x).toNat * 2 ^ (b + mw - sqrtEs x).toNat :=
      le_trans h2 (le_trans hstep.1 hN_ub)
    have hexp : (2 ^ (b + mw - sqrtEs x).toNat + 1) * (2 ^ (b + mw - sqrtEs x).toNat + 1)
        = 2 ^ (b + mw - sqrtEs x).toNat * 2 ^ (b + mw - sqrtEs x).toNat
          + 2 * 2 ^ (b + mw - sqrtEs x).toNat + 1 := by
      ring
    omega
  have hc0_ub2 : isqrtStep (sqrtN x) (mw + 2) 0 < 2 ^ (mw + 1) := by
    by_contra hlt
    push_neg at hlt
    have h2 : (2:ℕ) ^ (mw + 1) * 2 ^ (mw + 1)
        ≤ isqrtStep (sqrtN x) (mw + 2) 0 * isqrtStep (sqrtN x) (mw + 2) 0 :=
      Nat.mul_le_mul hlt hlt
    have := hstep.1
    omega
  have hC_lb : 2 ^ mw ≤ sqrtC x := by
    rw [sqrtC]
    split <;> omega
  have hC_ub2 : sqrtC x ≤ 2 ^ (mw + 1) := by
    rw [sqrtC]
    split <;> omega
  have hC_ubP : sqrtC x ≤ 2 ^ (b + mw - sqrtEs x).toNat := by
    rw [sqrtC]
    split
    · rename_i hcond
      rcases Nat.lt_or_ge (isqrtStep (sqrtN x) (mw + 2) 0) (2 ^ (b + mw - sqrtEs x).toNat)
        with h | h
      · omega
      · have heq : isqrtStep (sqrtN x) (mw + 2) 0 = 2 ^ (b + mw - sqrtEs x).toNat := by omega
        rw [heq] at hcond
        have h5 : 4 * sqrtN x ≤
            4 * (2 ^ (b + mw - sqrtEs x).toNat * 2 ^ (b + mw - sqrtEs x).toNat) := by
          omega
        have hexp : (2 * 2 ^ (b + mw - sqrtEs x).toNat + 1) * (2 * 2 ^ (b + mw - sqrtEs x).toNat + 1)
            = 4 * (2 ^ (b + mw - sqrtEs x).toNat * 2 ^ (b + mw - sqrtEs x).toNat)
              + 4 * 2 ^ (b + mw - sqrtEs x).toNat + 1 := by
          ring
        omega
    · exact hc0_ubP
  have hmwP : mw ≤ (b + mw - sqrtEs x).toNat := by omega
  rw [sqrt_unfold x hnn hnz hs hni]
  split
  · rename_i hCeq
    have hP1 : mw + 1 ≤ (b + mw - sqrtEs x).toNat := by
      by_contra hlt
      push_neg at hlt
      have h1 : (b + mw - sqrtEs x).toNat ≤ mw := by omega
      have h2 : (2:ℕ) ^ (b + mw - sqrtEs x).toNat ≤ 2 ^ mw :=
        Nat.pow_le_pow_right (by norm_num) h1
      have h3 : (2:ℕ) ^ (mw + 1) ≤ 2 ^ mw := le_trans (hCeq ▸ hC_ubP) h2
      have h4 : (2:ℕ) ^ mw < 2 ^ (mw + 1) := Nat.pow_lt_pow_right (by norm_num) (by omega)
      omega
    have hES1 : sqrtEs x + 1 ≤ b := by omega
    have hexpos : (0:ℤ) < sqrtEs x + 1 + bias ew := by omega
    have hexne : ¬ ((sqrtEs x + 1 + (bias ew : ℤ)).toNat = 0) := by omega
    have hexub : (sqrtEs x + 1 + (bias ew : ℤ)).toNat ≤ 2 * bias ew := by omega
    have htor : (⟨false, (sqrtEs x + 1 + (bias ew : ℤ)).toNat, 0⟩ : Fp ew mw).toRat
        = (2:ℚ) ^ (sqrtEs x + 1) := by
      rw [toRat_mk, if_neg hexne, if_neg hexne,
        show (((sqrtEs x + 1 + (bias ew : ℤ)).toNat : ℕ) : ℤ) = sqrtEs x + 1 + bias ew from
          by omega,
        show (if (false = true) then (-1:ℚ) else 1) = 1 from rfl, one_mul]
      push_cast
      rw [add_zero,
        show ((2:ℚ) ^ mw) = (2:ℚ) ^ ((mw:ℕ):ℤ) from (two_zpow_cast mw).symm, ← two_zpow_add]
      congr 1
      push_cast
      ring
    refine ⟨rfl, Fp.isNan_eq_false_of_frac _ rfl, ?_, ?_, ?_, ?_⟩
    · apply Fp.isInf_eq_false_of_ex
      show ¬ ((sqrtEs x + 1 + (bias ew : ℤ)).toNat = emaxF ew)
      rw [emaxF]
      omega
    · constructor
      · show (sqrtEs x + 1 + (bias ew : ℤ)).toNat < 2 ^ ew
        omega
      · show (0:ℕ) < 2 ^ mw
        exact Nat.pos_pow_of_pos _ (by norm_num)
    · rw [htor]
      exact (two_zpow_pos _).le
    · rw [htor]
      exact zpow_le_zpow_right₀ (by norm_num) (by omega)
  · rename_i hCne
    have hClt : sqrtC x < 2 ^ (mw + 1) := lt_of_le_of_ne hC_ub2 hCne
    have hexpos : (0:ℤ) < sqrtEs x + bias ew := by omega
    have hexne : ¬ ((sqrtEs x + (bias ew : ℤ)).toNat = 0) := by omega
    have hexub : (sqrtEs x + (bias ew : ℤ)).toNat ≤ 2 * bias ew - 1 := by omega
    have htor : (⟨false, (sqrtEs x + (bias ew : ℤ)).toNat, sqrtC x - 2 ^ mw⟩ : Fp ew mw).toRat
        = (sqrtC x : ℚ) * (2:ℚ) ^ (sqrtEs x - mw) := by
      rw [toRat_mk, if_neg hexne, if_neg hexne,
        show (((sqrtEs x + (bias ew : ℤ)).toNat : ℕ) : ℤ) = sqrtEs x + bias ew from by omega,
        show (if (false = true) then (-1:ℚ) else 1) = 1 from rfl, one_mul]
      have hzc : ((2:ℚ) ^ mw + ((sqrtC x - 2 ^ mw : ℕ) : ℚ)) = (sqrtC x : ℚ) := by
        have h1 : ((sqrtC x - 2 ^ mw : ℕ) : ℚ) = (sqrtC x : ℚ) - 2 ^ mw := by
          push_cast [Nat.cast_sub hC_lb]
          ring
        rw [h1]
        ring
      rw [hzc, show (sqrtEs x + (bias ew : ℤ) - bias ew - mw) = sqrtEs x - mw from by ring]
    refine ⟨rfl, ?_, ?_, ?_, ?_, ?_⟩
    · apply Fp.isNan_eq_false_of_ex
      show ¬ ((sqrtEs x + (bias ew : ℤ)).toNat = emaxF ew)
      rw [emaxF]
      omega
    · apply Fp.isInf_eq_false_of_ex
      show ¬ ((sqrtEs x + (bias ew : ℤ)).toNat = emaxF ew)
      rw [emaxF]
      omega
    · constructor
      · show (sqrtEs x + (bias ew : ℤ)).toNat < 2 ^ ew
        omega
      · show sqrtC x - 2 ^ mw < 2 ^ mw
        have h1 : (2:ℕ) ^ (mw + 1) = 2 ^ mw + 2 ^ mw := by
          rw [pow_succ]
          ring
        omega
    · rw [htor]
      positivity
    · rw [htor]
      calc (sqrtC x : ℚ) * (2:ℚ) ^ (sqrtEs x - mw)
          ≤ ((2 ^ (b + mw - sqrtEs x).toNat : ℕ) : ℚ) * (2:ℚ) ^ (sqrtEs x - mw) := by
            apply mul_le_mul_of_nonneg_right _ (two_zpow_pos _).le
            exact_mod_cast hC_ubP
        _ = (2:ℚ) ^ b := by
            rw [q_pow_toNat _ hPnn, ← two_zpow_add]
            congr 1
            ring

/-! ## `acoshf`: branch dispatch and sign analysis -/

theorem bias8 : (bias 8 : ℤ) = 127 := by
  rw [bias]
  norm_num

theorem Fp.isZero_fields (x : Fp ew mw) (h : x.isZero = true) : x.ex = 0 ∧ x.frac = 0 := by
  rw [Fp.isZero, Bool.and_eq_true, beq_iff_eq, beq_iff_eq] at h
  exact h

theorem Fp.toRat_eq_zero_of_isZero (x : Fp ew mw) (h : x.isZero = true) : x.toRat = 0 := by
  obtain ⟨h1, h2⟩ := Fp.isZero_fields x h
  rw [Fp.toRat_eq]
  have hsig : x.sigN = 0 := by
    rw [Fp.sigN, if_pos h1, h2]
  rw [hsig]
  push_cast
  ring

theorem Fp.isZero_false_of_toRat_ne (x : Fp ew mw) (h : x.toRat ≠ 0) : x.isZero = false := by
  rcases hz : x.isZero with _ | _
  · rfl
  · exact absurd (Fp.toRat_eq_zero_of_isZero x hz) h

theorem roundR_P (v : ℚ) (hew : 2 ≤ ew) (hv : 0 ≤ v) :
    (roundR ew mw v).isNan = false ∧ 0 ≤ (roundR ew mw v).toRat := by
  refine ⟨roundR_not_nan _ hew, ?_⟩
  apply Fp.toRat_nonneg
  rw [roundR_sign]
  simp only [decide_eq_false_iff_not]
  linarith

theorem ex_ge_of_toRat_ge (x : F32) (hv : x.Valid) (k : ℕ)
    (hk : (2:ℚ) ^ ((k:ℕ) : ℤ) ≤ x.toRat) :
    127 + k ≤ x.ex ∧ x.sign = false ∧ x.isZero = false := by
  have hvpos : 0 < x.toRat := lt_of_lt_of_le (two_zpow_pos _) hk
  have hsig : x.sigN ≠ 0 := by
    intro h0
    have : x.toRat = 0 := by
      rw [Fp.toRat_eq, h0]
      push_cast
      ring
    linarith
  have hs : x.sign = false := by
    rcases hsw : x.sign with _ | _
    · rfl
    · have := (Fp.toRat_neg_iff x hsig).mpr hsw
      linarith
  have hlog : (k : ℤ) ≤ Int.log 2 x.toRat := by
    apply (Int.zpow_le_iff_le_log (by norm_num) hvpos).mp
    rw [two_nat_cast_q]
    exact hk
  have hle := Fp.log_abs_toRat_le x hv hsig
  rw [abs_of_pos hvpos] at hle
  have huexp : (k : ℤ) ≤ x.uexp := le_trans hlog hle
  rw [Fp.uexp, bias8] at huexp
  by_cases hex : x.ex = 0
  · rw [if_pos hex] at huexp
    omega
  · rw [if_neg hex] at huexp
    refine ⟨by omega, hs, ?_⟩
    rw [Fp.isZero]
    simp [hex]

theorem toRat_bounds_of_ex32 (x : F32) (hv : x.Valid) (hs : x.sign = false)
    (hex : x.ex ≠ 0) :
    (2:ℚ) ^ ((x.ex : ℤ) - 127) ≤ x.toRat ∧ x.toRat < (2:ℚ) ^ ((x.ex : ℤ) - 126) := by
  have htr : x.toRat = (x.sigN : ℚ) * 2 ^ (x.uexp - 23) := by
    rw [Fp.toRat_eq, hs]
    simp only [Bool.false_eq_true, if_false, one_mul]
    norm_num
  have huexp : x.uexp = (x.ex : ℤ) - 127 := by
    rw [Fp.uexp, if_neg hex, bias8]
  have hsig1 : ((2 ^ 23 : ℕ) : ℚ) ≤ (x.sigN : ℚ) := by
    have h1 : (2 ^ 23 : ℕ) ≤ x.sigN := by
      rw [Fp.sigN, if_neg hex]
      omega
    exact_mod_cast h1
  have hsig2 : ((x.sigN : ℚ)) < ((2 ^ 24 : ℕ) : ℚ) := by
    have h2 : x.sigN < 2 ^ 24 := by
      have h3 := hv.2
      rw [Fp.sigN, if_neg hex]
      norm_num at h3 ⊢
      omega
    exact_mod_cast h2
  constructor
  · calc (2:ℚ) ^ ((x.ex : ℤ) - 127)
        = ((2 ^ 23 : ℕ) : ℚ) * 2 ^ (x.uexp - 23) := by
          rw [huexp,
            show (((2 ^ 23 : ℕ)) : ℚ) = (2:ℚ) ^ (((23:ℕ)) : ℤ) from by
              rw [two_zpow_cast]
              norm_num,
            ← two_zpow_add]
          congr 1
          ring
      _ ≤ (x.sigN : ℚ) * 2 ^ (x.uexp - 23) :=
          mul_le_mul_of_nonneg_right hsig1 (two_zpow_pos _).le
      _ = x.toRat := htr.symm
  · calc x.toRat = (x.sigN : ℚ) * 2 ^ (x.uexp - 23) := htr
      _ < ((2 ^ 24 : ℕ) : ℚ) * 2 ^ (x.uexp - 23) :=
          mul_lt_mul_of_pos_right hsig2 (two_zpow_pos _)
      _ = (2:ℚ) ^ ((x.ex : ℤ) - 126) := by
          rw [huexp,
            show (((2 ^ 24 : ℕ)) : ℚ) = (2:ℚ) ^ (((24:ℕ)) : ℤ) from by
              rw [two_zpow_cast]
              norm_num,
            ← two_zpow_add]
          congr 1
          ring

theorem le_one32_dest (x : F32) (hf : x.isFinite = true) (hle : Fp.le one32 x = true) :
    x.isNan = false ∧ (1:ℚ) ≤ x.toRat := by
  rw [Fp.le] at hle
  by_cases hn : x.isNan = true
  · rw [if_pos (by simp [hn])] at hle
    exact absurd hle (by norm_num)
  · have hn' : x.isNan = false := by simpa using hn
    rw [if_neg (by simp [show one32.isNan = false from by decide, hn'])] at hle
    rw [if_neg (by simp [show one32.isInf = false from by decide])] at hle
    rw [if_neg (by simp [Fp.finite_not_inf x hf])] at hle
    rw [Q.ble_iff _ _ (Fp.toQ_den_pos _) (Fp.toQ_den_pos _), Fp.toQ_val, Fp.toQ_val,
      one32_toRat] at hle
    exact ⟨hn', hle⟩

theorem logf_P (w : F32) (hnn : w.isNan = false) (hnz : w.isZero = false)
    (hs : w.sign = false) (hni : w.isInf = false) (hex : 127 ≤ w.ex) :
    (logf w).isNan = false ∧ 0 ≤ (logf w).toRat := by
  have hex0 : w.ex ≠ 0 := by omega
  rw [logf, if_neg (by simp [hnn]), hnz]
  simp only [Bool.false_eq_true, if_false]
  rw [hs]
  simp only [Bool.false_eq_true, if_false]
  rw [hni]
  simp only [Bool.false_eq_true, if_false]
  rw [roundF_eq_roundR _ (by exact Nat.one_pos), Q.val_ofInt, if_neg hex0]
  apply roundR_P _ (by norm_num)
  have h0 : (0:ℤ) ≤ (w.ex : ℤ) - bias 8 := by
    rw [bias8]
    omega
  exact_mod_cast h0

theorem log1pf_P (u : F32) (hnn : u.isNan = false) (hur : 0 ≤ u.toRat) :
    Fp.le (Fp.pzero 8 23) (log1pf u) = true := by
  rw [log1pf, if_neg (by simp [hnn])]
  by_cases hinf : u.isInf = true
  · rw [if_pos hinf]
    have hsig : u.sigN ≠ 0 := Fp.inf_sigN u (by norm_num) hinf
    have hs : u.sign = false := by
      rcases hsw : u.sign with _ | _
      · rfl
      · have := (Fp.toRat_neg_iff u hsig).mpr hsw
        linarith
    rw [hs]
    simp only [Bool.false_eq_true, if_false]
    exact Fp.le_pzero_of_nonneg u (by norm_num) hnn hur
  · have hinf' : u.isInf = false := by simpa using hinf
    rw [hinf']
    simp only [Bool.false_eq_true, if_false]
    have hneg1 : (Fp.neg one32).toRat = -1 := by
      rw [Fp.toRat_neg_eq, one32_toRat]
    have hlt : Fp.lt u (Fp.neg one32) = false := by
      rw [Fp.lt, if_neg (by simp [hnn, show (Fp.neg one32).isNan = false from rfl]),
        if_neg (by simp [hinf']),
        if_neg (by simp [show (Fp.neg one32).isInf = false from by decide])]
      rcases hb : u.toQ.blt (Fp.neg one32).toQ with _ | _
      · rfl
      · exfalso
        have hblt := (Q.blt_iff _ _ (Fp.toQ_den_pos _) (Fp.toQ_den_pos _)).mp hb
        rw [Fp.toQ_val, Fp.toQ_val, hneg1] at hblt
        linarith
    rw [hlt]
    simp only [Bool.false_eq_true, if_false]
    have hne : ¬ (u = Fp.neg one32) := by
      intro he
      rw [he, hneg1] at hur
      linarith
    rw [if_neg hne]
    exact Fp.le_pzero_of_nonneg u (by norm_num) hnn hur

theorem acoshf_branch1 (x : F32) (hv : x.Valid) (hex : x.ex ≤ 127) :
    acoshf x = log1pf (Fp.add (Fp.sub x one32)
      (sqrtf (Fp.add (Fp.mul (Fp.sub x one32) (Fp.sub x one32))
        (Fp.mul two32 (Fp.sub x one32))))) := by
  have ha : x.toBits &&& 0x7fffffff = x.ex * 8388608 + x.frac := Fp.toBits_abs32 x hv
  have hlit1 : (0x3f800000 + 1 <<< 23 : Nat) = 1073741824 := by
    norm_num [Nat.shiftLeft_eq]
  have hfr : x.frac < 8388608 := by
    have h := hv.2
    norm_num at h
    exact h
  simp only [acoshf]
  rw [ha, hlit1, if_pos (by omega)]

theorem acoshf_branch2 (x : F32) (hv : x.Valid) (hex1 : 128 ≤ x.ex) (hex2 : x.ex ≤ 138) :
    acoshf x = logf (Fp.sub (Fp.mul two32 x)
      (Fp.div one32 (Fp.add x (sqrtf (Fp.sub (Fp.mul x x) one32))))) := by
  have ha : x.toBits &&& 0x7fffffff = x.ex * 8388608 + x.frac := Fp.toBits_abs32 x hv
  have hlit1 : (0x3f800000 + 1 <<< 23 : Nat) = 1073741824 := by
    norm_num [Nat.shiftLeft_eq]
  have hlit2 : (0x3f800000 + 12 <<< 23 : Nat) = 1166016512 := by
    norm_num [Nat.shiftLeft_eq]
  have hfr : x.frac < 8388608 := by
    have h := hv.2
    norm_num at h
    exact h
  simp only [acoshf]
  rw [ha, hlit1, hlit2, if_neg (by omega), if_pos (by omega)]

theorem acoshf_branch3 (x : F32) (hv : x.Valid) (hex : 139 ≤ x.ex) :
    acoshf x = Fp.add (logf x) ln2F32 := by
  have ha : x.toBits &&& 0x7fffffff = x.ex * 8388608 + x.frac := Fp.toBits_abs32 x hv
  have hlit1 : (0x3f800000 + 1 <<< 23 : Nat) = 1073741824 := by
    norm_num [Nat.shiftLeft_eq]
  have hlit2 : (0x3f800000 + 12 <<< 23 : Nat) = 1166016512 := by
    norm_num [Nat.shiftLeft_eq]
  simp only [acoshf]
  rw [ha, hlit1, hlit2, if_neg (by omega), if_neg (by omega)]

theorem two32_toRat : two32.toRat = 2 := by
  rw [Fp.toRat_eq]
  have hs : two32.sigN = 2 ^ 23 := rfl
  have hu : two32.uexp = 1 := by decide
  have hsn : two32.sign = false := rfl
  rw [hs, hu, hsn]
  rw [if_neg (by simp : ¬ false = true)]
  rw [one_mul]
  rw [show ((1:ℤ) - (23:ℕ)) = -((22:ℕ):ℤ) from by norm_num]
  rw [zpow_neg, two_zpow_cast]
  push_cast
  norm_num

/-- C8: `acoshf(1.0) == 0.0` exactly, and for every finite f32 `x` with
`x ≥ 1` (as a float comparison), `acoshf(x) ≥ 0` (as a float comparison). -/
theorem C8_acoshf_nonneg :
    acoshf one32 = Fp.pzero 8 23 ∧
    ∀ x : F32, x.Valid → x.isFinite = true → Fp.le one32 x = true →
      Fp.le (Fp.pzero 8 23) (acoshf x) = true := by
  constructor
  · decide
  · intro x hv hf hle
    obtain ⟨hxnn, h1x⟩ := le_one32_dest x hf hle
    have hxni : x.isInf = false := Fp.finite_not_inf x hf
    obtain ⟨hex127, hs, hxnz⟩ := ex_ge_of_toRat_ge x hv 0 (by
      rw [show (2:ℚ) ^ ((((0:ℕ)):ℤ)) = 1 from by norm_num]
      exact h1x)
    by_cases hex1 : x.ex ≤ 127
    · -- branch 1: `log1pf(x-1 + sqrtf((x-1)*(x-1) + 2*(x-1)))`
      rw [acoshf_branch1 x hv hex1]
      simp only [sqrtf]
      have hPd : (Fp.sub x one32).isNan = false ∧ 0 ≤ (Fp.sub x one32).toRat := by
        rw [Fp.sub]
        apply Fp.addP_val x (Fp.neg one32) (by norm_num) hxnn (by decide) hxni (by decide)
        rw [Fp.toRat_neg_eq, one32_toRat]
        linarith
      have hP1 : (Fp.mul (Fp.sub x one32) (Fp.sub x one32)).isNan = false ∧
          0 ≤ (Fp.mul (Fp.sub x one32) (Fp.sub x one32)).toRat := by
        apply Fp.mulP _ _ (by norm_num) hPd.1 hPd.1 hPd.2 hPd.2
        all_goals
          intro hc
          have hz := Fp.inf_not_zero (Fp.sub x one32) (by norm_num) hc.1
          rw [hc.2] at hz
          exact Bool.noConfusion hz
      have hP2 : (Fp.mul two32 (Fp.sub x one32)).isNan = false ∧
          0 ≤ (Fp.mul two32 (Fp.sub x one32)).toRat := by
        apply Fp.mulP _ _ (by norm_num) (by decide) hPd.1
          (Fp.toRat_nonneg two32 rfl) hPd.2
        · intro hc
          exact absurd hc.1 (by decide)
        · intro hc
          exact absurd hc.2 (by decide)
      have hPa := Fp.addP _ _ (by norm_num) hP1.1 hP2.1 hP1.2 hP2.2
      have hav : (Fp.add (Fp.mul (Fp.sub x one32) (Fp.sub x one32))
          (Fp.mul two32 (Fp.sub x one32))).Valid :=
        Fp.add_valid _ _ (by norm_num) (by norm_num)
      have hPs := Fp.sqrtP _ hav (by norm_num) (by norm_num) hPa.1 hPa.2
      have hPu := Fp.addP _ _ (by norm_num) hPd.1 hPs.1 hPd.2 hPs.2
      exact log1pf_P _ hPu.1 hPu.2
    · by_cases hex2 : x.ex ≤ 138
      · -- branch 2: `logf(2x - 1/(x + sqrtf(x*x - 1)))`
        have hex1' : 128 ≤ x.ex := by omega
        rw [acoshf_branch2 x hv hex1' hex2]
        simp only [sqrtf]
        have e1 : (2:ℚ) ^ (1:ℤ) = 2 := by norm_num
        have e2 : (2:ℚ) ^ (2:ℤ) = 4 := by norm_num
        have e12 : (2:ℚ) ^ (12:ℤ) = 4096 := by norm_num
        have e13 : (2:ℚ) ^ (13:ℤ) = 8192 := by norm_num
        have e24 : (2:ℚ) ^ (24:ℤ) = 16777216 := by norm_num
        have en1 : (2:ℚ) ^ (-1:ℤ) = 1/2 := by norm_num
        have e127 : (16777216:ℚ) ≤ (2:ℚ) ^ (127:ℤ) := by
          rw [show ((16777216:ℚ)) = (2:ℚ) ^ (24:ℤ) from by norm_num]
          exact zpow_le_zpow_right₀ (by norm_num) (by norm_num)
        obtain ⟨hxlo, hxhi⟩ := toRat_bounds_of_ex32 x hv hs (by omega)
        have hx2 : (2:ℚ) ≤ x.toRat := by
          refine le_trans ?_ hxlo
          calc (2:ℚ) = (2:ℚ) ^ (1:ℤ) := by norm_num
            _ ≤ (2:ℚ) ^ ((x.ex:ℤ) - 127) :=
              zpow_le_zpow_right₀ (by norm_num) (by omega)
        have hx12 : x.toRat < (4096:ℚ) := by
          rw [← e12]
          exact lt_of_lt_of_le hxhi (zpow_le_zpow_right₀ (by norm_num) (by omega))
        set m2 := Fp.mul x x with hm2def
        have hm2eq : m2 = roundR 8 23 (x.toRat * x.toRat) := by
          rw [hm2def]
          exact Fp.mul_eq_roundR x x hxnn hxnn hxni hxni hxnz hxnz
        have hxx4 : (4:ℚ) ≤ x.toRat * x.toRat := by nlinarith [hx2]
        have hxxub : x.toRat * x.toRat < 16777216 := by nlinarith [hx2, hx12]
        obtain ⟨hm2s, hm2nn, hm2ni, hm2lb⟩ : m2.sign = false ∧ m2.isNan = false ∧
            m2.isInf = false ∧ (2:ℚ) ^ (2:ℤ) ≤ m2.toRat := by
          rw [hm2eq]
          exact roundR_lb _ 2 (by norm_num) (by norm_num) (by rw [bias8]; norm_num)
            (by rw [e2]; exact hxx4)
            (by rw [bias8]; exact lt_of_lt_of_le hxxub e127)
        rw [e2] at hm2lb
        have hm2ub : m2.toRat ≤ (16777216:ℚ) := by
          rw [← e24, hm2eq]
          exact (roundR_ub _ 24 (by norm_num) (by norm_num) (by rw [bias8]; norm_num)
            (by rw [bias8]; norm_num) (by linarith) (by rw [e24]; linarith)).2.2.2.2
        set s1 := Fp.sub m2 one32 with hs1def
        have hs1eq : s1 = roundR 8 23 (m2.toRat - 1) := by
          rw [hs1def, Fp.sub_eq_roundR m2 one32 hm2nn (by decide) hm2ni (by decide)
            (by rw [one32_toRat]; intro h; linarith), one32_toRat]
        obtain ⟨hs1s, hs1nn, hs1ni, hs1lb⟩ : s1.sign = false ∧ s1.isNan = false ∧
            s1.isInf = false ∧ (2:ℚ) ^ (1:ℤ) ≤ s1.toRat := by
          rw [hs1eq]
          exact roundR_lb _ 1 (by norm_num) (by norm_num) (by rw [bias8]; norm_num)
            (by rw [e1]; linarith)
            (by rw [bias8]; refine lt_of_lt_of_le ?_ e127; linarith)
        rw [e1] at hs1lb
        have hs1ub : s1.toRat ≤ (16777216:ℚ) := by
          rw [← e24, hs1eq]
          exact (roundR_ub _ 24 (by norm_num) (by norm_num) (by rw [bias8]; norm_num)
            (by rw [bias8]; norm_num) (by linarith) (by rw [e24]; linarith)).2.2.2.2
        have hs1val : s1.Valid := by
          rw [hs1def, Fp.sub]
          exact Fp.add_valid _ _ (by norm_num) (by norm_num)
        have hs1z : s1.isZero = false :=
          Fp.isZero_false_of_toRat_ne s1 (by intro h; rw [h] at hs1lb; linarith)
        set sq := Fp.sqrt s1 with hsqdef
        obtain ⟨hsqs, hsqnn, hsqni, hsqval, hsqnn0, hsqub⟩ : sq.sign = false ∧
            sq.isNan = false ∧ sq.isInf = false ∧ sq.Valid ∧
            0 ≤ sq.toRat ∧ sq.toRat ≤ (2:ℚ) ^ (12:ℤ) := by
          rw [hsqdef]
          exact Fp.sqrt_ub s1 hs1val (by norm_num) (by norm_num) hs1s hs1nn hs1ni hs1z
            12 (by norm_num) (by rw [bias8]; norm_num)
            (by linarith)
            (by rw [show (2 * (12:ℤ)) = 24 from by norm_num, e24]; exact hs1ub)
        rw [e12] at hsqub
        set t := Fp.add x sq with htdef
        have hteq : t = roundR 8 23 (x.toRat + sq.toRat) := by
          rw [htdef]
          exact Fp.add_eq_roundR x sq hxnn hsqnn hxni hsqni (by intro h; linarith)
        obtain ⟨hts, htnn, htni, htlb⟩ : t.sign = false ∧ t.isNan = false ∧
            t.isInf = false ∧ (2:ℚ) ^ (1:ℤ) ≤ t.toRat := by
          rw [hteq]
          exact roundR_lb _ 1 (by norm_num) (by norm_num) (by rw [bias8]; norm_num)
            (by rw [e1]; linarith)
            (by rw [bias8]; refine lt_of_lt_of_le ?_ e127; linarith)
        rw [e1] at htlb
        have htval : t.Valid := by
          rw [htdef]
          exact Fp.add_valid _ _ (by norm_num) (by norm_num)
        have htz : t.isZero = false :=
          Fp.isZero_false_of_toRat_ne t (by intro h; rw [h] at htlb; linarith)
        set d := Fp.div one32 t with hddef
        have hdeq : d = roundR 8 23 (1 / t.toRat) := by
          rw [hddef, Fp.div_eq_roundR one32 t (by decide) htnn (by decide) htni
            (by decide) htz (by norm_num) htval, one32_toRat]
        obtain ⟨hds, hdnn, hdni, hdnn0, hdub⟩ : d.sign = false ∧ d.isNan = false ∧
            d.isInf = false ∧ 0 ≤ d.toRat ∧ d.toRat ≤ (2:ℚ) ^ (-1:ℤ) := by
          rw [hdeq]
          exact roundR_ub _ (-1) (by norm_num) (by norm_num) (by rw [bias8]; norm_num)
            (by rw [bias8]; norm_num)
            (div_pos one_pos (by linarith))
            (by
              rw [en1, div_le_div_iff (by linarith) (by norm_num)]
              linarith)
        rw [en1] at hdub
        set m1 := Fp.mul two32 x with hm1def
        have hm1eq : m1 = roundR 8 23 (2 * x.toRat) := by
          rw [hm1def, Fp.mul_eq_roundR two32 x (by decide) hxnn (by decide) hxni
            (by decide) hxnz, two32_toRat]
        obtain ⟨hm1s, hm1nn, hm1ni, hm1lb⟩ : m1.sign = false ∧ m1.isNan = false ∧
            m1.isInf = false ∧ (2:ℚ) ^ (2:ℤ) ≤ m1.toRat := by
          rw [hm1eq]
          exact roundR_lb _ 2 (by norm_num) (by norm_num) (by rw [bias8]; norm_num)
            (by rw [e2]; linarith)
            (by rw [bias8]; refine lt_of_lt_of_le ?_ e127; linarith)
        rw [e2] at hm1lb
        have hm1ub : m1.toRat ≤ (8192:ℚ) := by
          rw [← e13, hm1eq]
          exact (roundR_ub _ 13 (by norm_num) (by norm_num) (by rw [bias8]; norm_num)
            (by rw [bias8]; norm_num) (by linarith) (by rw [e13]; linarith)).2.2.2.2
        set vv := Fp.sub m1 d with hvvdef
        have hvveq : vv = roundR 8 23 (m1.toRat - d.toRat) := by
          rw [hvvdef]
          exact Fp.sub_eq_roundR m1 d hm1nn hdnn hm1ni hdni (by intro h; linarith)
        obtain ⟨hvs, hvnn, hvni, hvlb⟩ : vv.sign = false ∧ vv.isNan = false ∧
            vv.isInf = false ∧ (2:ℚ) ^ (1:ℤ) ≤ vv.toRat := by
          rw [hvveq]
          exact roundR_lb _ 1 (by norm_num) (by norm_num) (by rw [bias8]; norm_num)
            (by rw [e1]; linarith)
            (by rw [bias8]; refine lt_of_lt_of_le ?_ e127; linarith)
        have hvvval : vv.Valid := by
          rw [hvvdef, Fp.sub]
          exact Fp.add_valid _ _ (by norm_num) (by norm_num)
        obtain ⟨hvex, -, hvz⟩ := ex_ge_of_toRat_ge vv hvvval 1 (by
          rw [show ((((1:ℕ)):ℤ)) = (1:ℤ) from rfl]
          exact hvlb)
        have hPl := logf_P vv hvnn hvz hvs hvni (by omega)
        exact Fp.le_pzero_of_nonneg _ (by norm_num) hPl.1 hPl.2
      · -- branch 3: `logf(x) + LN2`
        have hex3 : 139 ≤ x.ex := by omega
        rw [acoshf_branch3 x hv hex3]
        have hPl := logf_P x hxnn hxnz hs hxni (by omega)
        have hPln2 : ln2F32.isNan = false ∧ 0 ≤ ln2F32.toRat :=
          ⟨by decide, Fp.toRat_nonneg ln2F32 rfl⟩
        have hPa := Fp.addP _ _ (by norm_num) hPl.1 hPln2.1 hPl.2 hPln2.2
        exact Fp.le_pzero_of_nonneg _ (by norm_num) hPa.1 hPa.2

theorem C8_witness :
    Fp.le (Fp.pzero 8 23) (acoshf ⟨false, 127, 4194304⟩) = true ∧
    Fp.le (Fp.pzero 8 23) (acoshf two32) = true ∧
    Fp.le (Fp.pzero 8 23) (acoshf ⟨false, 140, 0⟩) = true :=
  ⟨C8_acoshf_nonneg.2 ⟨false, 127, 4194304⟩ (by decide) (by decide) (by decide),
   C8_acoshf_nonneg.2 two32 (by decide) (by decide) (by decide),
   C8_acoshf_nonneg.2 ⟨false, 140, 0⟩ (by decide) (by decide) (by decide)⟩
